import Mathlib

/-!
Shallow embedding of the MVCC forward scanner
(`src/storage/mvcc/reader/forward_scanner.rs`).

User keys are byte sequences modelled as `List Nat`, compared with the
lexicographic linear order that Mathlib provides on lists.  Keys of the
write column family carry an appended commit timestamp whose encoding
makes larger timestamps sort earlier within one user key; we model such
an encoded key as a pair of the user key and the timestamp, ordered by
`wkeyLt` below, and the key-codec operations `truncate_ts_for`,
`decode_ts_from`, `is_user_key_eq` and `append_ts` become projections and
the pair constructor.

Each column family is exposed to the scanner through a cursor.  We model
a cursor as the (already range-bounded, sorted) list of its records
together with the current position; `seek` positions on the first record
whose key is not below the target, `next` increments the position, and
`valid` checks the position is in range.  Statistics counters are
threaded exactly where the source threads them; `internal_seek` differs
from `seek` only in not counting towards the user-visible seek counter.

Values of the write and lock column families are stored already decoded
(`Write::parse` and `Lock::parse` are external codecs; decode errors are
fatal and outside the claims), while panics (`assert!`, `unwrap`) are
modelled as distinguished error values of a total function.
-/

namespace FwdScan

abbrev Bytes := List Nat
abbrev Value := List Nat

/-- Kind of a write record: `WriteType` in the source. -/
inductive WriteType
  | put
  | delete
  | lockKind
  | rollback
deriving DecidableEq, Repr

/-- Decoded write record: `{write_type, start_ts, short_value}`. -/
structure WriteRec where
  write_type : WriteType
  start_ts : Nat
  short_value : Option Value
deriving DecidableEq, Repr

/-- Encoded key of the write column family: user key plus commit
timestamp (`user_key.append_ts(commit_ts)` in the source). -/
structure WKey where
  user : Bytes
  ts : Nat
deriving DecidableEq, Repr

/-- Decoded lock record; its contents are opaque to the scanner (only
`check_lock` inspects them). -/
structure LockRec where
  primary : Bytes
  lock_ts : Nat
  ttl : Nat
  kind : Nat
  lock_short_value : Option Value
deriving DecidableEq, Repr

/-- Outcome of the external `check_lock` helper (`CheckLockResult` in
`reader/util.rs`). -/
inductive CheckLockResult
  | locked (err : Nat)
  | notLocked
  | ignored (ts : Nat)
deriving DecidableEq, Repr

/-- Isolation level of the read (`kvproto::kvrpcpb::IsolationLevel`). -/
inductive IsolationLevel
  | si
  | rc
deriving DecidableEq, Repr

/-- Errors a scan can produce.  `keyIsLocked` is the recoverable per-key
error; `corruption` models the default-CF-record-absent logic error;
`assertFail` models the two `assert!` panics in `read_next`/`get`;
`unwrapPanic` models the `lower_bound.as_ref().unwrap()` panic;
`invalidAccess` models reading key/value of an invalid cursor;
`fuelExhausted` is an artefact of totalising the outer loop and is shown
unreachable on well-formed stores. -/
inductive ScanError
  | keyIsLocked (err : Nat)
  | corruption
  | assertFail
  | unwrapPanic
  | invalidAccess
  | fuelExhausted
deriving DecidableEq, Repr

/-- Order on encoded write keys: user keys ascending, and within one
user key larger timestamps sort earlier (the memcomparable ts encoding
of the source). -/
def wkeyLt (a b : WKey) : Prop :=
  a.user < b.user ∨ (a.user = b.user ∧ b.ts < a.ts)

instance (a b : WKey) : Decidable (wkeyLt a b) := by
  unfold wkeyLt; infer_instance

/-- Per-column-family statistics counters (the fields of `CfStatistics`
the scanner touches). -/
structure CfStats where
  nextCnt : Nat := 0
  seekCnt : Nat := 0
  processed : Nat := 0
deriving DecidableEq, Repr

/-- Statistics sink threaded through every cursor operation. -/
structure Stats where
  write : CfStats := {}
  lock : CfStats := {}
  data : CfStats := {}
deriving DecidableEq, Repr

/-- Modelled from the spec: `SEEK_BOUND` lives in `storage::engine`,
which is not part of the sources; the spec describes it as the small
integer threshold, e.g. 8, that the engine publishes. -/
def SEEK_BOUND : Nat := 8

/-- The `ForwardScanner` state: configuration, the three cursors (each a
sorted record list plus a position), and bookkeeping.  The lock and
write cursors exist from construction; the default cursor is created
lazily (`defaultCursorBuilt`), consuming the retained range bounds. -/
structure Scanner where
  omit_value : Bool
  isolation_level : IsolationLevel
  lower_bound : Option Bytes
  upper_bound : Option Bytes
  ts : Nat
  lockItems : List (Bytes × LockRec)
  lockPos : Nat
  writeItems : List (WKey × WriteRec)
  writePos : Nat
  defaultItems : List (WKey × Value)
  defaultCursorBuilt : Bool
  is_started : Bool
  statistics : Stats
deriving DecidableEq, Repr

namespace Scanner

/-- Validity of the write cursor. -/
def wValid (s : Scanner) : Bool := s.writePos < s.writeItems.length

/-- Record under the write cursor, when valid. -/
def wEntry (s : Scanner) : Option (WKey × WriteRec) := s.writeItems.get? s.writePos

/-- Validity of the lock cursor. -/
def lValid (s : Scanner) : Bool := s.lockPos < s.lockItems.length

/-- Record under the lock cursor, when valid. -/
def lEntry (s : Scanner) : Option (Bytes × LockRec) := s.lockItems.get? s.lockPos

/-- Write-cursor `next()` with its statistics increment. -/
def bumpWNext (s : Scanner) : Scanner :=
  { s with
    writePos := s.writePos + 1
    statistics := { s.statistics with
      write := { s.statistics.write with nextCnt := s.statistics.write.nextCnt + 1 } } }

/-- Lock-cursor `next()` with its statistics increment. -/
def bumpLNext (s : Scanner) : Scanner :=
  { s with
    lockPos := s.lockPos + 1
    statistics := { s.statistics with
      lock := { s.statistics.lock with nextCnt := s.statistics.lock.nextCnt + 1 } } }

/-- Counting a processed write record (`statistics.write.processed += 1`). -/
def incWProcessed (s : Scanner) : Scanner :=
  { s with
    statistics := { s.statistics with
      write := { s.statistics.write with processed := s.statistics.write.processed + 1 } } }

/-- Position the seek contract assigns on a sorted record list: the
first index whose key is not below the target. -/
def seekIdxW (items : List (WKey × WriteRec)) (k : WKey) : Nat :=
  items.findIdx (fun e => ¬ wkeyLt e.1 k)

/-- Write-cursor `seek(k)`: reposition and count a user-visible seek. -/
def wSeek (s : Scanner) (k : WKey) : Scanner :=
  { s with
    writePos := seekIdxW s.writeItems k
    statistics := { s.statistics with
      write := { s.statistics.write with seekCnt := s.statistics.write.seekCnt + 1 } } }

/-- Write-cursor `internal_seek(k)`: reposition without touching the
user-visible seek counter. -/
def wInternalSeek (s : Scanner) (k : WKey) : Scanner :=
  { s with writePos := seekIdxW s.writeItems k }

/-- Initial write-cursor seek to an encoded user key with no timestamp:
the raw-bytes comparison places such a key before every timestamped key
of the same or larger user key, so the landing spot is the first record
whose user-key component is not below the bound. -/
def wSeekUserKey (s : Scanner) (u : Bytes) : Scanner :=
  { s with
    writePos := s.writeItems.findIdx (fun e => ¬ e.1.user < u)
    statistics := { s.statistics with
      write := { s.statistics.write with seekCnt := s.statistics.write.seekCnt + 1 } } }

/-- Initial lock-cursor seek to a user key. -/
def lSeekUserKey (s : Scanner) (u : Bytes) : Scanner :=
  { s with
    lockPos := s.lockItems.findIdx (fun e => ¬ e.1 < u)
    statistics := { s.statistics with
      lock := { s.statistics.lock with seekCnt := s.statistics.lock.seekCnt + 1 } } }

/-- Lazy creation of the default cursor (`ensure_default_cursor`): on
first demand, mark it built and consume the retained range bounds. -/
def ensure_default_cursor (s : Scanner) : Scanner :=
  if s.defaultCursorBuilt then s
  else { s with defaultCursorBuilt := true, lower_bound := none, upper_bound := none }

/-- Modelled from the spec: `near_load_data_by_write` lives in
`reader/util.rs`, which is not part of the sources.  Per the spec it
positions the default cursor on exactly `user_key.append_ts(write.start_ts)`
and returns the value there; absence of that record is a
storage-corruption logic error. -/
def near_load_data_by_write (s : Scanner) (user_key : Bytes) (write : WriteRec) :
    Except ScanError Value × Scanner :=
  let s1 := { s with
    statistics := { s.statistics with
      data := { s.statistics.data with processed := s.statistics.data.processed + 1 } } }
  match (s.defaultItems.find? (fun e => e.1 = ⟨user_key, write.start_ts⟩)) with
  | some e => (Except.ok e.2, s1)
  | none => (Except.error ScanError.corruption, s1)

/-- Value loading for a resolved Put (`load_data_by_write`): empty value
when `omit_value`, the inlined short value when present, otherwise a
lazy default-cursor near-load. -/
def load_data_by_write (s : Scanner) (write : WriteRec) (user_key : Bytes) :
    Except ScanError Value × Scanner :=
  if s.omit_value then (Except.ok [], s)
  else
    match write.short_value with
    | some v => (Except.ok v, s)
    | none =>
        let s1 := ensure_default_cursor s
        near_load_data_by_write s1 user_key write

/-- Result of the bounded-next phase of `get` (the `for i in 0..SEEK_BOUND`
loop): the cursor ran off the end, met another user key, found a
position with timestamp at most `ts`, or exhausted the bound without
finding one (`needs_seek` stayed true). -/
inductive NextLoopRes
  | ended
  | metAnother
  | found
  | exhausted
deriving DecidableEq, Repr

/-- Bounded-next phase of `get`: up to `fuel` inspections of the write
cursor, advancing by `next()` between inspections (so the first
inspection looks at the entry position without advancing).  Mirrors the
source loop in which iteration `i > 0` first calls `next()`. -/
def getNextLoop (u : Bytes) (ts : Nat) : Nat → Scanner → Scanner × NextLoopRes
  | 0, s => (s, NextLoopRes.exhausted)
  | n + 1, s =>
      match s.wEntry with
      | none => (s, NextLoopRes.ended)
      | some e =>
          if e.1.user ≠ u then (s, NextLoopRes.metAnother)
          else if e.1.ts ≤ ts then (s, NextLoopRes.found)
          else if n = 0 then (s, NextLoopRes.exhausted)
          else getNextLoop u ts n (s.bumpWNext)

/-- Tail phase of `get`: starting from the first position at or past
`user_key.append_ts(ts)`, parse write records, skipping `Lock` and
`Rollback` versions, until a `Put` (load its value) or a `Delete`
(invisible) or the end of the user key's versions. -/
def getSkipLoop (u : Bytes) (s : Scanner) :
    Except ScanError (Option Value) × Bool × Scanner :=
  match s.wEntry with
  | none => (Except.error ScanError.invalidAccess, false, s)
  | some e =>
      let s1 := s.incWProcessed
      match e.2.write_type with
      | WriteType.put =>
          match s1.load_data_by_write e.2 u with
          | (Except.ok v, s2) => (Except.ok (some v), false, s2)
          | (Except.error er, s2) => (Except.error er, false, s2)
      | WriteType.delete => (Except.ok none, false, s1)
      | _ =>
          match h2 : (s.incWProcessed.bumpWNext).wEntry with
          | none => (Except.ok none, false, s.incWProcessed.bumpWNext)
          | some e2 =>
              if e2.1.user ≠ u then (Except.ok none, true, s.incWProcessed.bumpWNext)
              else getSkipLoop u (s.incWProcessed.bumpWNext)
termination_by s.writeItems.length - s.writePos
decreasing_by
  simp only [wEntry, bumpWNext, incWProcessed, List.get?_eq_getElem?] at h2 ⊢
  have hlt : s.writePos + 1 < s.writeItems.length := by
    by_contra hge
    rw [List.getElem?_eq_none (by omega)] at h2
    exact Option.noConfusion h2
  omega

/-- Version resolver `get(user_key, ts, met_next_user_key)`:
assert the write cursor valid, run the bounded-next phase, fall back to
a single `seek(user_key.append_ts(ts))` when the bound was exhausted,
then skip irrelevant write kinds.  Returns the result, the
`met_next_user_key` out-flag, and the new state. -/
def get (s : Scanner) (user_key : Bytes) (ts : Nat) :
    Except ScanError (Option Value) × Bool × Scanner :=
  if ¬ s.wValid then (Except.error ScanError.assertFail, false, s)
  else
    match getNextLoop user_key ts SEEK_BOUND s with
    | (s1, NextLoopRes.ended) => (Except.ok none, false, s1)
    | (s1, NextLoopRes.metAnother) => (Except.ok none, true, s1)
    | (s1, NextLoopRes.found) => getSkipLoop user_key s1
    | (s1, NextLoopRes.exhausted) =>
        let s2 := s1.wSeek ⟨user_key, ts⟩
        match s2.wEntry with
        | none => (Except.ok none, false, s2)
        | some e =>
            if e.1.user ≠ user_key then (Except.ok none, true, s2)
            else getSkipLoop user_key s2

/-- Bounded-next phase of `move_write_cursor_to_next_user_key`: up to
`fuel` inspections with `next()` between them; returns whether the loop
exited early (cursor invalid or on another user key). -/
def moveWLoop (u : Bytes) : Nat → Scanner → Scanner × Bool
  | 0, s => (s, false)
  | n + 1, s =>
      match s.wEntry with
      | none => (s, true)
      | some e =>
          if e.1.user ≠ u then (s, true)
          else if n = 0 then (s, false)
          else moveWLoop u n (s.bumpWNext)

/-- Cursor-advance helper: try up to `SEEK_BOUND` inspections/nexts to
leave `current_user_key`; if still on it, `internal_seek` to
`current_user_key.append_ts(0)` (timestamp zero is the past end of the
slot, so the landing record strictly exceeds the user key). -/
def move_write_cursor_to_next_user_key (s : Scanner) (current_user_key : Bytes) : Scanner :=
  match moveWLoop current_user_key SEEK_BOUND s with
  | (s1, true) => s1
  | (s1, false) => s1.wInternalSeek ⟨current_user_key, 0⟩

end Scanner

/-- Selection step of the reconciler: from the (optional) keys under the
write and lock cursors, pick the current user key and classify it; both
cursors exhausted means the scan is done (`none`). -/
def selectCurrent (w_key : Option WKey) (l_key : Option Bytes) :
    Option (Bytes × Bool × Bool) :=
  match w_key, l_key with
  | none, none => none
  | none, some lk => some (lk, false, true)
  | some wk, none => some (wk.user, true, false)
  | some wk, some lk =>
      if wk.user < lk then some (wk.user, true, false)
      else if lk < wk.user then some (lk, false, true)
      else some (lk, true, true)

namespace Scanner

/-- Lock handling of one `read_next` iteration.  Under SI the lock under
the cursor is parsed and `check_lock` consulted: `Locked` is recorded
into the deferred result, `NotLocked` has no effect, `Ignored` replaces
the effective timestamp.  Under RC the lock is ignored.  The lock
cursor advances by one in all cases.  The outer `Except` is a fatal
abort (the `assert!(self.lock_cursor.valid())` panic); the inner triple
is (deferred result, effective timestamp, new state). -/
def handleLock (checkLock : Bytes → Nat → LockRec → CheckLockResult)
    (s : Scanner) (current_user_key : Bytes) :
    Except ScanError ((Except ScanError (Option Value)) × Nat × Scanner) :=
  match s.isolation_level with
  | IsolationLevel.si =>
      if s.lValid then
        match s.lEntry with
        | some e =>
            let step : (Except ScanError (Option Value)) × Nat :=
              match checkLock current_user_key s.ts e.2 with
              | CheckLockResult.locked err => (Except.error (ScanError.keyIsLocked err), s.ts)
              | CheckLockResult.notLocked => (Except.ok none, s.ts)
              | CheckLockResult.ignored t => (Except.ok none, t)
            Except.ok (step.1, step.2, s.bumpLNext)
        | none => Except.error ScanError.invalidAccess
      else Except.error ScanError.assertFail
  | IsolationLevel.rc => Except.ok (Except.ok none, s.ts, s.bumpLNext)

/-- Write handling of one `read_next` iteration: when the deferred
result is still ok, resolve the version with `get`; then, unless the
write cursor already met the next user key, advance it past the current
user key. -/
def handleWrite (s : Scanner) (current_user_key : Bytes) (get_ts : Nat)
    (result : Except ScanError (Option Value)) :
    Except ScanError (Option Value) × Scanner :=
  let (r, met, s1) :=
    match result with
    | Except.ok _ => s.get current_user_key get_ts
    | Except.error e => (Except.error e, false, s)
  if met then (r, s1)
  else (r, s1.move_write_cursor_to_next_user_key current_user_key)

/-- One iteration of the `read_next` loop: select and classify the
current user key (`none` from the selection means both cursors are
exhausted and the scan is done), handle a lock if present, handle a
write if present, and either produce the call's outcome (`some r`) or
signal that the loop must run again (`none`: the user key yielded no
visible value). -/
def readNextStep (checkLock : Bytes → Nat → LockRec → CheckLockResult) (s : Scanner) :
    Option (Except ScanError (Option (Bytes × Value))) × Scanner :=
  match selectCurrent ((s.wEntry).map Prod.fst) ((s.lEntry).map Prod.fst) with
  | none => (some (Except.ok none), s)
  | some (current_user_key, has_write, has_lock) =>
      match (if has_lock then s.handleLock checkLock current_user_key
             else Except.ok (Except.ok none, s.ts, s)) with
      | Except.error e => (some (Except.error e), s)
      | Except.ok (result, get_ts, s1) =>
          let (result2, s2) :=
            if has_write then s1.handleWrite current_user_key get_ts result
            else (result, s1)
          match result2 with
          | Except.error e => (some (Except.error e), s2)
          | Except.ok (some v) => (some (Except.ok (some (current_user_key, v))), s2)
          | Except.ok none => (none, s2)

/-- The `read_next` loop, totalised with fuel; running out of fuel is an
artefact reported as `fuelExhausted` and shown unreachable on
well-formed stores. -/
def readNextLoop (checkLock : Bytes → Nat → LockRec → CheckLockResult) :
    Nat → Scanner → Except ScanError (Option (Bytes × Value)) × Scanner
  | 0, s => (Except.error ScanError.fuelExhausted, s)
  | n + 1, s =>
      match readNextStep checkLock s with
      | (some r, s2) => (r, s2)
      | (none, s2) => readNextLoop checkLock n s2

/-- Fuel that bounds the number of reconciler iterations: one more than
the number of records remaining under both cursors. -/
def fuelOf (s : Scanner) : Nat :=
  (s.lockItems.length - s.lockPos) + (s.writeItems.length - s.writePos) + 1

/-- The public `read_next`: on the first call, seek both cursors to the
lower bound — the source unwraps `lower_bound` unconditionally, so a
scanner built with no lower bound panics (`unwrapPanic`) — then run the
reconciler loop. -/
def read_next (checkLock : Bytes → Nat → LockRec → CheckLockResult) (s : Scanner) :
    Except ScanError (Option (Bytes × Value)) × Scanner :=
  if s.is_started then readNextLoop checkLock (fuelOf s) s
  else
    match s.lower_bound with
    | none => (Except.error ScanError.unwrapPanic, s)
    | some lb =>
        let s1 := (s.wSeekUserKey lb).lSeekUserKey lb
        let s2 := { s1 with is_started := true }
        readNextLoop checkLock (fuelOf s2) s2

/-- Take out and reset the statistics collected so far. -/
def take_statistics (s : Scanner) : Stats × Scanner :=
  (s.statistics, { s with statistics := {} })

end Scanner

/-- Scanner construction (`ForwardScannerBuilder::build`): the record
lists stand for the snapshot's column families already restricted to the
half-open range handed to the cursor builder; positions start at zero,
statistics at zero, the default cursor unbuilt and iteration unstarted.
The `fill_cache` hint has no observable effect in the model. -/
def build (locks : List (Bytes × LockRec)) (writes : List (WKey × WriteRec))
    (dflts : List (WKey × Value)) (ts : Nat) (omitv : Bool) (iso : IsolationLevel)
    (lower upper : Option Bytes) : Scanner :=
  { omit_value := omitv
    isolation_level := iso
    lower_bound := lower
    upper_bound := upper
    ts := ts
    lockItems := locks
    lockPos := 0
    writeItems := writes
    writePos := 0
    defaultItems := dflts
    defaultCursorBuilt := false
    is_started := false
    statistics := {} }

/-- A write record is decisive when its kind terminates version
resolution: Put and Delete do, Lock and Rollback are skipped. -/
def decisive (e : WKey × WriteRec) : Bool :=
  e.2.write_type = WriteType.put || e.2.write_type = WriteType.delete

/-- A write-stream record is visible for user key `u` at timestamp
`limit` when it belongs to `u` and committed at or before `limit`. -/
def visibleB (u : Bytes) (limit : Nat) (e : WKey × WriteRec) : Bool :=
  e.1.user = u && e.1.ts ≤ limit

/-- Specification-level version resolution: among the records of user
key `u` visible at `limit` (listed newest first in a sorted stream), the
first decisive one; `none` when the key has no visible decisive record. -/
def resolveSpec (items : List (WKey × WriteRec)) (u : Bytes) (limit : Nat) :
    Option (WKey × WriteRec) :=
  (items.filter (visibleB u limit)).find? decisive

/-- Pure description of value loading for a resolved Put: what
`load_data_by_write` answers, as a function of the configuration and the
default column family only. -/
def loadPure (omitv : Bool) (dflt : List (WKey × Value)) (write : WriteRec) (user_key : Bytes) :
    Except ScanError Value :=
  if omitv then Except.ok []
  else
    match write.short_value with
    | some v => Except.ok v
    | none =>
        match dflt.find? (fun e => e.1 = ⟨user_key, write.start_ts⟩) with
        | some e => Except.ok e.2
        | none => Except.error ScanError.corruption

/-- User keys of the pairs produced by up to `n` successive `read_next`
calls; calls that return a recoverable error contribute no key but the
scan continues; a `none` ends the collection (further calls keep
returning `none`). -/
def scanKeys (checkLock : Bytes → Nat → LockRec → CheckLockResult) :
    Nat → Scanner → List Bytes
  | 0, _ => []
  | n + 1, s =>
      match Scanner.read_next checkLock s with
      | (Except.ok (some kv), s1) => kv.1 :: scanKeys checkLock n s1
      | (Except.ok none, _) => []
      | (Except.error _, s1) => scanKeys checkLock n s1

/-- Strict sortedness of the write stream under the encoded-key order:
the engine cursor contract for the write column family. -/
def SortedWrites (items : List (WKey × WriteRec)) : Prop :=
  items.Pairwise (fun a b => wkeyLt a.1 b.1)

/-- Strict sortedness of the lock stream by user key; it also gives the
spec invariant that each user key carries at most one lock. -/
def SortedLocks (items : List (Bytes × LockRec)) : Prop :=
  items.Pairwise (fun a b => a.1 < b.1)

/-- All commit timestamps are positive (timestamp zero is reserved as
the past end of a user key's slot, which `append_ts(…, 0)` relies on). -/
def PosTs (items : List (WKey × WriteRec)) : Prop := ∀ e ∈ items, 0 < e.1.ts

/-- Well-formedness of the record streams a scanner was built over. -/
def WfStore (s : Scanner) : Prop :=
  SortedWrites s.writeItems ∧ SortedLocks s.lockItems ∧ PosTs s.writeItems

/-- Cursor invariant of the reconciler: a valid write cursor points at
the most recent (first listed) version of its user key — no earlier
record of the stream shares that user key. -/
def AtNewestVersion (s : Scanner) : Prop :=
  ∀ e, s.wEntry = some e → ∀ j, j < s.writePos →
    ∀ ej, s.writeItems.get? j = some ej → ej.1.user ≠ e.1.user

/-- The write cursor has passed only user keys at or below `u`: every
record strictly before the cursor belongs to `u` or an earlier user
key.  Maintained by all the cursor-advancing operations of a scan
positioned at user key `u`. -/
def PastKeyW (s : Scanner) (u : Bytes) : Prop :=
  ∀ j, j < s.writePos → ∀ ej, s.writeItems.get? j = some ej → ej.1.user ≤ u

/-- Both cursors are strictly past user key `k`: whatever record either
cursor now points at belongs to a strictly larger user key.  This is the
state `read_next` leaves behind after producing the pair for `k`, and
it is what makes the next produced key strictly larger. -/
def PastAll (s : Scanner) (k : Bytes) : Prop :=
  (∀ e, s.wEntry = some e → k < e.1.user) ∧ (∀ le, s.lEntry = some le → k < le.1)

/-- Relation between scanner states that share the record streams and
the read configuration: everything a scan's cursor operations never
modify.  Every operation reachable from `read_next` preserves it. -/
def baseFrame (s t : Scanner) : Prop :=
  t.writeItems = s.writeItems ∧ t.lockItems = s.lockItems ∧
  t.defaultItems = s.defaultItems ∧ t.ts = s.ts ∧
  t.isolation_level = s.isolation_level ∧ t.omit_value = s.omit_value ∧
  t.is_started = s.is_started

/-- A `check_lock` model that never reports a conflict. -/
def noLockCheck : Bytes → Nat → LockRec → CheckLockResult :=
  fun _ _ _ => CheckLockResult.notLocked

/-- A `check_lock` model that always reports the key locked, carrying
the lock's start timestamp as the error payload. -/
def alwaysLockedCheck : Bytes → Nat → LockRec → CheckLockResult :=
  fun _ _ l => CheckLockResult.locked l.lock_ts

/-! ## Fixtures used by witnesses -/

/-- A started scanner over empty streams. -/
def emptyStarted : Scanner :=
  { build [] [] [] 7 false IsolationLevel.si (some []) none with is_started := true }

/-- A scanner built with no lower bound. -/
def noLowerBoundScanner : Scanner :=
  build [] [] [] 7 false IsolationLevel.si none none

/-- A lock record fixture. -/
def lockRecA : LockRec := ⟨[10], 4, 0, 0, none⟩

/-- A scanner whose lock stream holds one lock on user key `[10]`. -/
def lockFixture : Scanner :=
  build [([10], lockRecA)] [] [] 10 false IsolationLevel.si (some []) none

/-- A scanner whose first user key has only a rollback record: version
resolution walks onto the next user key and reports it met. -/
def C10fixture : Scanner :=
  build [] [(⟨[10], 9⟩, ⟨WriteType.rollback, 9, none⟩),
            (⟨[11], 3⟩, ⟨WriteType.put, 2, some [24]⟩)] [] 10 false
    IsolationLevel.si (some []) none

/-- A started scanner holding one lock and one write on user key `[10]`. -/
def C6fixture : Scanner :=
  { build [([10], lockRecA)] [(⟨[10], 5⟩, ⟨WriteType.put, 4, some [1]⟩)] [] 10 false
      IsolationLevel.si (some []) none with is_started := true }

/-- A scanner whose first user key has `SEEK_BOUND` stale versions above
the read timestamp, with the visible version deeper: exercises the
fallback seek. -/
def C3fixture : Scanner :=
  { build [] [(⟨[10], 100⟩, ⟨WriteType.put, 50, some [9]⟩),
              (⟨[10], 99⟩, ⟨WriteType.put, 50, some [9]⟩),
              (⟨[10], 98⟩, ⟨WriteType.put, 50, some [9]⟩),
              (⟨[10], 97⟩, ⟨WriteType.put, 50, some [9]⟩),
              (⟨[10], 96⟩, ⟨WriteType.put, 50, some [9]⟩),
              (⟨[10], 95⟩, ⟨WriteType.put, 50, some [9]⟩),
              (⟨[10], 94⟩, ⟨WriteType.put, 50, some [9]⟩),
              (⟨[10], 93⟩, ⟨WriteType.put, 50, some [9]⟩),
              (⟨[10], 1⟩, ⟨WriteType.put, 1, some [42]⟩)] [] 1 false
      IsolationLevel.si (some []) none with is_started := true }

/-- A started scanner over a single visible `Put` record: `read_next`
returns its pair on the first call. -/
def C1fixture : Scanner :=
  { build [] [(⟨[10], 5⟩, ⟨WriteType.put, 4, some [1]⟩)] [] 10 false
      IsolationLevel.si (some []) none with is_started := true }

end FwdScan

/-! ## Basic lemmas about the state primitives -/

namespace FwdScan

namespace Scanner

@[simp] theorem bumpWNext_writePos (s : Scanner) : (s.bumpWNext).writePos = s.writePos + 1 := rfl
@[simp] theorem bumpWNext_writeItems (s : Scanner) : (s.bumpWNext).writeItems = s.writeItems := rfl
@[simp] theorem bumpWNext_lockPos (s : Scanner) : (s.bumpWNext).lockPos = s.lockPos := rfl
@[simp] theorem bumpWNext_lockItems (s : Scanner) : (s.bumpWNext).lockItems = s.lockItems := rfl
@[simp] theorem bumpWNext_is_started (s : Scanner) : (s.bumpWNext).is_started = s.is_started := rfl
@[simp] theorem bumpWNext_ts (s : Scanner) : (s.bumpWNext).ts = s.ts := rfl
@[simp] theorem bumpWNext_omit (s : Scanner) : (s.bumpWNext).omit_value = s.omit_value := rfl
@[simp] theorem bumpWNext_iso (s : Scanner) :
    (s.bumpWNext).isolation_level = s.isolation_level := rfl
@[simp] theorem bumpWNext_defaultItems (s : Scanner) :
    (s.bumpWNext).defaultItems = s.defaultItems := rfl

@[simp] theorem bumpWNext_statistics_nextCnt (s : Scanner) :
    (s.bumpWNext).statistics.write.nextCnt = s.statistics.write.nextCnt + 1 := rfl
@[simp] theorem bumpWNext_statistics_seekCnt (s : Scanner) :
    (s.bumpWNext).statistics.write.seekCnt = s.statistics.write.seekCnt := rfl
@[simp] theorem incWProcessed_statistics_nextCnt (s : Scanner) :
    (s.incWProcessed).statistics.write.nextCnt = s.statistics.write.nextCnt := rfl
@[simp] theorem incWProcessed_statistics_seekCnt (s : Scanner) :
    (s.incWProcessed).statistics.write.seekCnt = s.statistics.write.seekCnt := rfl
@[simp] theorem wSeek_statistics_seekCnt (s : Scanner) (k : WKey) :
    (s.wSeek k).statistics.write.seekCnt = s.statistics.write.seekCnt + 1 := rfl
@[simp] theorem wInternalSeek_statistics (s : Scanner) (k : WKey) :
    (s.wInternalSeek k).statistics = s.statistics := rfl

@[simp] theorem bumpLNext_writePos (s : Scanner) : (s.bumpLNext).writePos = s.writePos := rfl
@[simp] theorem bumpLNext_writeItems (s : Scanner) : (s.bumpLNext).writeItems = s.writeItems := rfl
@[simp] theorem bumpLNext_lockPos (s : Scanner) : (s.bumpLNext).lockPos = s.lockPos + 1 := rfl
@[simp] theorem bumpLNext_lockItems (s : Scanner) : (s.bumpLNext).lockItems = s.lockItems := rfl
@[simp] theorem bumpLNext_is_started (s : Scanner) : (s.bumpLNext).is_started = s.is_started := rfl
@[simp] theorem bumpLNext_ts (s : Scanner) : (s.bumpLNext).ts = s.ts := rfl
@[simp] theorem bumpLNext_omit (s : Scanner) : (s.bumpLNext).omit_value = s.omit_value := rfl
@[simp] theorem bumpLNext_iso (s : Scanner) :
    (s.bumpLNext).isolation_level = s.isolation_level := rfl
@[simp] theorem bumpLNext_defaultItems (s : Scanner) :
    (s.bumpLNext).defaultItems = s.defaultItems := rfl

@[simp] theorem incWProcessed_writePos (s : Scanner) :
    (s.incWProcessed).writePos = s.writePos := rfl
@[simp] theorem incWProcessed_writeItems (s : Scanner) :
    (s.incWProcessed).writeItems = s.writeItems := rfl
@[simp] theorem incWProcessed_lockPos (s : Scanner) : (s.incWProcessed).lockPos = s.lockPos := rfl
@[simp] theorem incWProcessed_lockItems (s : Scanner) :
    (s.incWProcessed).lockItems = s.lockItems := rfl
@[simp] theorem incWProcessed_is_started (s : Scanner) :
    (s.incWProcessed).is_started = s.is_started := rfl
@[simp] theorem incWProcessed_ts (s : Scanner) : (s.incWProcessed).ts = s.ts := rfl
@[simp] theorem incWProcessed_omit (s : Scanner) :
    (s.incWProcessed).omit_value = s.omit_value := rfl
@[simp] theorem incWProcessed_iso (s : Scanner) :
    (s.incWProcessed).isolation_level = s.isolation_level := rfl
@[simp] theorem incWProcessed_defaultItems (s : Scanner) :
    (s.incWProcessed).defaultItems = s.defaultItems := rfl

@[simp] theorem wSeek_writePos (s : Scanner) (k : WKey) :
    (s.wSeek k).writePos = seekIdxW s.writeItems k := rfl
@[simp] theorem wSeek_writeItems (s : Scanner) (k : WKey) :
    (s.wSeek k).writeItems = s.writeItems := rfl
@[simp] theorem wSeek_lockPos (s : Scanner) (k : WKey) : (s.wSeek k).lockPos = s.lockPos := rfl
@[simp] theorem wSeek_lockItems (s : Scanner) (k : WKey) :
    (s.wSeek k).lockItems = s.lockItems := rfl
@[simp] theorem wSeek_is_started (s : Scanner) (k : WKey) :
    (s.wSeek k).is_started = s.is_started := rfl
@[simp] theorem wSeek_ts (s : Scanner) (k : WKey) : (s.wSeek k).ts = s.ts := rfl
@[simp] theorem wSeek_omit (s : Scanner) (k : WKey) : (s.wSeek k).omit_value = s.omit_value := rfl
@[simp] theorem wSeek_iso (s : Scanner) (k : WKey) :
    (s.wSeek k).isolation_level = s.isolation_level := rfl
@[simp] theorem wSeek_defaultItems (s : Scanner) (k : WKey) :
    (s.wSeek k).defaultItems = s.defaultItems := rfl

@[simp] theorem wInternalSeek_writePos (s : Scanner) (k : WKey) :
    (s.wInternalSeek k).writePos = seekIdxW s.writeItems k := rfl
@[simp] theorem wInternalSeek_writeItems (s : Scanner) (k : WKey) :
    (s.wInternalSeek k).writeItems = s.writeItems := rfl
@[simp] theorem wInternalSeek_lockPos (s : Scanner) (k : WKey) :
    (s.wInternalSeek k).lockPos = s.lockPos := rfl
@[simp] theorem wInternalSeek_lockItems (s : Scanner) (k : WKey) :
    (s.wInternalSeek k).lockItems = s.lockItems := rfl
@[simp] theorem wInternalSeek_is_started (s : Scanner) (k : WKey) :
    (s.wInternalSeek k).is_started = s.is_started := rfl
@[simp] theorem wInternalSeek_ts (s : Scanner) (k : WKey) : (s.wInternalSeek k).ts = s.ts := rfl
@[simp] theorem wInternalSeek_omit (s : Scanner) (k : WKey) :
    (s.wInternalSeek k).omit_value = s.omit_value := rfl
@[simp] theorem wInternalSeek_iso (s : Scanner) (k : WKey) :
    (s.wInternalSeek k).isolation_level = s.isolation_level := rfl
@[simp] theorem wInternalSeek_defaultItems (s : Scanner) (k : WKey) :
    (s.wInternalSeek k).defaultItems = s.defaultItems := rfl

@[simp] theorem ensure_default_writePos (s : Scanner) :
    (s.ensure_default_cursor).writePos = s.writePos := by
  unfold ensure_default_cursor; split <;> rfl
@[simp] theorem ensure_default_writeItems (s : Scanner) :
    (s.ensure_default_cursor).writeItems = s.writeItems := by
  unfold ensure_default_cursor; split <;> rfl
@[simp] theorem ensure_default_lockPos (s : Scanner) :
    (s.ensure_default_cursor).lockPos = s.lockPos := by
  unfold ensure_default_cursor; split <;> rfl
@[simp] theorem ensure_default_lockItems (s : Scanner) :
    (s.ensure_default_cursor).lockItems = s.lockItems := by
  unfold ensure_default_cursor; split <;> rfl
@[simp] theorem ensure_default_is_started (s : Scanner) :
    (s.ensure_default_cursor).is_started = s.is_started := by
  unfold ensure_default_cursor; split <;> rfl
@[simp] theorem ensure_default_ts (s : Scanner) : (s.ensure_default_cursor).ts = s.ts := by
  unfold ensure_default_cursor; split <;> rfl
@[simp] theorem ensure_default_omit (s : Scanner) :
    (s.ensure_default_cursor).omit_value = s.omit_value := by
  unfold ensure_default_cursor; split <;> rfl
@[simp] theorem ensure_default_iso (s : Scanner) :
    (s.ensure_default_cursor).isolation_level = s.isolation_level := by
  unfold ensure_default_cursor; split <;> rfl
@[simp] theorem ensure_default_defaultItems (s : Scanner) :
    (s.ensure_default_cursor).defaultItems = s.defaultItems := by
  unfold ensure_default_cursor; split <;> rfl

theorem wValid_iff (s : Scanner) : s.wValid = true ↔ s.writePos < s.writeItems.length := by
  simp [wValid]

theorem lValid_iff (s : Scanner) : s.lValid = true ↔ s.lockPos < s.lockItems.length := by
  simp [lValid]

theorem wEntry_eq_some_iff (s : Scanner) {e : WKey × WriteRec} :
    s.wEntry = some e ↔ ∃ h : s.writePos < s.writeItems.length,
      s.writeItems.get ⟨s.writePos, h⟩ = e := by
  simp only [wEntry]
  constructor
  · intro h
    have hlt : s.writePos < s.writeItems.length := by
      by_contra hge
      rw [List.get?_eq_none.2 (by omega)] at h
      exact Option.noConfusion h
    refine ⟨hlt, ?_⟩
    rw [List.get?_eq_get hlt] at h
    exact Option.some.inj h
  · rintro ⟨h, rfl⟩
    exact List.get?_eq_get h

theorem wEntry_isSome_of_valid {s : Scanner} (h : s.wValid = true) :
    ∃ e, s.wEntry = some e := by
  rw [wValid_iff] at h
  exact ⟨_, List.get?_eq_get h⟩

theorem lEntry_eq_some_iff (s : Scanner) {e : Bytes × LockRec} :
    s.lEntry = some e ↔ ∃ h : s.lockPos < s.lockItems.length,
      s.lockItems.get ⟨s.lockPos, h⟩ = e := by
  simp only [lEntry]
  constructor
  · intro h
    have hlt : s.lockPos < s.lockItems.length := by
      by_contra hge
      rw [List.get?_eq_none.2 (by omega)] at h
      exact Option.noConfusion h
    refine ⟨hlt, ?_⟩
    rw [List.get?_eq_get hlt] at h
    exact Option.some.inj h
  · rintro ⟨h, rfl⟩
    exact List.get?_eq_get h

theorem lEntry_isSome_of_valid {s : Scanner} (h : s.lValid = true) :
    ∃ e, s.lEntry = some e := by
  rw [lValid_iff] at h
  exact ⟨_, List.get?_eq_get h⟩

theorem wEntry_none_iff (s : Scanner) :
    s.wEntry = none ↔ s.writeItems.length ≤ s.writePos := by
  simp only [wEntry, List.get?_eq_none]

theorem lEntry_none_iff (s : Scanner) :
    s.lEntry = none ↔ s.lockItems.length ≤ s.lockPos := by
  simp only [lEntry, List.get?_eq_none]

end Scanner

/-! ## Order lemmas on encoded write keys -/

theorem wkeyLt_irrefl (a : WKey) : ¬ wkeyLt a a := by
  simp [wkeyLt]

theorem wkeyLt_trans {a b c : WKey} (h1 : wkeyLt a b) (h2 : wkeyLt b c) : wkeyLt a c := by
  rcases h1 with h1 | ⟨h1e, h1t⟩ <;> rcases h2 with h2 | ⟨h2e, h2t⟩
  · exact Or.inl (lt_trans h1 h2)
  · exact Or.inl (h2e ▸ h1)
  · exact Or.inl (h1e ▸ h2)
  · exact Or.inr ⟨h1e.trans h2e, lt_trans h2t h1t⟩

theorem wkeyLt_trichotomy (a b : WKey) : wkeyLt a b ∨ a = b ∨ wkeyLt b a := by
  rcases lt_trichotomy a.user b.user with h | h | h
  · exact Or.inl (Or.inl h)
  · rcases lt_trichotomy a.ts b.ts with ht | ht | ht
    · exact Or.inr (Or.inr (Or.inr ⟨h.symm, ht⟩))
    · refine Or.inr (Or.inl ?_)
      cases a; cases b; simp_all
    · exact Or.inl (Or.inr ⟨h, ht⟩)
  · exact Or.inr (Or.inr (Or.inl h))

theorem wkeyLt_asymm {a b : WKey} (h : wkeyLt a b) : ¬ wkeyLt b a := by
  intro h2
  exact wkeyLt_irrefl a (wkeyLt_trans h h2)

theorem user_le_of_wkeyLt {a b : WKey} (h : wkeyLt a b) : a.user ≤ b.user := by
  rcases h with h | ⟨he, _⟩
  · exact le_of_lt h
  · exact le_of_eq he

theorem user_lt_of_wkeyLt_of_ne {a b : WKey} (h : wkeyLt a b) (hne : a.user ≠ b.user) :
    a.user < b.user := lt_of_le_of_ne (user_le_of_wkeyLt h) hne

theorem wkeyLt_of_user_lt {a b : WKey} (h : a.user < b.user) : wkeyLt a b := Or.inl h

end FwdScan

/-! ## Small characterization lemmas -/

namespace FwdScan

theorem Scanner.lValid_of_lEntry_some {s : Scanner} {e : Bytes × LockRec}
    (h : s.lEntry = some e) : s.lValid = true := by
  rw [Scanner.lEntry_eq_some_iff] at h
  obtain ⟨hlt, _⟩ := h
  exact (Scanner.lValid_iff s).2 hlt

theorem Scanner.wValid_of_wEntry_some {s : Scanner} {e : WKey × WriteRec}
    (h : s.wEntry = some e) : s.wValid = true := by
  rw [Scanner.wEntry_eq_some_iff] at h
  obtain ⟨hlt, _⟩ := h
  exact (Scanner.wValid_iff s).2 hlt

theorem selectCurrent_none_iff (w_key : Option WKey) (l_key : Option Bytes) :
    selectCurrent w_key l_key = none ↔ w_key = none ∧ l_key = none := by
  cases w_key with
  | none => cases l_key <;> simp [selectCurrent]
  | some wk =>
      cases l_key with
      | none => simp [selectCurrent]
      | some lk =>
          simp only [selectCurrent]
          constructor
          · intro h
            split_ifs at h <;> exact Option.noConfusion h
          · rintro ⟨h, -⟩
            exact Option.noConfusion h

theorem readNextStep_exhausted (checkLock : Bytes → Nat → LockRec → CheckLockResult)
    (s : Scanner) (hw : s.wEntry = none) (hl : s.lEntry = none) :
    Scanner.readNextStep checkLock s = (some (Except.ok none), s) := by
  unfold Scanner.readNextStep
  rw [hw, hl]
  rfl

theorem readNext_exhausted (checkLock : Bytes → Nat → LockRec → CheckLockResult)
    (s : Scanner) (hstart : s.is_started = true) (hw : s.wEntry = none)
    (hl : s.lEntry = none) :
    Scanner.read_next checkLock s = (Except.ok none, s) := by
  unfold Scanner.read_next
  rw [hstart]
  show Scanner.readNextLoop checkLock (_ + 1) s = _
  unfold Scanner.readNextLoop
  rw [readNextStep_exhausted checkLock s hw hl]

/-! ## Claims C8, C4, C5 -/

/-- C8: for every scanner built with `lower_bound = None`, the first call
to `read_next` faults — the initial seek unconditionally unwraps the
lower bound rather than substituting a seek to the engine's first key. -/
theorem claim_C8 : ∀ (checkLock : Bytes → Nat → LockRec → CheckLockResult) (s : Scanner),
    s.is_started = false → s.lower_bound = none →
    Scanner.read_next checkLock s = (Except.error ScanError.unwrapPanic, s) := by
  intro checkLock s hstart hlb
  unfold Scanner.read_next
  rw [hstart, hlb]
  simp

/-- Closed witness for C8. -/
theorem claim_C8_witness :
    Scanner.read_next noLockCheck noLowerBoundScanner =
      (Except.error ScanError.unwrapPanic, noLowerBoundScanner) :=
  claim_C8 noLockCheck noLowerBoundScanner rfl rfl

/-- C4: each `read_next` iteration selects the smaller of the write
cursor's user-key component and the lock cursor's key as the current
user key, with `has_write` true exactly when the write cursor's user key
equals the selection and `has_lock` true exactly when the lock cursor's
key equals it; when both cursors are invalid, `read_next` returns `none`
(scan done). -/
theorem claim_C4 :
    (∀ (checkLock : Bytes → Nat → LockRec → CheckLockResult) (s : Scanner),
        s.is_started = true → s.wEntry = none → s.lEntry = none →
        Scanner.read_next checkLock s = (Except.ok none, s)) ∧
    (selectCurrent none none = none) ∧
    (∀ lk, selectCurrent none (some lk) = some (lk, false, true)) ∧
    (∀ wk, selectCurrent (some wk) none = some (wk.user, true, false)) ∧
    (∀ wk lk, selectCurrent (some wk) (some lk) =
        some (min wk.user lk, decide (wk.user ≤ lk), decide (lk ≤ wk.user))) := by
  refine ⟨?_, rfl, fun lk => rfl, fun wk => rfl, ?_⟩
  · exact fun checkLock s h1 h2 h3 => readNext_exhausted checkLock s h1 h2 h3
  · intro wk lk
    rcases lt_trichotomy wk.user lk with h | h | h
    · rw [min_eq_left (le_of_lt h), decide_eq_true (le_of_lt h), decide_eq_false (not_le.2 h)]
      simp [selectCurrent, h]
    · rw [← h, min_self, decide_eq_true (le_refl wk.user)]
      simp [selectCurrent]
    · rw [min_eq_right (le_of_lt h), decide_eq_false (not_le.2 h), decide_eq_true (le_of_lt h)]
      simp [selectCurrent, h, lt_asymm h]

end FwdScan

namespace FwdScan

/-- Closed witness for C4. -/
theorem claim_C4_witness :
    Scanner.read_next noLockCheck emptyStarted = (Except.ok none, emptyStarted) :=
  claim_C4.1 noLockCheck emptyStarted rfl rfl rfl

/-- C5: when the current user key has a lock, under SI the lock is
parsed and `check_lock` consulted — `Locked` is recorded as the key's
deferred error, `NotLocked` has no effect and `Ignored(new_ts)` replaces
the effective read timestamp; under RC the lock is ignored entirely
(no error, no effect on output); in all cases the lock cursor advances
by one. -/
theorem claim_C5 : ∀ (checkLock : Bytes → Nat → LockRec → CheckLockResult)
    (s : Scanner) (u : Bytes) (e : Bytes × LockRec), s.lEntry = some e →
    ((s.isolation_level = IsolationLevel.si →
        s.handleLock checkLock u = Except.ok
          ((match checkLock u s.ts e.2 with
            | CheckLockResult.locked err => Except.error (ScanError.keyIsLocked err)
            | CheckLockResult.notLocked => Except.ok none
            | CheckLockResult.ignored _ => Except.ok none),
           (match checkLock u s.ts e.2 with
            | CheckLockResult.ignored t => t
            | _ => s.ts),
           s.bumpLNext)) ∧
     (s.isolation_level = IsolationLevel.rc →
        s.handleLock checkLock u = Except.ok (Except.ok none, s.ts, s.bumpLNext)) ∧
     (s.bumpLNext).lockPos = s.lockPos + 1) := by
  intro checkLock s u e he
  refine ⟨?_, ?_, rfl⟩
  · intro hiso
    unfold Scanner.handleLock
    rw [hiso, if_pos (Scanner.lValid_of_lEntry_some he), he]
    rcases hc : checkLock u s.ts e.2 with err | _ | t <;> simp [hc]
  · intro hiso
    unfold Scanner.handleLock
    rw [hiso]

/-- Closed witness for C5: the SI case at a concrete locked key. -/
theorem claim_C5_witness :
    Scanner.handleLock alwaysLockedCheck lockFixture [10] =
      Except.ok (Except.error (ScanError.keyIsLocked 4), 10, lockFixture.bumpLNext) := by
  have h := (claim_C5 alwaysLockedCheck lockFixture [10] ([10], lockRecA) rfl).1 rfl
  exact h

end FwdScan


/-! ## One-step unfolding equations for the loops -/

namespace FwdScan

open Scanner

theorem getNextLoop_succ (u : Bytes) (ts : Nat) (n : Nat) (s : Scanner) :
    Scanner.getNextLoop u ts (n + 1) s =
      match s.wEntry with
      | none => (s, NextLoopRes.ended)
      | some e =>
          if e.1.user ≠ u then (s, NextLoopRes.metAnother)
          else if e.1.ts ≤ ts then (s, NextLoopRes.found)
          else if n = 0 then (s, NextLoopRes.exhausted)
          else Scanner.getNextLoop u ts n s.bumpWNext := by
  rw [Scanner.getNextLoop]

theorem moveWLoop_succ (u : Bytes) (n : Nat) (s : Scanner) :
    Scanner.moveWLoop u (n + 1) s =
      match s.wEntry with
      | none => (s, true)
      | some e =>
          if e.1.user ≠ u then (s, true)
          else if n = 0 then (s, false)
          else Scanner.moveWLoop u n s.bumpWNext := by
  rw [Scanner.moveWLoop]

theorem getSkipLoop_none (u : Bytes) (s : Scanner) (h : s.wEntry = none) :
    Scanner.getSkipLoop u s = (Except.error ScanError.invalidAccess, false, s) := by
  rw [Scanner.getSkipLoop, h]

theorem getSkipLoop_put (u : Bytes) (s : Scanner) (e : WKey × WriteRec)
    (h : s.wEntry = some e) (hp : e.2.write_type = WriteType.put) :
    Scanner.getSkipLoop u s =
      (match s.incWProcessed.load_data_by_write e.2 u with
       | (Except.ok v, s2) => (Except.ok (some v), false, s2)
       | (Except.error er, s2) => (Except.error er, false, s2)) := by
  rw [Scanner.getSkipLoop, h]
  simp only [hp]

theorem getSkipLoop_delete (u : Bytes) (s : Scanner) (e : WKey × WriteRec)
    (h : s.wEntry = some e) (hp : e.2.write_type = WriteType.delete) :
    Scanner.getSkipLoop u s = (Except.ok none, false, s.incWProcessed) := by
  rw [Scanner.getSkipLoop, h]
  simp only [hp]

theorem getSkipLoop_skip_none (u : Bytes) (s : Scanner) (e : WKey × WriteRec)
    (h : s.wEntry = some e)
    (hk : e.2.write_type = WriteType.lockKind ∨ e.2.write_type = WriteType.rollback)
    (h2 : (s.incWProcessed.bumpWNext).wEntry = none) :
    Scanner.getSkipLoop u s = (Except.ok none, false, s.incWProcessed.bumpWNext) := by
  rw [Scanner.getSkipLoop, h]
  rcases hk with hk | hk <;> simp only [hk] <;> split
  all_goals
    first
      | rfl
      | (rename_i e3 heq3; rw [h2] at heq3; exact Option.noConfusion heq3)

theorem getSkipLoop_skip_met (u : Bytes) (s : Scanner) (e e2 : WKey × WriteRec)
    (h : s.wEntry = some e)
    (hk : e.2.write_type = WriteType.lockKind ∨ e.2.write_type = WriteType.rollback)
    (h2 : (s.incWProcessed.bumpWNext).wEntry = some e2) (hne : e2.1.user ≠ u) :
    Scanner.getSkipLoop u s = (Except.ok none, true, s.incWProcessed.bumpWNext) := by
  rw [Scanner.getSkipLoop, h]
  rcases hk with hk | hk <;> simp only [hk] <;> split
  all_goals
    first
      | (rename_i heq3; rw [h2] at heq3; exact Option.noConfusion heq3)
      | (rename_i e3 heq3; rw [h2] at heq3; cases Option.some.inj heq3; rw [if_pos hne])

theorem getSkipLoop_skip_rec (u : Bytes) (s : Scanner) (e e2 : WKey × WriteRec)
    (h : s.wEntry = some e)
    (hk : e.2.write_type = WriteType.lockKind ∨ e.2.write_type = WriteType.rollback)
    (h2 : (s.incWProcessed.bumpWNext).wEntry = some e2) (hequ : e2.1.user = u) :
    Scanner.getSkipLoop u s = Scanner.getSkipLoop u (s.incWProcessed.bumpWNext) := by
  rw [Scanner.getSkipLoop, h]
  rcases hk with hk | hk <;> simp only [hk] <;> split
  all_goals
    first
      | (rename_i heq3; rw [h2] at heq3; exact Option.noConfusion heq3)
      | (rename_i e3 heq3; rw [h2] at heq3; cases Option.some.inj heq3;
         rw [if_neg (by simp [hequ])])

end FwdScan

/-! ## Frame lemmas: the record streams and configuration never change -/

namespace FwdScan

theorem baseFrame_refl (s : Scanner) : baseFrame s s := ⟨rfl, rfl, rfl, rfl, rfl, rfl, rfl⟩

theorem baseFrame_trans {a b c : Scanner} (h1 : baseFrame a b) (h2 : baseFrame b c) :
    baseFrame a c := by
  obtain ⟨a1, a2, a3, a4, a5, a6, a7⟩ := h1
  obtain ⟨b1, b2, b3, b4, b5, b6, b7⟩ := h2
  exact ⟨b1.trans a1, b2.trans a2, b3.trans a3, b4.trans a4, b5.trans a5,
    b6.trans a6, b7.trans a7⟩

theorem baseFrame_bumpWNext (s : Scanner) : baseFrame s s.bumpWNext :=
  ⟨rfl, rfl, rfl, rfl, rfl, rfl, rfl⟩

theorem baseFrame_bumpLNext (s : Scanner) : baseFrame s s.bumpLNext :=
  ⟨rfl, rfl, rfl, rfl, rfl, rfl, rfl⟩

theorem baseFrame_incWProcessed (s : Scanner) : baseFrame s s.incWProcessed :=
  ⟨rfl, rfl, rfl, rfl, rfl, rfl, rfl⟩

theorem baseFrame_wSeek (s : Scanner) (k : WKey) : baseFrame s (s.wSeek k) :=
  ⟨rfl, rfl, rfl, rfl, rfl, rfl, rfl⟩

theorem baseFrame_wInternalSeek (s : Scanner) (k : WKey) : baseFrame s (s.wInternalSeek k) :=
  ⟨rfl, rfl, rfl, rfl, rfl, rfl, rfl⟩

theorem baseFrame_ensure_default (s : Scanner) : baseFrame s s.ensure_default_cursor := by
  unfold Scanner.ensure_default_cursor
  split
  · exact baseFrame_refl s
  · exact ⟨rfl, rfl, rfl, rfl, rfl, rfl, rfl⟩

theorem baseFrame_near_load (s : Scanner) (u : Bytes) (w : WriteRec) :
    baseFrame s (s.near_load_data_by_write u w).2 := by
  unfold Scanner.near_load_data_by_write
  split <;> exact ⟨rfl, rfl, rfl, rfl, rfl, rfl, rfl⟩

theorem baseFrame_load (s : Scanner) (w : WriteRec) (u : Bytes) :
    baseFrame s (s.load_data_by_write w u).2 := by
  unfold Scanner.load_data_by_write
  split
  · exact baseFrame_refl s
  · split
    · exact baseFrame_refl s
    · exact baseFrame_trans (baseFrame_ensure_default s) (baseFrame_near_load _ u w)

theorem baseFrame_getNextLoop (u : Bytes) (ts : Nat) :
    ∀ n (s : Scanner), baseFrame s (Scanner.getNextLoop u ts n s).1 := by
  intro n
  induction n with
  | zero => intro s; exact baseFrame_refl s
  | succ n ih =>
      intro s
      rw [getNextLoop_succ]
      cases he : s.wEntry with
      | none => exact baseFrame_refl s
      | some e =>
          simp only
          split
          · exact baseFrame_refl s
          · split
            · exact baseFrame_refl s
            · split
              · exact baseFrame_refl s
              · exact baseFrame_trans (baseFrame_bumpWNext s) (ih s.bumpWNext)

theorem baseFrame_getSkipLoop (u : Bytes) (s : Scanner) :
    baseFrame s (Scanner.getSkipLoop u s).2.2 := by
  have H : ∀ (m : Nat) (s : Scanner), s.writeItems.length - s.writePos ≤ m →
      baseFrame s (Scanner.getSkipLoop u s).2.2 := by
    intro m
    induction m with
    | zero =>
        intro s hm
        have hnone : s.wEntry = none := (Scanner.wEntry_none_iff s).2 (by omega)
        rw [getSkipLoop_none u s hnone]
        exact baseFrame_refl s
    | succ m ih =>
        intro s hm
        cases he : s.wEntry with
        | none =>
            rw [getSkipLoop_none u s he]
            exact baseFrame_refl s
        | some e =>
            have hstep : baseFrame s (s.incWProcessed.bumpWNext) :=
              baseFrame_trans (baseFrame_incWProcessed s) (baseFrame_bumpWNext _)
            have hmeas : (s.incWProcessed.bumpWNext).writeItems.length -
                (s.incWProcessed.bumpWNext).writePos ≤ m := by
              simp only [Scanner.bumpWNext_writeItems, Scanner.bumpWNext_writePos,
                Scanner.incWProcessed_writeItems, Scanner.incWProcessed_writePos]
              omega
            cases hwt : e.2.write_type with
            | put =>
                rw [getSkipLoop_put u s e he hwt]
                rcases hl : s.incWProcessed.load_data_by_write e.2 u with ⟨r, s2⟩
                have hf : baseFrame s.incWProcessed s2 := by
                  have := baseFrame_load s.incWProcessed e.2 u
                  rw [hl] at this
                  exact this
                have hf2 := baseFrame_trans (baseFrame_incWProcessed s) hf
                cases r with
                | ok v => exact hf2
                | error er => exact hf2
            | delete =>
                rw [getSkipLoop_delete u s e he hwt]
                exact baseFrame_incWProcessed s
            | lockKind =>
                cases h2 : (s.incWProcessed.bumpWNext).wEntry with
                | none =>
                    rw [getSkipLoop_skip_none u s e he (Or.inl hwt) h2]
                    exact hstep
                | some e2 =>
                    by_cases hne : e2.1.user ≠ u
                    · rw [getSkipLoop_skip_met u s e e2 he (Or.inl hwt) h2 hne]
                      exact hstep
                    · rw [getSkipLoop_skip_rec u s e e2 he (Or.inl hwt) h2 (not_not.1 hne)]
                      exact baseFrame_trans hstep (ih _ hmeas)
            | rollback =>
                cases h2 : (s.incWProcessed.bumpWNext).wEntry with
                | none =>
                    rw [getSkipLoop_skip_none u s e he (Or.inr hwt) h2]
                    exact hstep
                | some e2 =>
                    by_cases hne : e2.1.user ≠ u
                    · rw [getSkipLoop_skip_met u s e e2 he (Or.inr hwt) h2 hne]
                      exact hstep
                    · rw [getSkipLoop_skip_rec u s e e2 he (Or.inr hwt) h2 (not_not.1 hne)]
                      exact baseFrame_trans hstep (ih _ hmeas)
  exact H _ s le_rfl

theorem baseFrame_get (s : Scanner) (u : Bytes) (ts : Nat) :
    baseFrame s (s.get u ts).2.2 := by
  unfold Scanner.get
  split
  · exact baseFrame_refl s
  · rcases hgl : Scanner.getNextLoop u ts SEEK_BOUND s with ⟨s1, res⟩
    have hf1 : baseFrame s s1 := by
      have := baseFrame_getNextLoop u ts SEEK_BOUND s
      rw [hgl] at this
      exact this
    cases res with
    | ended => exact hf1
    | metAnother => exact hf1
    | found => exact baseFrame_trans hf1 (baseFrame_getSkipLoop u s1)
    | exhausted =>
        simp only
        have hf2 := baseFrame_trans hf1 (baseFrame_wSeek s1 (⟨u, ts⟩ : WKey))
        cases hwe : (s1.wSeek ⟨u, ts⟩).wEntry with
        | none => exact hf2
        | some e =>
            by_cases hne : e.1.user ≠ u
            · simpa [hne] using hf2
            · simpa [not_not.1 hne] using baseFrame_trans hf2 (baseFrame_getSkipLoop u _)

theorem baseFrame_moveWLoop (u : Bytes) :
    ∀ n (s : Scanner), baseFrame s (Scanner.moveWLoop u n s).1 := by
  intro n
  induction n with
  | zero => intro s; exact baseFrame_refl s
  | succ n ih =>
      intro s
      rw [moveWLoop_succ]
      cases he : s.wEntry with
      | none => exact baseFrame_refl s
      | some e =>
          simp only
          split
          · exact baseFrame_refl s
          · split
            · exact baseFrame_refl s
            · exact baseFrame_trans (baseFrame_bumpWNext s) (ih s.bumpWNext)

theorem baseFrame_moveW (s : Scanner) (u : Bytes) :
    baseFrame s (s.move_write_cursor_to_next_user_key u) := by
  unfold Scanner.move_write_cursor_to_next_user_key
  rcases hml : Scanner.moveWLoop u SEEK_BOUND s with ⟨s1, done⟩
  have hf1 : baseFrame s s1 := by
    have := baseFrame_moveWLoop u SEEK_BOUND s
    rw [hml] at this
    exact this
  cases done
  · exact baseFrame_trans hf1 (baseFrame_wInternalSeek s1 _)
  · exact hf1

theorem baseFrame_handleWrite (s : Scanner) (u : Bytes) (get_ts : Nat)
    (result : Except ScanError (Option Value)) :
    baseFrame s (s.handleWrite u get_ts result).2 := by
  unfold Scanner.handleWrite
  rcases result with e | r
  · simp only
    split
    · exact baseFrame_refl s
    · exact baseFrame_moveW s u
  · rcases hg : s.get u get_ts with ⟨r1, rest⟩
    rcases rest with ⟨met, s1⟩
    have hf1 : baseFrame s s1 := by
      have := baseFrame_get s u get_ts
      rw [hg] at this
      exact this
    simp only
    split
    · exact hf1
    · exact baseFrame_trans hf1 (baseFrame_moveW s1 u)

theorem baseFrame_handleLock {checkLock : Bytes → Nat → LockRec → CheckLockResult}
    {s : Scanner} {u : Bytes} {r : Except ScanError (Option Value)} {t : Nat} {s1 : Scanner}
    (h : s.handleLock checkLock u = Except.ok (r, t, s1)) : baseFrame s s1 := by
  unfold Scanner.handleLock at h
  cases hiso : s.isolation_level <;> rw [hiso] at h
  · by_cases hv : s.lValid = true
    · rw [if_pos hv] at h
      obtain ⟨e, he⟩ := Scanner.lEntry_isSome_of_valid hv
      rw [he] at h
      simp only [Except.ok.injEq, Prod.mk.injEq] at h
      obtain ⟨-, -, h3⟩ := h
      rw [← h3]
      exact baseFrame_bumpLNext s
    · rw [if_neg hv] at h
      exact absurd h (by simp)
  · simp only [Except.ok.injEq, Prod.mk.injEq] at h
    obtain ⟨-, -, h3⟩ := h
    rw [← h3]
    exact baseFrame_bumpLNext s

theorem baseFrame_readNextStep (checkLock : Bytes → Nat → LockRec → CheckLockResult)
    (s : Scanner) : baseFrame s (Scanner.readNextStep checkLock s).2 := by
  unfold Scanner.readNextStep
  cases hsel : selectCurrent ((s.wEntry).map Prod.fst) ((s.lEntry).map Prod.fst) with
  | none => exact baseFrame_refl s
  | some c =>
      rcases c with ⟨u, hw, hl⟩
      simp only
      rcases hstep : (if hl then s.handleLock checkLock u
          else Except.ok (Except.ok none, s.ts, s)) with e | trip
      · exact baseFrame_refl s
      · rcases trip with ⟨result, get_ts, s1⟩
        have hf1 : baseFrame s s1 := by
          by_cases hhl : hl = true
          · rw [if_pos hhl] at hstep
            exact baseFrame_handleLock hstep
          · rw [if_neg hhl] at hstep
            simp only [Except.ok.injEq, Prod.mk.injEq] at hstep
            obtain ⟨-, -, h3⟩ := hstep
            rw [← h3]
            exact baseFrame_refl s
        simp only
        rcases hhw : (if hw then s1.handleWrite u get_ts result else (result, s1)) with ⟨r2, s2⟩
        have hf2 : baseFrame s1 s2 := by
          by_cases hb : hw = true
          · rw [if_pos hb] at hhw
            have := baseFrame_handleWrite s1 u get_ts result
            rw [hhw] at this
            exact this
          · rw [if_neg hb] at hhw
            simp only [Prod.mk.injEq] at hhw
            rw [← hhw.2]
            exact baseFrame_refl s1
        have hf := baseFrame_trans hf1 hf2
        rcases r2 with e | v
        · exact hf
        · rcases v with _ | v
          · exact hf
          · exact hf

theorem baseFrame_readNextLoop (checkLock : Bytes → Nat → LockRec → CheckLockResult) :
    ∀ n (s : Scanner), baseFrame s (Scanner.readNextLoop checkLock n s).2 := by
  intro n
  induction n with
  | zero => intro s; exact baseFrame_refl s
  | succ n ih =>
      intro s
      unfold Scanner.readNextLoop
      rcases hstep : Scanner.readNextStep checkLock s with ⟨o, s2⟩
      have hf : baseFrame s s2 := by
        have := baseFrame_readNextStep checkLock s
        rw [hstep] at this
        exact this
      cases o with
      | none => exact baseFrame_trans hf (ih s2)
      | some r => exact hf

end FwdScan

/-! ## Claim C7: a finished scan stays finished -/

namespace FwdScan

theorem read_next_started (checkLock : Bytes → Nat → LockRec → CheckLockResult)
    (s : Scanner) (h : s.is_started = true) :
    Scanner.read_next checkLock s = Scanner.readNextLoop checkLock (Scanner.fuelOf s) s := by
  unfold Scanner.read_next
  rw [if_pos h]

theorem read_next_unstarted_none (checkLock : Bytes → Nat → LockRec → CheckLockResult)
    (s : Scanner) (h : ¬ s.is_started = true) (hlb : s.lower_bound = none) :
    Scanner.read_next checkLock s = (Except.error ScanError.unwrapPanic, s) := by
  unfold Scanner.read_next
  rw [if_neg h, hlb]

theorem read_next_unstarted_some (checkLock : Bytes → Nat → LockRec → CheckLockResult)
    (s : Scanner) (lb : Bytes) (h : ¬ s.is_started = true) (hlb : s.lower_bound = some lb) :
    Scanner.read_next checkLock s =
      Scanner.readNextLoop checkLock
        (Scanner.fuelOf { (s.wSeekUserKey lb).lSeekUserKey lb with is_started := true })
        { (s.wSeekUserKey lb).lSeekUserKey lb with is_started := true } := by
  unfold Scanner.read_next
  rw [if_neg h, hlb]

theorem readNextStep_ok_none_inv {checkLock : Bytes → Nat → LockRec → CheckLockResult}
    {s s2 : Scanner}
    (h : Scanner.readNextStep checkLock s = (some (Except.ok none), s2)) :
    s2 = s ∧ s.wEntry = none ∧ s.lEntry = none := by
  unfold Scanner.readNextStep at h
  cases hsel : selectCurrent ((s.wEntry).map Prod.fst) ((s.lEntry).map Prod.fst) with
  | none =>
      rw [hsel] at h
      simp only [Prod.mk.injEq] at h
      have hboth := (selectCurrent_none_iff _ _).1 hsel
      exact ⟨h.2.symm, Option.map_eq_none'.1 hboth.1, Option.map_eq_none'.1 hboth.2⟩
  | some c =>
      rcases c with ⟨u, hw, hl⟩
      rw [hsel] at h
      dsimp only at h
      rcases hstep : (if hl = true then s.handleLock checkLock u
          else Except.ok (Except.ok none, s.ts, s)) with e | trip
      · rw [hstep] at h
        simp at h
      · rcases trip with ⟨result, get_ts, s1⟩
        rw [hstep] at h
        dsimp only at h
        rcases hhw : (if hw = true then s1.handleWrite u get_ts result else (result, s1))
            with ⟨r2, s3⟩
        rw [hhw] at h
        rcases r2 with e | v
        · simp at h
        · rcases v with _ | v
          · simp at h
          · simp at h

theorem readNextLoop_ok_none_inv (checkLock : Bytes → Nat → LockRec → CheckLockResult) :
    ∀ n (s s1 : Scanner),
      Scanner.readNextLoop checkLock n s = (Except.ok none, s1) →
      s1.wEntry = none ∧ s1.lEntry = none := by
  intro n
  induction n with
  | zero =>
      intro s s1 h
      unfold Scanner.readNextLoop at h
      simp at h
  | succ n ih =>
      intro s s1 h
      unfold Scanner.readNextLoop at h
      rcases hstep : Scanner.readNextStep checkLock s with ⟨o, s2⟩
      rw [hstep] at h
      cases o with
      | none => exact ih s2 s1 h
      | some r =>
          simp only [Prod.mk.injEq] at h
          obtain ⟨hr, hs⟩ := h
          rw [hr, hs] at hstep
          obtain ⟨he, hw, hl⟩ := readNextStep_ok_none_inv hstep
          rw [← he] at hw hl
          exact ⟨hw, hl⟩

theorem readNextLoop_is_started (checkLock : Bytes → Nat → LockRec → CheckLockResult)
    (n : Nat) (s : Scanner) :
    (Scanner.readNextLoop checkLock n s).2.is_started = s.is_started :=
  (baseFrame_readNextLoop checkLock n s).2.2.2.2.2.2

/-- C7: once a `read_next` call has returned `none` (scan complete),
every subsequent `read_next` call returns `none` again, with the state
unchanged. -/
theorem claim_C7 (checkLock : Bytes → Nat → LockRec → CheckLockResult) (s s1 : Scanner)
    (h : Scanner.read_next checkLock s = (Except.ok none, s1)) :
    Scanner.read_next checkLock s1 = (Except.ok none, s1) := by
  have hmain : s1.is_started = true ∧ s1.wEntry = none ∧ s1.lEntry = none := by
    by_cases hstart : s.is_started = true
    · rw [read_next_started checkLock s hstart] at h
      have hinv := readNextLoop_ok_none_inv checkLock _ _ _ h
      have hst : s1.is_started = s.is_started := by
        have := readNextLoop_is_started checkLock (Scanner.fuelOf s) s
        rw [h] at this
        exact this
      exact ⟨hst.trans hstart, hinv⟩
    · cases hlb : s.lower_bound with
      | none =>
          rw [read_next_unstarted_none checkLock s hstart hlb] at h
          simp at h
      | some lb =>
          rw [read_next_unstarted_some checkLock s lb hstart hlb] at h
          have hinv := readNextLoop_ok_none_inv checkLock _ _ _ h
          have hst : s1.is_started = true := by
            have := readNextLoop_is_started checkLock
              (Scanner.fuelOf { (s.wSeekUserKey lb).lSeekUserKey lb with is_started := true })
              { (s.wSeekUserKey lb).lSeekUserKey lb with is_started := true }
            rw [h] at this
            exact this
          exact ⟨hst, hinv⟩
  exact readNext_exhausted checkLock s1 hmain.1 hmain.2.1 hmain.2.2

/-- Closed witness for C7. -/
theorem claim_C7_witness :
    Scanner.read_next noLockCheck emptyStarted = (Except.ok none, emptyStarted) ∧
    Scanner.read_next noLockCheck emptyStarted = (Except.ok none, emptyStarted) :=
  ⟨rfl, claim_C7 noLockCheck emptyStarted emptyStarted rfl⟩

end FwdScan

/-! ## Claim C9: the interior assertions never fire -/

namespace FwdScan

theorem selectCurrent_some_inv {w_key : Option WKey} {l_key : Option Bytes}
    {u : Bytes} {hw hl : Bool}
    (h : selectCurrent w_key l_key = some (u, hw, hl)) :
    (hw = true → ∃ k, w_key = some k ∧ k.user = u) ∧
    (hl = true → l_key = some u) ∧
    (hw = true ∨ hl = true) := by
  cases w_key with
  | none =>
      cases l_key with
      | none => exact Option.noConfusion h
      | some lk =>
          simp only [selectCurrent, Option.some.injEq, Prod.mk.injEq] at h
          obtain ⟨h1, h2, h3⟩ := h
          subst h1
          refine ⟨fun hc => absurd hc.symm (by rw [← h2]; simp), fun _ => rfl, Or.inr h3.symm⟩
  | some wk =>
      cases l_key with
      | none =>
          simp only [selectCurrent, Option.some.injEq, Prod.mk.injEq] at h
          obtain ⟨h1, h2, h3⟩ := h
          subst h1
          refine ⟨fun _ => ⟨wk, rfl, rfl⟩, fun hc => absurd hc.symm (by rw [← h3]; simp),
            Or.inl h2.symm⟩
      | some lk =>
          simp only [selectCurrent] at h
          by_cases hlt : wk.user < lk
          · rw [if_pos hlt] at h
            simp only [Option.some.injEq, Prod.mk.injEq] at h
            obtain ⟨h1, h2, h3⟩ := h
            subst h1
            refine ⟨fun _ => ⟨wk, rfl, rfl⟩,
              fun hc => absurd hc.symm (by rw [← h3]; simp), Or.inl h2.symm⟩
          · rw [if_neg hlt] at h
            by_cases hgt : lk < wk.user
            · rw [if_pos hgt] at h
              simp only [Option.some.injEq, Prod.mk.injEq] at h
              obtain ⟨h1, h2, h3⟩ := h
              subst h1
              refine ⟨fun hc => absurd hc.symm (by rw [← h2]; simp),
                fun _ => rfl, Or.inr h3.symm⟩
            · rw [if_neg hgt] at h
              simp only [Option.some.injEq, Prod.mk.injEq] at h
              obtain ⟨h1, h2, h3⟩ := h
              subst h1
              have huser : wk.user = lk := le_antisymm (not_lt.1 hgt) (not_lt.1 hlt)
              exact ⟨fun _ => ⟨wk, rfl, huser⟩, fun _ => rfl, Or.inl h2.symm⟩

end FwdScan

namespace FwdScan

theorem handleLock_char (cl : Bytes → Nat → LockRec → CheckLockResult)
    (s : Scanner) (u : Bytes) (hv : s.lValid = true) :
    ∃ r t, s.handleLock cl u = Except.ok (r, t, s.bumpLNext) ∧
      (r = Except.ok none ∨ ∃ err, r = Except.error (ScanError.keyIsLocked err)) := by
  obtain ⟨e, he⟩ := Scanner.lEntry_isSome_of_valid hv
  cases hiso : s.isolation_level with
  | si =>
      rcases hc : cl u s.ts e.2 with err | _ | t
      · refine ⟨Except.error (ScanError.keyIsLocked err), s.ts, ?_, Or.inr ⟨err, rfl⟩⟩
        unfold Scanner.handleLock
        rw [hiso, if_pos hv, he]
        simp [hc]
      · refine ⟨Except.ok none, s.ts, ?_, Or.inl rfl⟩
        unfold Scanner.handleLock
        rw [hiso, if_pos hv, he]
        simp [hc]
      · refine ⟨Except.ok none, t, ?_, Or.inl rfl⟩
        unfold Scanner.handleLock
        rw [hiso, if_pos hv, he]
        simp [hc]
  | rc =>
      refine ⟨Except.ok none, s.ts, ?_, Or.inl rfl⟩
      unfold Scanner.handleLock
      rw [hiso]

theorem load_no_assert (s : Scanner) (w : WriteRec) (u : Bytes) :
    (s.load_data_by_write w u).1 ≠ Except.error ScanError.assertFail := by
  unfold Scanner.load_data_by_write Scanner.near_load_data_by_write
  split
  · simp
  · split
    · simp
    · dsimp only
      split <;> simp

theorem getSkipLoop_no_assert (u : Bytes) (s : Scanner) :
    (Scanner.getSkipLoop u s).1 ≠ Except.error ScanError.assertFail := by
  have H : ∀ (m : Nat) (s : Scanner), s.writeItems.length - s.writePos ≤ m →
      (Scanner.getSkipLoop u s).1 ≠ Except.error ScanError.assertFail := by
    intro m
    induction m with
    | zero =>
        intro s hm
        have hnone : s.wEntry = none := (Scanner.wEntry_none_iff s).2 (by omega)
        rw [getSkipLoop_none u s hnone]
        simp
    | succ m ih =>
        intro s hm
        cases he : s.wEntry with
        | none =>
            rw [getSkipLoop_none u s he]
            simp
        | some e =>
            have hmeas : (s.incWProcessed.bumpWNext).writeItems.length -
                (s.incWProcessed.bumpWNext).writePos ≤ m := by
              simp only [Scanner.bumpWNext_writeItems, Scanner.bumpWNext_writePos,
                Scanner.incWProcessed_writeItems, Scanner.incWProcessed_writePos]
              omega
            cases hwt : e.2.write_type with
            | put =>
                rw [getSkipLoop_put u s e he hwt]
                rcases hl : s.incWProcessed.load_data_by_write e.2 u with ⟨r, s2⟩
                have hna := load_no_assert s.incWProcessed e.2 u
                rw [hl] at hna
                cases r with
                | ok v => simp
                | error er => simpa using hna
            | delete =>
                rw [getSkipLoop_delete u s e he hwt]
                simp
            | lockKind =>
                cases h2 : (s.incWProcessed.bumpWNext).wEntry with
                | none =>
                    rw [getSkipLoop_skip_none u s e he (Or.inl hwt) h2]
                    simp
                | some e2 =>
                    by_cases hne : e2.1.user ≠ u
                    · rw [getSkipLoop_skip_met u s e e2 he (Or.inl hwt) h2 hne]
                      simp
                    · rw [getSkipLoop_skip_rec u s e e2 he (Or.inl hwt) h2 (not_not.1 hne)]
                      exact ih _ hmeas
            | rollback =>
                cases h2 : (s.incWProcessed.bumpWNext).wEntry with
                | none =>
                    rw [getSkipLoop_skip_none u s e he (Or.inr hwt) h2]
                    simp
                | some e2 =>
                    by_cases hne : e2.1.user ≠ u
                    · rw [getSkipLoop_skip_met u s e e2 he (Or.inr hwt) h2 hne]
                      simp
                    · rw [getSkipLoop_skip_rec u s e e2 he (Or.inr hwt) h2 (not_not.1 hne)]
                      exact ih _ hmeas
  exact H _ s le_rfl

theorem get_no_assert (s : Scanner) (u : Bytes) (ts : Nat) (hv : s.wValid = true) :
    (s.get u ts).1 ≠ Except.error ScanError.assertFail := by
  unfold Scanner.get
  rw [if_neg (by simp [hv])]
  rcases hgl : Scanner.getNextLoop u ts SEEK_BOUND s with ⟨s1, res⟩
  cases res with
  | ended => simp
  | metAnother => simp
  | found => exact getSkipLoop_no_assert u s1
  | exhausted =>
      simp only
      cases hwe : (s1.wSeek ⟨u, ts⟩).wEntry with
      | none => simp
      | some e =>
          by_cases hne : e.1.user ≠ u
          · simp [hne]
          · simp only [hne, if_neg hne]
            exact getSkipLoop_no_assert u _

theorem handleWrite_no_assert (s : Scanner) (u : Bytes) (t : Nat)
    (result : Except ScanError (Option Value)) (hv : s.wValid = true)
    (hres : result ≠ Except.error ScanError.assertFail) :
    (s.handleWrite u t result).1 ≠ Except.error ScanError.assertFail := by
  unfold Scanner.handleWrite
  rcases result with er | r
  · simp only
    split <;> simpa using hres
  · rcases hg : s.get u t with ⟨r1, rest⟩
    rcases rest with ⟨met, s1⟩
    have hna := get_no_assert s u t hv
    rw [hg] at hna
    simp only
    split <;> exact hna

end FwdScan

namespace FwdScan

theorem readNextStep_no_assert (cl : Bytes → Nat → LockRec → CheckLockResult) (s : Scanner) :
    (Scanner.readNextStep cl s).1 ≠ some (Except.error ScanError.assertFail) := by
  unfold Scanner.readNextStep
  cases hsel : selectCurrent ((s.wEntry).map Prod.fst) ((s.lEntry).map Prod.fst) with
  | none => simp
  | some c =>
      rcases c with ⟨u, hw, hl⟩
      obtain ⟨hWsel, hLsel, -⟩ := selectCurrent_some_inv hsel
      dsimp only
      have hstepchar : ∃ result get_ts s1,
          (if hl = true then s.handleLock cl u else Except.ok (Except.ok none, s.ts, s)) =
            Except.ok (result, get_ts, s1) ∧
          (result = Except.ok none ∨ ∃ err, result = Except.error (ScanError.keyIsLocked err)) ∧
          s1.wValid = s.wValid := by
        by_cases hhl : hl = true
        · rw [if_pos hhl]
          obtain ⟨le, hle, -⟩ := Option.map_eq_some'.1 (hLsel hhl)
          have hv : s.lValid = true := Scanner.lValid_of_lEntry_some hle
          obtain ⟨r, t, heq, hcl⟩ := handleLock_char cl s u hv
          exact ⟨r, t, s.bumpLNext, heq, hcl, rfl⟩
        · rw [if_neg hhl]
          exact ⟨Except.ok none, s.ts, s, rfl, Or.inl rfl, rfl⟩
      obtain ⟨result, get_ts, s1, hstep, hres, hvalid⟩ := hstepchar
      rw [hstep]
      dsimp only
      have hresna : result ≠ Except.error ScanError.assertFail := by
        rcases hres with h | ⟨err, h⟩ <;> rw [h] <;> simp
      rcases hhw : (if hw = true then s1.handleWrite u get_ts result else (result, s1))
          with ⟨r2, s2⟩
      have hr2 : r2 ≠ Except.error ScanError.assertFail := by
        by_cases hb : hw = true
        · rw [if_pos hb] at hhw
          obtain ⟨k, hmap, hku⟩ := hWsel hb
          obtain ⟨we, hwe, -⟩ := Option.map_eq_some'.1 hmap
          have hv : s.wValid = true := Scanner.wValid_of_wEntry_some hwe
          have hv1 : s1.wValid = true := hvalid.trans hv
          have := handleWrite_no_assert s1 u get_ts result hv1 hresna
          rw [hhw] at this
          exact this
        · rw [if_neg hb] at hhw
          simp only [Prod.mk.injEq] at hhw
          rw [← hhw.1]
          exact hresna
      dsimp only
      rcases r2 with er | v
      · simpa using hr2
      · rcases v with _ | v <;> simp

theorem readNextLoop_no_assert (cl : Bytes → Nat → LockRec → CheckLockResult) :
    ∀ n (s : Scanner),
      (Scanner.readNextLoop cl n s).1 ≠ Except.error ScanError.assertFail := by
  intro n
  induction n with
  | zero => intro s; simp [Scanner.readNextLoop]
  | succ n ih =>
      intro s
      unfold Scanner.readNextLoop
      rcases hstep : Scanner.readNextStep cl s with ⟨o, s2⟩
      have hna := readNextStep_no_assert cl s
      rw [hstep] at hna
      cases o with
      | none => exact ih s2
      | some r => simpa using hna

/-- C9: the assertions inside `read_next` and `get` are never violated:
the selection step yields `has_lock` only when the lock cursor is valid
and `has_write` only when the write cursor is valid (on the selected
user key), so no execution of `read_next` can produce the
assertion-failure outcome. -/
theorem claim_C9 :
    (∀ (w_key : Option WKey) (l_key : Option Bytes) (u : Bytes) (hw hl : Bool),
        selectCurrent w_key l_key = some (u, hw, hl) →
        (hl = true → l_key = some u) ∧ (hw = true → ∃ k, w_key = some k ∧ k.user = u)) ∧
    (∀ (cl : Bytes → Nat → LockRec → CheckLockResult) (s : Scanner),
        (Scanner.read_next cl s).1 ≠ Except.error ScanError.assertFail) := by
  constructor
  · intro wk lk u hw hl h
    obtain ⟨h1, h2, -⟩ := selectCurrent_some_inv h
    exact ⟨h2, h1⟩
  · intro cl s
    by_cases hstart : s.is_started = true
    · rw [read_next_started cl s hstart]
      exact readNextLoop_no_assert cl _ _
    · cases hlb : s.lower_bound with
      | none =>
          rw [read_next_unstarted_none cl s hstart hlb]
          simp
      | some lb =>
          rw [read_next_unstarted_some cl s lb hstart hlb]
          exact readNextLoop_no_assert cl _ _

/-- Closed witness for C9. -/
theorem claim_C9_witness :
    (Scanner.read_next noLockCheck lockFixture).1 ≠ Except.error ScanError.assertFail :=
  claim_C9.2 noLockCheck lockFixture

end FwdScan

/-! ## Claim C10: a set met-next flag means the cursor is on a later user key -/

namespace FwdScan

theorem sorted_user_lt {items : List (WKey × WriteRec)} (hs : SortedWrites items)
    {i j : Nat} (hij : i < j) (hi : i < items.length) (hj : j < items.length) :
    wkeyLt (items.get ⟨i, hi⟩).1 (items.get ⟨j, hj⟩).1 := by
  have := List.pairwise_iff_getElem.1 hs i j hi hj hij
  simpa using this

theorem getNextLoop_pos_le (u : Bytes) (ts : Nat) :
    ∀ n (s : Scanner), s.writePos ≤ (Scanner.getNextLoop u ts n s).1.writePos := by
  intro n
  induction n with
  | zero => intro s; exact le_rfl
  | succ n ih =>
      intro s
      rw [getNextLoop_succ]
      cases he : s.wEntry with
      | none => exact le_rfl
      | some e =>
          simp only
          split
          · exact le_rfl
          · split
            · exact le_rfl
            · split
              · exact le_rfl
              · exact le_trans (by simp) (ih s.bumpWNext)

theorem getNextLoop_met_entry (u : Bytes) (ts : Nat) :
    ∀ n (s s1 : Scanner),
      Scanner.getNextLoop u ts n s = (s1, Scanner.NextLoopRes.metAnother) →
      ∃ e, s1.wEntry = some e ∧ e.1.user ≠ u ∧ s.writePos ≤ s1.writePos := by
  intro n
  induction n with
  | zero =>
      intro s s1 h
      exact absurd (congrArg Prod.snd h) (by simp [Scanner.getNextLoop])
  | succ n ih =>
      intro s s1 h
      rw [getNextLoop_succ] at h
      cases he : s.wEntry with
      | none =>
          rw [he] at h
          exact absurd (congrArg Prod.snd h) (by simp)
      | some e =>
          rw [he] at h
          dsimp only at h
          by_cases hne : e.1.user ≠ u
          · rw [if_pos hne] at h
            simp only [Prod.mk.injEq] at h
            exact ⟨e, h.1 ▸ he, hne, le_of_eq (by rw [h.1])⟩
          · rw [if_neg hne] at h
            by_cases hts : e.1.ts ≤ ts
            · rw [if_pos hts] at h
              exact absurd (congrArg Prod.snd h) (by simp)
            · rw [if_neg hts] at h
              by_cases hn : n = 0
              · rw [if_pos hn] at h
                exact absurd (congrArg Prod.snd h) (by simp)
              · rw [if_neg hn] at h
                obtain ⟨e1, he1, hne1, hpos⟩ := ih _ _ h
                exact ⟨e1, he1, hne1, le_trans (by simp) hpos⟩

end FwdScan

namespace FwdScan

theorem getNextLoop_found_entry (u : Bytes) (ts : Nat) :
    ∀ n (s s1 : Scanner),
      Scanner.getNextLoop u ts n s = (s1, Scanner.NextLoopRes.found) →
      ∃ e, s1.wEntry = some e ∧ e.1.user = u ∧ e.1.ts ≤ ts ∧ s.writePos ≤ s1.writePos := by
  intro n
  induction n with
  | zero =>
      intro s s1 h
      exact absurd (congrArg Prod.snd h) (by simp [Scanner.getNextLoop])
  | succ n ih =>
      intro s s1 h
      rw [getNextLoop_succ] at h
      cases he : s.wEntry with
      | none =>
          rw [he] at h
          exact absurd (congrArg Prod.snd h) (by simp)
      | some e =>
          rw [he] at h
          dsimp only at h
          by_cases hne : e.1.user ≠ u
          · rw [if_pos hne] at h
            exact absurd (congrArg Prod.snd h) (by simp)
          · rw [if_neg hne] at h
            by_cases hts : e.1.ts ≤ ts
            · rw [if_pos hts] at h
              simp only [Prod.mk.injEq] at h
              exact ⟨e, h.1 ▸ he, not_not.1 hne, hts, le_of_eq (by rw [h.1])⟩
            · rw [if_neg hts] at h
              by_cases hn : n = 0
              · rw [if_pos hn] at h
                exact absurd (congrArg Prod.snd h) (by simp)
              · rw [if_neg hn] at h
                obtain ⟨e1, he1, hu1, ht1, hpos⟩ := ih _ _ h
                exact ⟨e1, he1, hu1, ht1, le_trans (by simp) hpos⟩

theorem getSkipLoop_met_entry (u : Bytes) :
    ∀ (s : Scanner) (r : Except ScanError (Option Value)) (s1 : Scanner),
      Scanner.getSkipLoop u s = (r, true, s1) →
      ∃ e, s1.wEntry = some e ∧ e.1.user ≠ u ∧ s.writePos < s1.writePos := by
  have H : ∀ (m : Nat) (s : Scanner), s.writeItems.length - s.writePos ≤ m →
      ∀ (r : Except ScanError (Option Value)) (s1 : Scanner),
      Scanner.getSkipLoop u s = (r, true, s1) →
      ∃ e, s1.wEntry = some e ∧ e.1.user ≠ u ∧ s.writePos < s1.writePos := by
    intro m
    induction m with
    | zero =>
        intro s hm r s1 h
        have hnone : s.wEntry = none := (Scanner.wEntry_none_iff s).2 (by omega)
        rw [getSkipLoop_none u s hnone] at h
        exact absurd (congrArg (fun p => p.2.1) h) (by simp)
    | succ m ih =>
        intro s hm r s1 h
        cases he : s.wEntry with
        | none =>
            rw [getSkipLoop_none u s he] at h
            exact absurd (congrArg (fun p => p.2.1) h) (by simp)
        | some e =>
            have hmeas : (s.incWProcessed.bumpWNext).writeItems.length -
                (s.incWProcessed.bumpWNext).writePos ≤ m := by
              simp only [Scanner.bumpWNext_writeItems, Scanner.bumpWNext_writePos,
                Scanner.incWProcessed_writeItems, Scanner.incWProcessed_writePos]
              omega
            cases hwt : e.2.write_type with
            | put =>
                rw [getSkipLoop_put u s e he hwt] at h
                rcases hl : s.incWProcessed.load_data_by_write e.2 u with ⟨rr, s2⟩
                rw [hl] at h
                cases rr with
                | ok v => exact absurd (congrArg (fun p => p.2.1) h) (by simp)
                | error er => exact absurd (congrArg (fun p => p.2.1) h) (by simp)
            | delete =>
                rw [getSkipLoop_delete u s e he hwt] at h
                exact absurd (congrArg (fun p => p.2.1) h) (by simp)
            | lockKind =>
                cases h2 : (s.incWProcessed.bumpWNext).wEntry with
                | none =>
                    rw [getSkipLoop_skip_none u s e he (Or.inl hwt) h2] at h
                    exact absurd (congrArg (fun p => p.2.1) h) (by simp)
                | some e2 =>
                    by_cases hne : e2.1.user ≠ u
                    · rw [getSkipLoop_skip_met u s e e2 he (Or.inl hwt) h2 hne] at h
                      simp only [Prod.mk.injEq] at h
                      refine ⟨e2, ?_, hne, ?_⟩
                      · rw [← h.2.2]
                        exact h2
                      · rw [← h.2.2]
                        simp
                    · rw [getSkipLoop_skip_rec u s e e2 he (Or.inl hwt) h2 (not_not.1 hne)] at h
                      obtain ⟨e1, he1, hne1, hpos⟩ := ih _ hmeas _ _ h
                      refine ⟨e1, he1, hne1, lt_trans ?_ hpos⟩
                      simp
            | rollback =>
                cases h2 : (s.incWProcessed.bumpWNext).wEntry with
                | none =>
                    rw [getSkipLoop_skip_none u s e he (Or.inr hwt) h2] at h
                    exact absurd (congrArg (fun p => p.2.1) h) (by simp)
                | some e2 =>
                    by_cases hne : e2.1.user ≠ u
                    · rw [getSkipLoop_skip_met u s e e2 he (Or.inr hwt) h2 hne] at h
                      simp only [Prod.mk.injEq] at h
                      refine ⟨e2, ?_, hne, ?_⟩
                      · rw [← h.2.2]
                        exact h2
                      · rw [← h.2.2]
                        simp
                    · rw [getSkipLoop_skip_rec u s e e2 he (Or.inr hwt) h2
                        (not_not.1 hne)] at h
                      obtain ⟨e1, he1, hne1, hpos⟩ := ih _ hmeas _ _ h
                      refine ⟨e1, he1, hne1, lt_trans ?_ hpos⟩
                      simp
  intro s r s1 h
  exact H _ s le_rfl r s1 h

end FwdScan

namespace FwdScan

theorem wkeyLt_of_not_of_ne {a b : WKey} (h : ¬ wkeyLt a b) (hne : a ≠ b) : wkeyLt b a := by
  rcases wkeyLt_trichotomy a b with hc | hc | hc
  · exact absurd hc h
  · exact absurd hc hne
  · exact hc

theorem Scanner.wEntry_wSeek (s : Scanner) (k : WKey) :
    (s.wSeek k).wEntry = s.writeItems.get? (Scanner.seekIdxW s.writeItems k) := rfl

theorem Scanner.wEntry_wInternalSeek (s : Scanner) (k : WKey) :
    (s.wInternalSeek k).wEntry = s.writeItems.get? (Scanner.seekIdxW s.writeItems k) := rfl

theorem seekIdxW_entry_pred {items : List (WKey × WriteRec)} {k : WKey} {e : WKey × WriteRec}
    (h : items.get? (Scanner.seekIdxW items k) = some e) : ¬ wkeyLt e.1 k := by
  simp only [Scanner.seekIdxW] at h
  have hlt : List.findIdx (fun a => decide (¬ wkeyLt a.1 k)) items < items.length := by
    by_contra hge
    rw [List.get?_eq_none.2 (by omega)] at h
    exact Option.noConfusion h
  have hp := @List.findIdx_getElem _ (fun a => decide (¬ wkeyLt a.1 k)) items hlt
  rw [List.get?_eq_getElem?, List.getElem?_eq_getElem hlt] at h
  have hitem := Option.some.inj h
  rw [hitem] at hp
  simpa using hp

theorem seekIdxW_before {items : List (WKey × WriteRec)} {k : WKey} {j : Nat}
    (hj : j < Scanner.seekIdxW items k) {e : WKey × WriteRec}
    (he : items.get? j = some e) : wkeyLt e.1 k := by
  simp only [Scanner.seekIdxW] at hj
  have hjl : j < items.length := by
    by_contra hge
    rw [List.get?_eq_none.2 (by omega)] at he
    exact Option.noConfusion he
  have hp := @List.not_of_lt_findIdx _ (fun a => decide (¬ wkeyLt a.1 k)) items j hj
  rw [List.get?_eq_getElem?, List.getElem?_eq_getElem hjl] at he
  have hitem := Option.some.inj he
  rw [hitem] at hp
  simpa using hp

end FwdScan

namespace FwdScan

theorem sorted_get?_lt {items : List (WKey × WriteRec)} (hs : SortedWrites items)
    {i j : Nat} (hij : i < j) {a b : WKey × WriteRec}
    (ha : items.get? i = some a) (hb : items.get? j = some b) : wkeyLt a.1 b.1 := by
  have hil : i < items.length := by
    by_contra hge
    rw [List.get?_eq_none.2 (by omega)] at ha
    exact Option.noConfusion ha
  have hjl : j < items.length := by
    by_contra hge
    rw [List.get?_eq_none.2 (by omega)] at hb
    exact Option.noConfusion hb
  rw [List.get?_eq_get hil] at ha
  rw [List.get?_eq_get hjl] at hb
  have hp := List.pairwise_iff_get.1 hs ⟨i, hil⟩ ⟨j, hjl⟩ hij
  rw [Option.some.inj ha, Option.some.inj hb] at hp
  exact hp

theorem user_lt_of_step {s t : Scanner} (hsort : SortedWrites s.writeItems)
    (hitems : t.writeItems = s.writeItems)
    {e0 e : WKey × WriteRec} (he0 : s.wEntry = some e0) (he : t.wEntry = some e)
    (hpos : s.writePos ≤ t.writePos) (hne : e.1.user ≠ e0.1.user) :
    e0.1.user < e.1.user := by
  have he' : s.writeItems.get? t.writePos = some e := by
    rw [← hitems]
    exact he
  rcases lt_or_eq_of_le hpos with hlt | heqp
  · have hw := sorted_get?_lt hsort hlt he0 he'
    exact user_lt_of_wkeyLt_of_ne hw (fun hcontra => hne hcontra.symm)
  · rw [← heqp] at he'
    rw [Scanner.wEntry] at he0
    rw [he0] at he'
    cases Option.some.inj he'
    exact absurd rfl hne

theorem get_met_gt (s : Scanner) (u : Bytes) (ts : Nat)
    (r : Except ScanError (Option Value)) (s1 : Scanner)
    (hsort : SortedWrites s.writeItems)
    (e0 : WKey × WriteRec) (he0 : s.wEntry = some e0) (hu0 : e0.1.user = u)
    (h : s.get u ts = (r, true, s1)) :
    ∃ e, s1.wEntry = some e ∧ e.1.user ≠ u ∧ u < e.1.user := by
  have hvalid : s.wValid = true := Scanner.wValid_of_wEntry_some he0
  unfold Scanner.get at h
  rw [if_neg (by simp [hvalid])] at h
  rcases hgl : Scanner.getNextLoop u ts SEEK_BOUND s with ⟨sA, res⟩
  rw [hgl] at h
  have hframe : sA.writeItems = s.writeItems := by
    have := baseFrame_getNextLoop u ts SEEK_BOUND s
    rw [hgl] at this
    exact this.1
  have hposA : s.writePos ≤ sA.writePos := by
    have := getNextLoop_pos_le u ts SEEK_BOUND s
    rw [hgl] at this
    exact this
  cases res with
  | ended =>
      dsimp only at h
      exact absurd (congrArg (fun p => p.2.1) h) (by simp)
  | metAnother =>
      obtain ⟨e, he, hne, hpos⟩ := getNextLoop_met_entry u ts SEEK_BOUND s sA hgl
      simp only [Prod.mk.injEq] at h
      obtain ⟨-, -, hs1⟩ := h
      subst hs1
      refine ⟨e, he, hne, ?_⟩
      have := user_lt_of_step hsort hframe he0 he hpos (by rw [hu0]; exact hne)
      rw [hu0] at this
      exact this
  | found =>
      dsimp only at h
      obtain ⟨eF, heF, huF, htF, hposF⟩ := getNextLoop_found_entry u ts SEEK_BOUND s sA hgl
      obtain ⟨e1, he1, hne1, hpos1⟩ := getSkipLoop_met_entry u sA r s1 h
      have hframe1 : s1.writeItems = sA.writeItems := by
        have := baseFrame_getSkipLoop u sA
        rw [h] at this
        exact this.1
      refine ⟨e1, he1, hne1, ?_⟩
      have hsortA : SortedWrites sA.writeItems := by
        rw [hframe]
        exact hsort
      have := user_lt_of_step hsortA hframe1 heF he1 (le_of_lt hpos1)
        (by rw [huF]; exact hne1)
      rw [huF] at this
      exact this
  | exhausted =>
      dsimp only at h
      cases hwe : (sA.wSeek ⟨u, ts⟩).wEntry with
      | none =>
          rw [hwe] at h
          dsimp only at h
          exact absurd (congrArg (fun p => p.2.1) h) (by simp)
      | some e =>
          rw [hwe] at h
          dsimp only at h
          by_cases hne : e.1.user ≠ u
          · rw [if_pos hne] at h
            simp only [Prod.mk.injEq] at h
            obtain ⟨-, -, hs1⟩ := h
            subst hs1
            refine ⟨e, hwe, hne, ?_⟩
            have hpred : ¬ wkeyLt e.1 ⟨u, ts⟩ :=
              seekIdxW_entry_pred (by rw [← Scanner.wEntry_wSeek]; exact hwe)
            have hnek : e.1 ≠ (⟨u, ts⟩ : WKey) := by
              intro hcontra
              exact hne (by rw [hcontra])
            have hlt := wkeyLt_of_not_of_ne hpred hnek
            have := user_lt_of_wkeyLt_of_ne hlt
              (by intro hcontra; exact hne (by rw [← hcontra]))
            exact this
          · rw [if_neg hne] at h
            have hueq : e.1.user = u := not_not.1 hne
            obtain ⟨e1, he1, hne1, hpos1⟩ := getSkipLoop_met_entry u _ r s1 h
            have hframe1 : s1.writeItems = (sA.wSeek ⟨u, ts⟩).writeItems := by
              have := baseFrame_getSkipLoop u (sA.wSeek ⟨u, ts⟩)
              rw [h] at this
              exact this.1
            refine ⟨e1, he1, hne1, ?_⟩
            have hsortB : SortedWrites (sA.wSeek ⟨u, ts⟩).writeItems := by
              rw [Scanner.wSeek_writeItems, hframe]
              exact hsort
            have := user_lt_of_step hsortB hframe1 hwe he1 (le_of_lt hpos1)
              (by rw [hueq]; exact hne1)
            rw [hueq] at this
            exact this

/-- C10: whenever `get` returns with the `met_next_user_key` flag set,
the write cursor is valid and positioned on a key whose user-key
component differs from — and, on a sorted stream, strictly exceeds —
the current user key; consequently `read_next`, which skips
`move_write_cursor_to_next_user_key` in that case, still leaves the
write cursor past the current user key. -/
theorem claim_C10 (s : Scanner) (u : Bytes) (ts : Nat)
    (r : Except ScanError (Option Value)) (s1 : Scanner)
    (hsort : SortedWrites s.writeItems)
    (e0 : WKey × WriteRec) (he0 : s.wEntry = some e0) (hu0 : e0.1.user = u)
    (h : s.get u ts = (r, true, s1)) :
    (∃ e, s1.wEntry = some e ∧ e.1.user ≠ u ∧ u < e.1.user) ∧
    s.handleWrite u ts (Except.ok none) = (r, s1) := by
  refine ⟨get_met_gt s u ts r s1 hsort e0 he0 hu0 h, ?_⟩
  · unfold Scanner.handleWrite
    dsimp only
    rw [h]
    simp

/-- Closed witness for C10. -/
theorem claim_C10_witness :
    (∃ e, (C10fixture.incWProcessed.bumpWNext).wEntry = some e ∧ e.1.user ≠ [10] ∧
        [10] < e.1.user) ∧
    C10fixture.handleWrite [10] 10 (Except.ok none) =
      (Except.ok none, C10fixture.incWProcessed.bumpWNext) := by
  have hsortfix : SortedWrites C10fixture.writeItems := by
    unfold SortedWrites C10fixture
    simp only [build, List.pairwise_cons]
    refine ⟨?_, ?_, ?_⟩ <;> try decide
  have hskip := getSkipLoop_skip_met [10] C10fixture
      (⟨[10], 9⟩, ⟨WriteType.rollback, 9, none⟩) (⟨[11], 3⟩, ⟨WriteType.put, 2, some [24]⟩)
      rfl (Or.inr rfl) rfl (by decide)
  have hget : C10fixture.get [10] 10 =
      (Except.ok none, true, C10fixture.incWProcessed.bumpWNext) := by
    unfold Scanner.get
    rw [if_neg (by decide), show Scanner.getNextLoop [10] 10 SEEK_BOUND C10fixture =
        (C10fixture, Scanner.NextLoopRes.found) from rfl]
    exact hskip
  exact claim_C10 C10fixture [10] 10 (Except.ok none) (C10fixture.incWProcessed.bumpWNext)
    hsortfix (⟨[10], 9⟩, ⟨WriteType.rollback, 9, none⟩) rfl rfl hget

end FwdScan

/-! ## Claim C6: a lock error still advances both cursors past the key -/

namespace FwdScan

theorem sorted_locks_get?_lt {items : List (Bytes × LockRec)} (hs : SortedLocks items)
    {i j : Nat} (hij : i < j) {a b : Bytes × LockRec}
    (ha : items.get? i = some a) (hb : items.get? j = some b) : a.1 < b.1 := by
  have hil : i < items.length := by
    by_contra hge
    rw [List.get?_eq_none.2 (by omega)] at ha
    exact Option.noConfusion ha
  have hjl : j < items.length := by
    by_contra hge
    rw [List.get?_eq_none.2 (by omega)] at hb
    exact Option.noConfusion hb
  rw [List.get?_eq_get hil] at ha
  rw [List.get?_eq_get hjl] at hb
  have hp := List.pairwise_iff_get.1 hs ⟨i, hil⟩ ⟨j, hjl⟩ hij
  rw [Option.some.inj ha, Option.some.inj hb] at hp
  exact hp

theorem moveWLoop_pos_le (u : Bytes) :
    ∀ n (s : Scanner), s.writePos ≤ (Scanner.moveWLoop u n s).1.writePos := by
  intro n
  induction n with
  | zero => intro s; exact le_rfl
  | succ n ih =>
      intro s
      rw [moveWLoop_succ]
      cases he : s.wEntry with
      | none => exact le_rfl
      | some e =>
          simp only
          split
          · exact le_rfl
          · split
            · exact le_rfl
            · exact le_trans (by simp) (ih s.bumpWNext)

theorem moveWLoop_true_entry (u : Bytes) :
    ∀ n (s s1 : Scanner), Scanner.moveWLoop u n s = (s1, true) →
      s1.wEntry = none ∨ ∃ e, s1.wEntry = some e ∧ e.1.user ≠ u := by
  intro n
  induction n with
  | zero =>
      intro s s1 h
      exact absurd (congrArg Prod.snd h) (by simp [Scanner.moveWLoop])
  | succ n ih =>
      intro s s1 h
      rw [moveWLoop_succ] at h
      cases he : s.wEntry with
      | none =>
          rw [he] at h
          simp only [Prod.mk.injEq] at h
          exact Or.inl (h.1 ▸ he)
      | some e =>
          rw [he] at h
          dsimp only at h
          by_cases hne : e.1.user ≠ u
          · rw [if_pos hne] at h
            simp only [Prod.mk.injEq] at h
            exact Or.inr ⟨e, h.1 ▸ he, hne⟩
          · rw [if_neg hne] at h
            by_cases hn : n = 0
            · rw [if_pos hn] at h
              exact absurd (congrArg Prod.snd h) (by simp)
            · rw [if_neg hn] at h
              exact ih _ _ h

theorem moveW_past {s : Scanner} {u : Bytes} (hsort : SortedWrites s.writeItems)
    (htspos : PosTs s.writeItems) {e0 : WKey × WriteRec}
    (he0 : s.wEntry = some e0) (hu0 : e0.1.user = u) :
    ∀ e, (s.move_write_cursor_to_next_user_key u).wEntry = some e → u < e.1.user := by
  intro e he
  unfold Scanner.move_write_cursor_to_next_user_key at he
  rcases hml : Scanner.moveWLoop u SEEK_BOUND s with ⟨s1, done⟩
  rw [hml] at he
  have hitems : s1.writeItems = s.writeItems := by
    have := baseFrame_moveWLoop u SEEK_BOUND s
    rw [hml] at this
    exact this.1
  have hpos : s.writePos ≤ s1.writePos := by
    have := moveWLoop_pos_le u SEEK_BOUND s
    rw [hml] at this
    exact this
  cases done with
  | true =>
      dsimp only at he
      rcases moveWLoop_true_entry u SEEK_BOUND s s1 hml with hnone | ⟨e1, he1, hne1⟩
      · rw [hnone] at he
        exact Option.noConfusion he
      · rw [he1] at he
        cases Option.some.inj he
        have := user_lt_of_step hsort hitems he0 he1 hpos (by rw [hu0]; exact hne1)
        rw [hu0] at this
        exact this
  | false =>
      dsimp only at he
      rw [Scanner.wEntry_wInternalSeek] at he
      have hpred : ¬ wkeyLt e.1 ⟨u, 0⟩ := seekIdxW_entry_pred he
      have hmem : e ∈ s1.writeItems := List.get?_mem he
      rw [hitems] at hmem
      have hts : 0 < e.1.ts := htspos e hmem
      have hne : e.1 ≠ (⟨u, 0⟩ : WKey) := by
        intro hcontra
        rw [hcontra] at hts
        exact lt_irrefl 0 hts
      have hlt := wkeyLt_of_not_of_ne hpred hne
      rcases hlt with hlt | ⟨hequ, hlt⟩
      · exact hlt
      · exact absurd hlt (Nat.not_lt_zero _)

theorem moveWLoop_write_stats (u : Bytes) :
    ∀ n (s : Scanner),
      (Scanner.moveWLoop u n s).1.statistics.write.processed =
        s.statistics.write.processed ∧
      (Scanner.moveWLoop u n s).1.statistics.write.seekCnt =
        s.statistics.write.seekCnt := by
  intro n
  induction n with
  | zero => intro s; exact ⟨rfl, rfl⟩
  | succ n ih =>
      intro s
      rw [moveWLoop_succ]
      cases he : s.wEntry with
      | none => exact ⟨rfl, rfl⟩
      | some e =>
          simp only
          split
          · exact ⟨rfl, rfl⟩
          · split
            · exact ⟨rfl, rfl⟩
            · exact ih s.bumpWNext

theorem moveW_write_stats (s : Scanner) (u : Bytes) :
    (s.move_write_cursor_to_next_user_key u).statistics.write.processed =
      s.statistics.write.processed ∧
    (s.move_write_cursor_to_next_user_key u).statistics.write.seekCnt =
      s.statistics.write.seekCnt := by
  unfold Scanner.move_write_cursor_to_next_user_key
  rcases hml : Scanner.moveWLoop u SEEK_BOUND s with ⟨s1, done⟩
  have hstats := moveWLoop_write_stats u SEEK_BOUND s
  rw [hml] at hstats
  cases done with
  | true => exact hstats
  | false => exact hstats

end FwdScan

namespace FwdScan

theorem moveWLoop_lockState (u : Bytes) :
    ∀ n (s : Scanner), (Scanner.moveWLoop u n s).1.lockPos = s.lockPos ∧
      (Scanner.moveWLoop u n s).1.statistics.lock = s.statistics.lock := by
  intro n
  induction n with
  | zero => intro s; exact ⟨rfl, rfl⟩
  | succ n ih =>
      intro s
      rw [moveWLoop_succ]
      cases he : s.wEntry with
      | none => exact ⟨rfl, rfl⟩
      | some e =>
          simp only
          split
          · exact ⟨rfl, rfl⟩
          · split
            · exact ⟨rfl, rfl⟩
            · exact ih s.bumpWNext

theorem moveW_lockState (s : Scanner) (u : Bytes) :
    (s.move_write_cursor_to_next_user_key u).lockPos = s.lockPos ∧
    (s.move_write_cursor_to_next_user_key u).statistics.lock = s.statistics.lock := by
  unfold Scanner.move_write_cursor_to_next_user_key
  rcases hml : Scanner.moveWLoop u SEEK_BOUND s with ⟨s1, done⟩
  have hstats := moveWLoop_lockState u SEEK_BOUND s
  rw [hml] at hstats
  cases done with
  | true => exact hstats
  | false => exact hstats

theorem readNextStep_locked {cl : Bytes → Nat → LockRec → CheckLockResult} {s : Scanner}
    {u : Bytes} {lrec : LockRec} {err : Nat}
    (hiso : s.isolation_level = IsolationLevel.si)
    (hle : s.lEntry = some (u, lrec))
    (hcl : cl u s.ts lrec = CheckLockResult.locked err)
    (hwge : ∀ e, s.wEntry = some e → u ≤ e.1.user)
    (hsort : SortedWrites s.writeItems) (htspos : PosTs s.writeItems) :
    ∃ s1, Scanner.readNextStep cl s = (some (Except.error (ScanError.keyIsLocked err)), s1) ∧
      s1.lockPos = s.lockPos + 1 ∧
      s1.writeItems = s.writeItems ∧ s1.lockItems = s.lockItems ∧
      s1.statistics.write.processed = s.statistics.write.processed ∧
      s1.is_started = s.is_started ∧
      (∀ e, s1.wEntry = some e → u < e.1.user) := by
  have hhl : s.handleLock cl u =
      Except.ok (Except.error (ScanError.keyIsLocked err), s.ts, s.bumpLNext) := by
    unfold Scanner.handleLock
    rw [hiso, if_pos (Scanner.lValid_of_lEntry_some hle), hle]
    simp [hcl]
  cases hwe : s.wEntry with
  | none =>
      refine ⟨s.bumpLNext, ?_, rfl, rfl, rfl, rfl, rfl, ?_⟩
      · unfold Scanner.readNextStep
        rw [hwe, hle]
        dsimp only [Option.map, selectCurrent]
        rw [hhl]
        rfl
      · intro e he
        rw [show (s.bumpLNext).wEntry = s.wEntry from rfl, hwe] at he
        exact Option.noConfusion he
  | some e0 =>
      rcases lt_or_eq_of_le (hwge e0 hwe) with hlt | heq
      · refine ⟨s.bumpLNext, ?_, rfl, rfl, rfl, rfl, rfl, ?_⟩
        · unfold Scanner.readNextStep
          rw [hwe, hle]
          dsimp only [Option.map, selectCurrent]
          rw [if_neg (lt_asymm hlt), if_pos hlt]
          dsimp only
          rw [hhl]
          rfl
        · intro e he
          rw [show (s.bumpLNext).wEntry = s.wEntry from rfl, hwe] at he
          cases Option.some.inj he
          exact hlt
      · refine ⟨(s.bumpLNext).move_write_cursor_to_next_user_key u, ?_, ?_, ?_, ?_, ?_, ?_, ?_⟩
        · unfold Scanner.readNextStep
          rw [hwe, hle]
          dsimp only [Option.map, selectCurrent]
          rw [if_neg (by rw [← heq]; exact lt_irrefl u), if_neg (by rw [← heq]; exact lt_irrefl u)]
          simp only [hhl]
          unfold Scanner.handleWrite
          rfl
        · rw [(moveW_lockState s.bumpLNext u).1]
          rfl
        · exact (baseFrame_moveW s.bumpLNext u).1
        · exact (baseFrame_moveW s.bumpLNext u).2.1
        · rw [(moveW_write_stats s.bumpLNext u).1]
          rfl
        · exact (baseFrame_moveW s.bumpLNext u).2.2.2.2.2.2
        · intro e he
          have hsortB : SortedWrites (s.bumpLNext).writeItems := hsort
          have htsB : PosTs (s.bumpLNext).writeItems := htspos
          have heB : (s.bumpLNext).wEntry = some e0 := hwe
          exact moveW_past hsortB htsB heB heq.symm e he

end FwdScan

namespace FwdScan

/-- C6: when `check_lock` yields `Locked` under SI, `read_next` returns
that `KeyIsLocked` error, but both cursors have already been advanced
past the offending user key (so a subsequent `read_next` continues the
scan over unchanged streams with later keys only), and the version
lookup is suppressed — no write record is processed — while the write
cursor is still advanced past that key. -/
theorem claim_C6 (cl : Bytes → Nat → LockRec → CheckLockResult) (s : Scanner)
    (u : Bytes) (lrec : LockRec) (err : Nat)
    (hstart : s.is_started = true)
    (hiso : s.isolation_level = IsolationLevel.si)
    (hle : s.lEntry = some (u, lrec))
    (hcl : cl u s.ts lrec = CheckLockResult.locked err)
    (hwge : ∀ e, s.wEntry = some e → u ≤ e.1.user)
    (hsortW : SortedWrites s.writeItems) (hsortL : SortedLocks s.lockItems)
    (htspos : PosTs s.writeItems) :
    ∃ s1, Scanner.read_next cl s = (Except.error (ScanError.keyIsLocked err), s1) ∧
      s1.lockPos = s.lockPos + 1 ∧
      (∀ e, s1.lEntry = some e → u < e.1) ∧
      (∀ e, s1.wEntry = some e → u < e.1.user) ∧
      s1.statistics.write.processed = s.statistics.write.processed ∧
      s1.writeItems = s.writeItems ∧ s1.lockItems = s.lockItems ∧
      s1.is_started = true := by
  obtain ⟨s1, hstep, hlp, hwi, hli, hproc, hst, hwb⟩ :=
    readNextStep_locked hiso hle hcl hwge hsortW htspos
  refine ⟨s1, ?_, hlp, ?_, hwb, hproc, hwi, hli, hst.trans hstart⟩
  · rw [read_next_started cl s hstart]
    show Scanner.readNextLoop cl (_ + 1) s = _
    unfold Scanner.readNextLoop
    rw [hstep]
  · intro e he
    have hmem : s.lockItems.get? (s.lockPos + 1) = some e := by
      rw [← hli, ← hlp]
      exact he
    exact sorted_locks_get?_lt hsortL (Nat.lt_succ_self _) hle hmem

/-- Closed witness for C6. -/
theorem claim_C6_witness :
    ∃ s1, Scanner.read_next alwaysLockedCheck C6fixture =
        (Except.error (ScanError.keyIsLocked 4), s1) ∧
      s1.lockPos = C6fixture.lockPos + 1 ∧
      (∀ e, s1.lEntry = some e → [10] < e.1) ∧
      (∀ e, s1.wEntry = some e → [10] < e.1.user) ∧
      s1.statistics.write.processed = C6fixture.statistics.write.processed ∧
      s1.writeItems = C6fixture.writeItems ∧ s1.lockItems = C6fixture.lockItems ∧
      s1.is_started = true :=
  claim_C6 alwaysLockedCheck C6fixture [10] lockRecA 4 rfl rfl rfl rfl
    (fun e he => by cases Option.some.inj he; exact le_refl _)
    (by simp [SortedWrites, C6fixture, build])
    (by simp [SortedLocks, C6fixture, build])
    (by intro e he; simp [C6fixture, build] at he; subst he; decide)

end FwdScan

/-! ## List-level lemmas towards version-resolution correctness -/

namespace FwdScan

theorem find?_eq_some_idx {α : Type} {p : α → Bool} :
    ∀ {l : List α} {a : α}, l.find? p = some a →
      ∃ i, l.get? i = some a ∧ p a = true ∧
        ∀ j, j < i → ∀ b, l.get? j = some b → p b = false := by
  intro l
  induction l with
  | nil =>
      intro a h
      exact absurd h (by simp)
  | cons x tl ih =>
      intro a h
      cases hpx : p x with
      | true =>
          rw [List.find?_cons_of_pos _ hpx] at h
          cases Option.some.inj h
          exact ⟨0, rfl, hpx, fun j hj => absurd hj (by omega)⟩
      | false =>
          rw [List.find?_cons_of_neg _ (by simp [hpx])] at h
          obtain ⟨i, hg, hpa, hprev⟩ := ih h
          refine ⟨i + 1, by simpa using hg, hpa, ?_⟩
          intro j hj b hb
          cases j with
          | zero =>
              cases Option.some.inj hb
              exact hpx
          | succ j => exact hprev j (by omega) b (by simpa using hb)

theorem filter_eq_filter_drop {α : Type} (p : α → Bool) :
    ∀ (L : Nat) (items : List α),
      (∀ j, j < L → ∀ e, items.get? j = some e → p e = false) →
      items.filter p = (items.drop L).filter p := by
  intro L
  induction L with
  | zero => intro items h; rfl
  | succ L ih =>
      intro items h
      cases items with
      | nil => rfl
      | cons x tl =>
          have hx : p x = false := h 0 (by omega) x rfl
          rw [List.drop_succ_cons, List.filter_cons_of_neg (by simp [hx])]
          exact ih tl (fun j hj e he => h (j + 1) (by omega) e (by simpa using he))

theorem drop_eq_cons_of_get? {α : Type} {items : List α} {n : Nat} {e : α}
    (h : items.get? n = some e) : items.drop n = e :: items.drop (n + 1) := by
  have hn : n < items.length := by
    by_contra hge
    rw [List.get?_eq_none.2 (by omega)] at h
    exact Option.noConfusion h
  rw [List.drop_eq_get_cons hn]
  rw [List.get?_eq_get hn] at h
  rw [Option.some.inj h]

theorem load_val (s : Scanner) (w : WriteRec) (u : Bytes) :
    (s.load_data_by_write w u).1 = loadPure s.omit_value s.defaultItems w u := by
  unfold Scanner.load_data_by_write loadPure
  by_cases ho : s.omit_value = true
  · rw [if_pos ho, if_pos ho]
  · rw [if_neg ho, if_neg ho]
    cases hsv : w.short_value with
    | some v => rfl
    | none =>
        dsimp only
        unfold Scanner.near_load_data_by_write
        rw [Scanner.ensure_default_defaultItems]
        cases hf : s.defaultItems.find? (fun e => e.1 = (⟨u, w.start_ts⟩ : WKey)) with
        | some e => rfl
        | none => rfl

theorem getSkipLoop_pos_le (u : Bytes) :
    ∀ (s : Scanner), s.writePos ≤ (Scanner.getSkipLoop u s).2.2.writePos := by
  have H : ∀ (m : Nat) (s : Scanner), s.writeItems.length - s.writePos ≤ m →
      s.writePos ≤ (Scanner.getSkipLoop u s).2.2.writePos := by
    intro m
    induction m with
    | zero =>
        intro s hm
        have hnone : s.wEntry = none := (Scanner.wEntry_none_iff s).2 (by omega)
        rw [getSkipLoop_none u s hnone]
    | succ m ih =>
        intro s hm
        cases he : s.wEntry with
        | none => rw [getSkipLoop_none u s he]
        | some e =>
            have hmeas : (s.incWProcessed.bumpWNext).writeItems.length -
                (s.incWProcessed.bumpWNext).writePos ≤ m := by
              simp only [Scanner.bumpWNext_writeItems, Scanner.bumpWNext_writePos,
                Scanner.incWProcessed_writeItems, Scanner.incWProcessed_writePos]
              omega
            cases hwt : e.2.write_type with
            | put =>
                rw [getSkipLoop_put u s e he hwt]
                rcases hl : s.incWProcessed.load_data_by_write e.2 u with ⟨r, s2⟩
                have hf : s2.writePos = s.writePos := by
                  have hfr := baseFrame_load s.incWProcessed e.2 u
                  rw [hl] at hfr
                  have : (s.incWProcessed.load_data_by_write e.2 u).2.writePos =
                      s.incWProcessed.writePos := by
                    unfold Scanner.load_data_by_write Scanner.near_load_data_by_write
                    split
                    · rfl
                    · split
                      · rfl
                      · dsimp only
                        split <;> simp
                  rw [hl] at this
                  exact this
                cases r with
                | ok v => simp [hf]
                | error er => simp [hf]
            | delete =>
                rw [getSkipLoop_delete u s e he hwt]
                exact le_refl _
            | lockKind =>
                cases h2 : (s.incWProcessed.bumpWNext).wEntry with
                | none =>
                    rw [getSkipLoop_skip_none u s e he (Or.inl hwt) h2]
                    simp
                | some e2 =>
                    by_cases hne : e2.1.user ≠ u
                    · rw [getSkipLoop_skip_met u s e e2 he (Or.inl hwt) h2 hne]
                      simp
                    · rw [getSkipLoop_skip_rec u s e e2 he (Or.inl hwt) h2 (not_not.1 hne)]
                      exact le_trans (by simp) (ih _ hmeas)
            | rollback =>
                cases h2 : (s.incWProcessed.bumpWNext).wEntry with
                | none =>
                    rw [getSkipLoop_skip_none u s e he (Or.inr hwt) h2]
                    simp
                | some e2 =>
                    by_cases hne : e2.1.user ≠ u
                    · rw [getSkipLoop_skip_met u s e e2 he (Or.inr hwt) h2 hne]
                      simp
                    · rw [getSkipLoop_skip_rec u s e e2 he (Or.inr hwt) h2 (not_not.1 hne)]
                      exact le_trans (by simp) (ih _ hmeas)
  intro s
  exact H _ s le_rfl
end FwdScan

namespace FwdScan

theorem visibleB_false_of_user_gt {u : Bytes} {limit : Nat} {a : WKey × WriteRec}
    (h : u < a.1.user) : visibleB u limit a = false := by
  simp only [visibleB, Bool.and_eq_false_iff, decide_eq_false_iff_not]
  exact Or.inl (fun hcontra => absurd (hcontra ▸ h) (lt_irrefl _))

theorem drop_user_gt_filter_nil {items : List (WKey × WriteRec)} (hsort : SortedWrites items)
    {p : Nat} {e2 : WKey × WriteRec} (h2 : items.get? p = some e2) {u : Bytes} {limit : Nat}
    (hgt : u < e2.1.user) :
    (items.drop p).filter (visibleB u limit) = [] := by
  rw [List.filter_eq_nil]
  intro a ha
  obtain ⟨i, hai⟩ := List.mem_iff_get.1 ha
  have hlen : p + i.1 < items.length := by
    have := i.2
    simp [List.length_drop] at this
    omega
  have hga : items.get? (p + i.1) = some a := by
    rw [List.get?_eq_get hlen]
    congr 1
    rw [← hai]
    rw [List.get_drop]
  have hua : u < a.1.user := by
    cases Nat.eq_zero_or_pos i.1 with
    | inl hz =>
        rw [hz, Nat.add_zero] at hga
        rw [h2] at hga
        cases Option.some.inj hga
        exact hgt
    | inr hpos =>
        have hlt := sorted_get?_lt hsort (by omega : p < p + i.1) h2 hga
        exact lt_of_lt_of_le hgt (user_le_of_wkeyLt hlt)
  simp [visibleB_false_of_user_gt hua]

theorem skip_correct (u : Bytes) (limit : Nat) :
    ∀ (s : Scanner), SortedWrites s.writeItems →
      ∀ eS, s.wEntry = some eS → eS.1.user = u → eS.1.ts ≤ limit →
      (Scanner.getSkipLoop u s).1 =
        (match ((s.writeItems.drop s.writePos).filter (visibleB u limit)).find? decisive with
         | none => Except.ok none
         | some e =>
             match e.2.write_type with
             | WriteType.put => (loadPure s.omit_value s.defaultItems e.2 u).map some
             | _ => Except.ok none) := by
  have H : ∀ (m : Nat) (s : Scanner), s.writeItems.length - s.writePos ≤ m →
      SortedWrites s.writeItems →
      ∀ eS, s.wEntry = some eS → eS.1.user = u → eS.1.ts ≤ limit →
      (Scanner.getSkipLoop u s).1 =
        (match ((s.writeItems.drop s.writePos).filter (visibleB u limit)).find? decisive with
         | none => Except.ok none
         | some e =>
             match e.2.write_type with
             | WriteType.put => (loadPure s.omit_value s.defaultItems e.2 u).map some
             | _ => Except.ok none) := by
    intro m
    induction m with
    | zero =>
        intro s hm hsort eS he huser hts
        have hnone : s.wEntry = none := (Scanner.wEntry_none_iff s).2 (by omega)
        rw [hnone] at he
        exact Option.noConfusion he
    | succ m ih =>
        intro s hm hsort eS he huser hts
        have hdrop : s.writeItems.drop s.writePos =
            eS :: s.writeItems.drop (s.writePos + 1) := drop_eq_cons_of_get? he
        have hvis : visibleB u limit eS = true := by
          simp [visibleB, huser, hts]
        rw [hdrop, List.filter_cons_of_pos (by simp [hvis])]
        cases hwt : eS.2.write_type with
        | put =>
            rw [getSkipLoop_put u s eS he hwt,
              List.find?_cons_of_pos _ (by simp [decisive, hwt])]
            dsimp only
            rw [hwt]
            rcases hl : s.incWProcessed.load_data_by_write eS.2 u with ⟨r, s2⟩
            have hlv := load_val s.incWProcessed eS.2 u
            rw [hl] at hlv
            cases r with
            | ok v =>
                dsimp only
                rw [show loadPure s.omit_value s.defaultItems eS.2 u = Except.ok v from hlv.symm]
                rfl
            | error er =>
                dsimp only
                rw [show loadPure s.omit_value s.defaultItems eS.2 u = Except.error er
                  from hlv.symm]
                rfl
        | delete =>
            rw [getSkipLoop_delete u s eS he hwt,
              List.find?_cons_of_pos _ (by simp [decisive, hwt])]
            dsimp only
            rw [hwt]
        | lockKind =>
            rw [List.find?_cons_of_neg _ (by simp [decisive, hwt])]
            cases h2 : (s.incWProcessed.bumpWNext).wEntry with
            | none =>
                rw [getSkipLoop_skip_none u s eS he (Or.inl hwt) h2]
                have hlen : s.writeItems.length ≤ s.writePos + 1 := by
                  have := (Scanner.wEntry_none_iff _).1 h2
                  simpa using this
                rw [List.drop_eq_nil_of_le hlen]
                rfl
            | some e2 =>
                have h2' : s.writeItems.get? (s.writePos + 1) = some e2 := h2
                by_cases hne : e2.1.user ≠ u
                · rw [getSkipLoop_skip_met u s eS e2 he (Or.inl hwt) h2 hne]
                  have hgt : u < e2.1.user := by
                    have hlt := sorted_get?_lt hsort (Nat.lt_succ_self _) he h2'
                    rw [← huser]
                    exact user_lt_of_wkeyLt_of_ne hlt (by rw [huser]; exact fun hc => hne hc.symm)
                  rw [drop_user_gt_filter_nil hsort h2' hgt]
                  rfl
                · have hueq : e2.1.user = u := not_not.1 hne
                  rw [getSkipLoop_skip_rec u s eS e2 he (Or.inl hwt) h2 hueq]
                  have hts2 : e2.1.ts ≤ limit := by
                    have hlt := sorted_get?_lt hsort (Nat.lt_succ_self _) he h2'
                    rcases hlt with hlt | ⟨-, hlt⟩
                    · exact absurd (hueq.trans huser.symm) (ne_of_gt hlt)
                    · omega
                  have := ih (s.incWProcessed.bumpWNext) (by simp; omega) hsort e2 h2 hueq hts2
                  simpa using this
        | rollback =>
            rw [List.find?_cons_of_neg _ (by simp [decisive, hwt])]
            cases h2 : (s.incWProcessed.bumpWNext).wEntry with
            | none =>
                rw [getSkipLoop_skip_none u s eS he (Or.inr hwt) h2]
                have hlen : s.writeItems.length ≤ s.writePos + 1 := by
                  have := (Scanner.wEntry_none_iff _).1 h2
                  simpa using this
                rw [List.drop_eq_nil_of_le hlen]
                rfl
            | some e2 =>
                have h2' : s.writeItems.get? (s.writePos + 1) = some e2 := h2
                by_cases hne : e2.1.user ≠ u
                · rw [getSkipLoop_skip_met u s eS e2 he (Or.inr hwt) h2 hne]
                  have hgt : u < e2.1.user := by
                    have hlt := sorted_get?_lt hsort (Nat.lt_succ_self _) he h2'
                    rw [← huser]
                    exact user_lt_of_wkeyLt_of_ne hlt (by rw [huser]; exact fun hc => hne hc.symm)
                  rw [drop_user_gt_filter_nil hsort h2' hgt]
                  rfl
                · have hueq : e2.1.user = u := not_not.1 hne
                  rw [getSkipLoop_skip_rec u s eS e2 he (Or.inr hwt) h2 hueq]
                  have hts2 : e2.1.ts ≤ limit := by
                    have hlt := sorted_get?_lt hsort (Nat.lt_succ_self _) he h2'
                    rcases hlt with hlt | ⟨-, hlt⟩
                    · exact absurd (hueq.trans huser.symm) (ne_of_gt hlt)
                    · omega
                  have := ih (s.incWProcessed.bumpWNext) (by simp; omega) hsort e2 h2 hueq hts2
                  simpa using this
  intro s hsort eS he huser hts
  exact H _ s le_rfl hsort eS he huser hts

end FwdScan

namespace FwdScan

theorem visibleB_false_of_user_ne {u : Bytes} {limit : Nat} {a : WKey × WriteRec}
    (h : a.1.user ≠ u) : visibleB u limit a = false := by
  simp only [visibleB, Bool.and_eq_false_iff, decide_eq_false_iff_not]
  exact Or.inl h

theorem visibleB_false_of_ts {u : Bytes} {limit : Nat} {a : WKey × WriteRec}
    (h : limit < a.1.ts) : visibleB u limit a = false := by
  simp only [visibleB, Bool.and_eq_false_iff, decide_eq_false_iff_not]
  exact Or.inr (by omega)

theorem invisible_of_key_lt {u : Bytes} {limit : Nat} {a : WKey × WriteRec}
    (h : wkeyLt a.1 ⟨u, limit⟩) : visibleB u limit a = false := by
  rcases h with h | ⟨hequ, hlt⟩
  · exact visibleB_false_of_user_ne (ne_of_lt h)
  · exact visibleB_false_of_ts hlt

theorem getNextLoop_stale (u : Bytes) (limit : Nat) :
    ∀ n (s s1 : Scanner) (res : Scanner.NextLoopRes),
      Scanner.getNextLoop u limit n s = (s1, res) →
      ∀ j, s.writePos ≤ j → j < s1.writePos →
        ∀ e, s.writeItems.get? j = some e → e.1.user = u ∧ limit < e.1.ts := by
  intro n
  induction n with
  | zero =>
      intro s s1 res h j hj1 hj2 e hg
      cases h
      omega
  | succ n ih =>
      intro s s1 res h j hj1 hj2 e hg
      rw [getNextLoop_succ] at h
      cases he : s.wEntry with
      | none =>
          rw [he] at h
          cases h
          omega
      | some e0 =>
          rw [he] at h
          dsimp only at h
          by_cases hne : e0.1.user ≠ u
          · rw [if_pos hne] at h
            cases h
            omega
          · rw [if_neg hne] at h
            by_cases hts : e0.1.ts ≤ limit
            · rw [if_pos hts] at h
              cases h
              omega
            · rw [if_neg hts] at h
              by_cases hn : n = 0
              · rw [if_pos hn] at h
                cases h
                omega
              · rw [if_neg hn] at h
                rcases Nat.eq_or_lt_of_le hj1 with hj | hj
                · rw [Scanner.wEntry] at he
                  rw [← hj] at hg
                  rw [he] at hg
                  cases Option.some.inj hg
                  exact ⟨not_not.1 hne, not_le.1 hts⟩
                · exact ih _ _ _ h j (by simp only [Scanner.bumpWNext_writePos]; omega)
                    hj2 e hg

theorem getNextLoop_ended_inv (u : Bytes) (limit : Nat) :
    ∀ n (s s1 : Scanner),
      Scanner.getNextLoop u limit n s = (s1, Scanner.NextLoopRes.ended) →
      s1.wEntry = none := by
  intro n
  induction n with
  | zero =>
      intro s s1 h
      exact absurd (congrArg Prod.snd h) (by simp [Scanner.getNextLoop])
  | succ n ih =>
      intro s s1 h
      rw [getNextLoop_succ] at h
      cases he : s.wEntry with
      | none =>
          rw [he] at h
          simp only [Prod.mk.injEq] at h
          rw [← h.1]
          exact he
      | some e0 =>
          rw [he] at h
          dsimp only at h
          by_cases hne : e0.1.user ≠ u
          · rw [if_pos hne] at h
            exact absurd (congrArg Prod.snd h) (by simp)
          · rw [if_neg hne] at h
            by_cases hts : e0.1.ts ≤ limit
            · rw [if_pos hts] at h
              exact absurd (congrArg Prod.snd h) (by simp)
            · rw [if_neg hts] at h
              by_cases hn : n = 0
              · rw [if_pos hn] at h
                exact absurd (congrArg Prod.snd h) (by simp)
              · rw [if_neg hn] at h
                exact ih _ _ h

theorem getNextLoop_exhausted_entry (u : Bytes) (limit : Nat) :
    ∀ n (s s1 : Scanner), 1 ≤ n →
      Scanner.getNextLoop u limit n s = (s1, Scanner.NextLoopRes.exhausted) →
      ∃ e, s1.wEntry = some e ∧ e.1.user = u ∧ limit < e.1.ts := by
  intro n
  induction n with
  | zero => intro s s1 hn; omega
  | succ n ih =>
      intro s s1 _ h
      rw [getNextLoop_succ] at h
      cases he : s.wEntry with
      | none =>
          rw [he] at h
          exact absurd (congrArg Prod.snd h) (by simp)
      | some e0 =>
          rw [he] at h
          dsimp only at h
          by_cases hne : e0.1.user ≠ u
          · rw [if_pos hne] at h
            exact absurd (congrArg Prod.snd h) (by simp)
          · rw [if_neg hne] at h
            by_cases hts : e0.1.ts ≤ limit
            · rw [if_pos hts] at h
              exact absurd (congrArg Prod.snd h) (by simp)
            · rw [if_neg hts] at h
              by_cases hn : n = 0
              · rw [if_pos hn] at h
                simp only [Prod.mk.injEq] at h
                exact ⟨e0, h.1 ▸ he, not_not.1 hne, not_le.1 hts⟩
              · rw [if_neg hn] at h
                exact ih _ _ (by omega) h

end FwdScan

namespace FwdScan

theorem get_correct (s : Scanner) (u : Bytes) (limit : Nat)
    (hsort : SortedWrites s.writeItems) (hgs : AtNewestVersion s)
    (e0 : WKey × WriteRec) (he0 : s.wEntry = some e0) (hu0 : e0.1.user = u) :
    (s.get u limit).1 =
      (match resolveSpec s.writeItems u limit with
       | none => Except.ok none
       | some e =>
           match e.2.write_type with
           | WriteType.put => (loadPure s.omit_value s.defaultItems e.2 u).map some
           | _ => Except.ok none) := by
  have hvalid : s.wValid = true := Scanner.wValid_of_wEntry_some he0
  have hBefore : ∀ j, j < s.writePos → ∀ ej, s.writeItems.get? j = some ej →
      ej.1.user < u := by
    intro j hj ej hg
    have hne := hgs e0 he0 j hj ej hg
    have hlt := sorted_get?_lt hsort hj hg he0
    have := user_lt_of_wkeyLt_of_ne hlt hne
    rw [hu0] at this
    exact this
  unfold Scanner.get
  rw [if_neg (by simp [hvalid])]
  rcases hgl : Scanner.getNextLoop u limit SEEK_BOUND s with ⟨sA, res⟩
  have hframeA := baseFrame_getNextLoop u limit SEEK_BOUND s
  rw [hgl] at hframeA
  have hitemsA : sA.writeItems = s.writeItems := hframeA.1
  have hposA : s.writePos ≤ sA.writePos := by
    have := getNextLoop_pos_le u limit SEEK_BOUND s
    rw [hgl] at this
    exact this
  have hstale := getNextLoop_stale u limit SEEK_BOUND s sA res hgl
  have hNoVis : ∀ j, j < sA.writePos → ∀ ej, s.writeItems.get? j = some ej →
      visibleB u limit ej = false := by
    intro j hj ej hg
    by_cases hjp : j < s.writePos
    · exact visibleB_false_of_user_ne (ne_of_lt (hBefore j hjp ej hg))
    · exact visibleB_false_of_ts
        (hstale j (by omega) hj ej hg).2
  have hfilter : s.writeItems.filter (visibleB u limit) =
      (s.writeItems.drop sA.writePos).filter (visibleB u limit) :=
    filter_eq_filter_drop _ sA.writePos s.writeItems hNoVis
  cases res with
  | ended =>
      have hnoneA := getNextLoop_ended_inv u limit SEEK_BOUND s sA hgl
      have hlen : s.writeItems.length ≤ sA.writePos := by
        have := (Scanner.wEntry_none_iff sA).1 hnoneA
        rw [hitemsA] at this
        exact this
      dsimp only
      unfold resolveSpec
      rw [hfilter, List.drop_eq_nil_of_le hlen]
      rfl
  | metAnother =>
      obtain ⟨eM, heM, hneM, -⟩ := getNextLoop_met_entry u limit SEEK_BOUND s sA hgl
      have heM' : s.writeItems.get? sA.writePos = some eM := by
        rw [← hitemsA]
        exact heM
      have hgtM : u < eM.1.user := by
        have := user_lt_of_step hsort hitemsA he0 heM hposA (by rw [hu0]; exact hneM)
        rw [hu0] at this
        exact this
      dsimp only
      unfold resolveSpec
      rw [hfilter, drop_user_gt_filter_nil hsort heM' hgtM]
      rfl
  | found =>
      obtain ⟨eF, heF, huF, htF, -⟩ := getNextLoop_found_entry u limit SEEK_BOUND s sA hgl
      have hsortA : SortedWrites sA.writeItems := by
        rw [hitemsA]
        exact hsort
      have hsc := skip_correct u limit sA hsortA eF heF huF htF
      dsimp only
      rw [hsc]
      unfold resolveSpec
      rw [hfilter]
      rw [show sA.writeItems = s.writeItems from hitemsA,
        show sA.omit_value = s.omit_value from hframeA.2.2.2.2.2.1,
        show sA.defaultItems = s.defaultItems from hframeA.2.2.1]
  | exhausted =>
      obtain ⟨eX, heX, huX, htX⟩ :=
        getNextLoop_exhausted_entry u limit SEEK_BOUND s sA (by decide) hgl
      have heX' : s.writeItems.get? sA.writePos = some eX := by
        rw [← hitemsA]
        exact heX
      dsimp only
      have hNoVisL : ∀ j, j < Scanner.seekIdxW s.writeItems ⟨u, limit⟩ →
          ∀ ej, s.writeItems.get? j = some ej → visibleB u limit ej = false := by
        intro j hj ej hg
        exact invisible_of_key_lt (seekIdxW_before hj hg)
      have hfilterL : s.writeItems.filter (visibleB u limit) =
          (s.writeItems.drop (Scanner.seekIdxW s.writeItems ⟨u, limit⟩)).filter
            (visibleB u limit) :=
        filter_eq_filter_drop _ _ _ hNoVisL
      have hentry : (sA.wSeek ⟨u, limit⟩).wEntry =
          s.writeItems.get? (Scanner.seekIdxW s.writeItems ⟨u, limit⟩) := by
        rw [Scanner.wEntry_wSeek, hitemsA]
      cases hwe : (sA.wSeek ⟨u, limit⟩).wEntry with
      | none =>
          have hlen : s.writeItems.length ≤ Scanner.seekIdxW s.writeItems ⟨u, limit⟩ := by
            rw [hentry] at hwe
            rw [List.get?_eq_none] at hwe
            exact hwe
          dsimp only
          unfold resolveSpec
          rw [hfilterL, List.drop_eq_nil_of_le hlen]
          rfl
      | some eL =>
          dsimp only
          have heL' : s.writeItems.get? (Scanner.seekIdxW s.writeItems ⟨u, limit⟩) =
              some eL := by
            rw [← hentry]
            exact hwe
          have hpred : ¬ wkeyLt eL.1 ⟨u, limit⟩ := seekIdxW_entry_pred heL'
          by_cases hne : eL.1.user ≠ u
          · rw [if_pos hne]
            have hgtL : u < eL.1.user := by
              have hnek : eL.1 ≠ (⟨u, limit⟩ : WKey) := fun hc => hne (by rw [hc])
              have hlt := wkeyLt_of_not_of_ne hpred hnek
              exact user_lt_of_wkeyLt_of_ne hlt (fun hc => hne (by rw [← hc]))
            dsimp only
            unfold resolveSpec
            rw [hfilterL, drop_user_gt_filter_nil hsort heL' hgtL]
            rfl
          · have hueq : eL.1.user = u := not_not.1 hne
            rw [if_neg hne]
            have htsL : eL.1.ts ≤ limit := by
              rcases wkeyLt_trichotomy eL.1 ⟨u, limit⟩ with hc | hc | hc
              · exact absurd hc hpred
              · rw [hc]
              · rcases hc with hc | ⟨-, hc⟩
                · exact absurd hc (by rw [hueq]; exact lt_irrefl u)
                · exact le_of_lt hc
            have hsortB : SortedWrites (sA.wSeek ⟨u, limit⟩).writeItems := by
              rw [Scanner.wSeek_writeItems, hitemsA]
              exact hsort
            have hsc := skip_correct u limit (sA.wSeek ⟨u, limit⟩) hsortB eL hwe hueq htsL
            rw [hsc]
            unfold resolveSpec
            rw [hfilterL]
            rw [show (sA.wSeek ⟨u, limit⟩).writeItems = s.writeItems from
                by rw [Scanner.wSeek_writeItems, hitemsA],
              show (sA.wSeek ⟨u, limit⟩).writePos =
                  Scanner.seekIdxW s.writeItems ⟨u, limit⟩ from
                by rw [Scanner.wSeek_writePos, hitemsA],
              show (sA.wSeek ⟨u, limit⟩).omit_value = s.omit_value from
                by rw [Scanner.wSeek_omit]; exact hframeA.2.2.2.2.2.1,
              show (sA.wSeek ⟨u, limit⟩).defaultItems = s.defaultItems from
                by rw [Scanner.wSeek_defaultItems]; exact hframeA.2.2.1]

end FwdScan

/-! ## Claim C3: bounded next then a single fallback seek -/

namespace FwdScan

theorem getNextLoop_seekCnt (u : Bytes) (limit : Nat) :
    ∀ n (s : Scanner),
      (Scanner.getNextLoop u limit n s).1.statistics.write.seekCnt =
        s.statistics.write.seekCnt := by
  intro n
  induction n with
  | zero => intro s; rfl
  | succ n ih =>
      intro s
      rw [getNextLoop_succ]
      cases he : s.wEntry with
      | none => rfl
      | some e =>
          simp only
          split
          · rfl
          · split
            · rfl
            · split
              · rfl
              · exact ih s.bumpWNext

theorem load_write_stats (s : Scanner) (w : WriteRec) (u : Bytes) :
    (s.load_data_by_write w u).2.statistics.write = s.statistics.write := by
  unfold Scanner.load_data_by_write Scanner.near_load_data_by_write
  split
  · rfl
  · split
    · rfl
    · dsimp only
      have hw : (s.ensure_default_cursor).statistics.write = s.statistics.write := by
        unfold Scanner.ensure_default_cursor
        split <;> rfl
      split <;> simp [hw]

theorem getSkipLoop_seekCnt (u : Bytes) :
    ∀ (s : Scanner),
      (Scanner.getSkipLoop u s).2.2.statistics.write.seekCnt =
        s.statistics.write.seekCnt := by
  have H : ∀ (m : Nat) (s : Scanner), s.writeItems.length - s.writePos ≤ m →
      (Scanner.getSkipLoop u s).2.2.statistics.write.seekCnt =
        s.statistics.write.seekCnt := by
    intro m
    induction m with
    | zero =>
        intro s hm
        have hnone : s.wEntry = none := (Scanner.wEntry_none_iff s).2 (by omega)
        rw [getSkipLoop_none u s hnone]
    | succ m ih =>
        intro s hm
        cases he : s.wEntry with
        | none => rw [getSkipLoop_none u s he]
        | some e =>
            have hmeas : (s.incWProcessed.bumpWNext).writeItems.length -
                (s.incWProcessed.bumpWNext).writePos ≤ m := by
              simp only [Scanner.bumpWNext_writeItems, Scanner.bumpWNext_writePos,
                Scanner.incWProcessed_writeItems, Scanner.incWProcessed_writePos]
              omega
            cases hwt : e.2.write_type with
            | put =>
                rw [getSkipLoop_put u s e he hwt]
                rcases hl : s.incWProcessed.load_data_by_write e.2 u with ⟨r, s2⟩
                have hws := load_write_stats s.incWProcessed e.2 u
                rw [hl] at hws
                have hws2 : s2.statistics.write = s.incWProcessed.statistics.write := hws
                cases r with
                | ok v =>
                    show s2.statistics.write.seekCnt = s.statistics.write.seekCnt
                    rw [hws2]
                    rfl
                | error er =>
                    show s2.statistics.write.seekCnt = s.statistics.write.seekCnt
                    rw [hws2]
                    rfl
            | delete =>
                rw [getSkipLoop_delete u s e he hwt]
                rfl
            | lockKind =>
                cases h2 : (s.incWProcessed.bumpWNext).wEntry with
                | none =>
                    rw [getSkipLoop_skip_none u s e he (Or.inl hwt) h2]
                    rfl
                | some e2 =>
                    by_cases hne : e2.1.user ≠ u
                    · rw [getSkipLoop_skip_met u s e e2 he (Or.inl hwt) h2 hne]
                      rfl
                    · rw [getSkipLoop_skip_rec u s e e2 he (Or.inl hwt) h2 (not_not.1 hne)]
                      rw [ih _ hmeas]
                      rfl
            | rollback =>
                cases h2 : (s.incWProcessed.bumpWNext).wEntry with
                | none =>
                    rw [getSkipLoop_skip_none u s e he (Or.inr hwt) h2]
                    rfl
                | some e2 =>
                    by_cases hne : e2.1.user ≠ u
                    · rw [getSkipLoop_skip_met u s e e2 he (Or.inr hwt) h2 hne]
                      rfl
                    · rw [getSkipLoop_skip_rec u s e e2 he (Or.inr hwt) h2 (not_not.1 hne)]
                      rw [ih _ hmeas]
                      rfl
  intro s
  exact H _ s le_rfl

theorem getNextLoop_exhausts_of_stale (u : Bytes) (limit : Nat) :
    ∀ n (s : Scanner), 1 ≤ n →
      (∀ i, i < n → ∃ ei, s.writeItems.get? (s.writePos + i) = some ei ∧
        ei.1.user = u ∧ limit < ei.1.ts) →
      ∃ sA, Scanner.getNextLoop u limit n s = (sA, Scanner.NextLoopRes.exhausted) ∧
        sA.statistics.write.nextCnt = s.statistics.write.nextCnt + (n - 1) ∧
        sA.writePos = s.writePos + (n - 1) := by
  intro n
  induction n with
  | zero => intro s h; omega
  | succ n ih =>
      intro s _ hstale
      obtain ⟨e0, hg0, hu0, ht0⟩ := hstale 0 (by omega)
      rw [Nat.add_zero] at hg0
      have he0 : s.wEntry = some e0 := hg0
      rw [getNextLoop_succ, he0]
      dsimp only
      rw [if_neg (by simp [hu0]), if_neg (by omega)]
      by_cases hn : n = 0
      · rw [if_pos hn]
        exact ⟨s, rfl, by omega, by omega⟩
      · rw [if_neg hn]
        obtain ⟨sA, hrec, hcnt, hpos⟩ := ih s.bumpWNext (by omega) (by
          intro i hi
          obtain ⟨ei, hgi, hui, hti⟩ := hstale (i + 1) (by omega)
          refine ⟨ei, ?_, hui, hti⟩
          simp only [Scanner.bumpWNext_writeItems, Scanner.bumpWNext_writePos]
          rw [show s.writePos + 1 + i = s.writePos + (i + 1) by omega]
          exact hgi)
        refine ⟨sA, hrec, ?_, ?_⟩
        · rw [hcnt]
          simp only [Scanner.bumpWNext_statistics_nextCnt]
          omega
        · rw [hpos]
          simp only [Scanner.bumpWNext_writePos]
          omega

end FwdScan

namespace FwdScan

/-- C3: when the first `SEEK_BOUND` write versions at and after the
cursor all belong to the sought user key with commit timestamps above
the read timestamp, the bounded-next phase of `get` performs exactly
`SEEK_BOUND - 1` calls to `next()` and exhausts its bound, `get` then
falls back to exactly one `seek(append_ts(user_key, ts))`, and the key
still resolves to the version the visibility rules prescribe. -/
theorem claim_C3 (s : Scanner) (u : Bytes) (limit : Nat)
    (hsort : SortedWrites s.writeItems) (hgs : AtNewestVersion s)
    (hstale8 : ∀ i, i < SEEK_BOUND → ∃ ei,
        s.writeItems.get? (s.writePos + i) = some ei ∧ ei.1.user = u ∧ limit < ei.1.ts) :
    (∃ sA, Scanner.getNextLoop u limit SEEK_BOUND s = (sA, Scanner.NextLoopRes.exhausted) ∧
        sA.statistics.write.nextCnt = s.statistics.write.nextCnt + (SEEK_BOUND - 1) ∧
        sA.writePos = s.writePos + (SEEK_BOUND - 1)) ∧
    (s.get u limit).2.2.statistics.write.seekCnt = s.statistics.write.seekCnt + 1 ∧
    (s.get u limit).1 =
      (match resolveSpec s.writeItems u limit with
       | none => Except.ok none
       | some e =>
           match e.2.write_type with
           | WriteType.put => (loadPure s.omit_value s.defaultItems e.2 u).map some
           | _ => Except.ok none) := by
  obtain ⟨e0, hg0, hu0, ht0⟩ := hstale8 0 (by decide)
  rw [Nat.add_zero] at hg0
  have he0 : s.wEntry = some e0 := hg0
  have hvalid : s.wValid = true := Scanner.wValid_of_wEntry_some he0
  obtain ⟨sA, hA, hcnt, hpos⟩ :=
    getNextLoop_exhausts_of_stale u limit SEEK_BOUND s (by decide) hstale8
  refine ⟨⟨sA, hA, hcnt, hpos⟩, ?_, get_correct s u limit hsort hgs e0 he0 hu0⟩
  have hseekA : sA.statistics.write.seekCnt = s.statistics.write.seekCnt := by
    have h := getNextLoop_seekCnt u limit SEEK_BOUND s
    rw [hA] at h
    exact h
  unfold Scanner.get
  rw [if_neg (by simp [hvalid]), hA]
  dsimp only
  cases hwe : (sA.wSeek ⟨u, limit⟩).wEntry with
  | none =>
      dsimp only
      simp [hseekA]
  | some e =>
      dsimp only
      by_cases hne : e.1.user ≠ u
      · rw [if_pos hne]
        simp [hseekA]
      · rw [if_neg hne]
        rw [getSkipLoop_seekCnt]
        simp [hseekA]

/-- Witness for C3: the deep-history fixture, whose first `SEEK_BOUND`
versions of key `[10]` are all newer than the read timestamp `1`. -/
theorem claim_C3_witness :
    SortedWrites C3fixture.writeItems ∧ AtNewestVersion C3fixture ∧
    ((∃ sA, Scanner.getNextLoop [10] 1 SEEK_BOUND C3fixture =
          (sA, Scanner.NextLoopRes.exhausted) ∧
        sA.statistics.write.nextCnt =
          C3fixture.statistics.write.nextCnt + (SEEK_BOUND - 1) ∧
        sA.writePos = C3fixture.writePos + (SEEK_BOUND - 1)) ∧
      (C3fixture.get [10] 1).2.2.statistics.write.seekCnt =
        C3fixture.statistics.write.seekCnt + 1 ∧
      (C3fixture.get [10] 1).1 =
        (match resolveSpec C3fixture.writeItems [10] 1 with
         | none => Except.ok none
         | some e =>
             match e.2.write_type with
             | WriteType.put =>
                 (loadPure C3fixture.omit_value C3fixture.defaultItems e.2 [10]).map some
             | _ => Except.ok none)) :=
  ⟨by unfold SortedWrites; decide,
   fun e he j hj ej hg => absurd hj (Nat.not_lt_zero j),
   claim_C3 C3fixture [10] 1 (by unfold SortedWrites; decide)
     (fun e he j hj ej hg => absurd hj (Nat.not_lt_zero j))
     (by
       intro i hi
       have hi8 : i < 8 := hi
       interval_cases i <;> exact ⟨_, rfl, rfl, by decide⟩)⟩

end FwdScan

/-! ## Claim C1: returned pairs are sound for the visibility rules -/

namespace FwdScan

theorem atNewest_congr {s t : Scanner} (hitems : t.writeItems = s.writeItems)
    (hpos : t.writePos = s.writePos) (h : AtNewestVersion s) : AtNewestVersion t := by
  intro e he j hj ej hg
  rw [Scanner.wEntry, hitems, hpos] at he
  rw [hitems] at hg
  rw [hpos] at hj
  exact h e he j hj ej hg

theorem pastKeyW_congr {s t : Scanner} {u : Bytes} (hitems : t.writeItems = s.writeItems)
    (hpos : t.writePos = s.writePos) (h : PastKeyW s u) : PastKeyW t u := by
  intro j hj ej hg
  rw [hitems] at hg
  rw [hpos] at hj
  exact h j hj ej hg

theorem atNewest_of_past {t : Scanner} {u : Bytes} (hpast : PastKeyW t u)
    (hgt : ∀ e, t.wEntry = some e → u < e.1.user) : AtNewestVersion t := by
  intro e he j hj ej hg
  have h1 : ej.1.user ≤ u := hpast j hj ej hg
  have h2 : u < e.1.user := hgt e he
  intro hc
  rw [hc] at h1
  exact absurd h1 (not_le.2 h2)

theorem pastKeyW_of_atNewest {s : Scanner} {u : Bytes} (hsort : SortedWrites s.writeItems)
    (hgs : AtNewestVersion s) {e0 : WKey × WriteRec} (he0 : s.wEntry = some e0)
    (hu0 : e0.1.user = u) : PastKeyW s u := by
  intro j hj ej hg
  have hne := hgs e0 he0 j hj ej hg
  have hlt := sorted_get?_lt hsort hj hg he0
  have := user_lt_of_wkeyLt_of_ne hlt hne
  rw [hu0] at this
  exact le_of_lt this

theorem pastKeyW_bumpWNext {s : Scanner} {u : Bytes} (h : PastKeyW s u)
    {e : WKey × WriteRec} (he : s.wEntry = some e) (hu : e.1.user = u) :
    PastKeyW s.bumpWNext u := by
  intro j hj ej hg
  simp only [Scanner.bumpWNext_writeItems] at hg
  simp only [Scanner.bumpWNext_writePos] at hj
  by_cases hjp : j < s.writePos
  · exact h j hjp ej hg
  · have hje : j = s.writePos := by omega
    rw [hje] at hg
    rw [Scanner.wEntry] at he
    rw [he] at hg
    cases Option.some.inj hg
    exact le_of_eq hu

theorem pastW_getNextLoop (u : Bytes) (ts : Nat) :
    ∀ n (s : Scanner), PastKeyW s u →
      PastKeyW (Scanner.getNextLoop u ts n s).1 u := by
  intro n
  induction n with
  | zero => intro s h; exact h
  | succ n ih =>
      intro s h
      rw [getNextLoop_succ]
      cases he : s.wEntry with
      | none => exact h
      | some e =>
          simp only
          split
          · exact h
          · split
            · exact h
            · split
              · exact h
              · rename_i hne hts hn
                exact ih s.bumpWNext (pastKeyW_bumpWNext h he (not_not.1 hne))

theorem pastW_wSeek (s : Scanner) (u : Bytes) (t : Nat) :
    PastKeyW (s.wSeek ⟨u, t⟩) u := by
  intro j hj ej hg
  simp only [Scanner.wSeek_writeItems] at hg
  simp only [Scanner.wSeek_writePos] at hj
  exact user_le_of_wkeyLt (seekIdxW_before hj hg)

theorem pastW_wInternalSeek (s : Scanner) (u : Bytes) (t : Nat) :
    PastKeyW (s.wInternalSeek ⟨u, t⟩) u := by
  intro j hj ej hg
  simp only [Scanner.wInternalSeek_writeItems] at hg
  simp only [Scanner.wInternalSeek_writePos] at hj
  exact user_le_of_wkeyLt (seekIdxW_before hj hg)

theorem load_writePos (s : Scanner) (w : WriteRec) (u : Bytes) :
    (s.load_data_by_write w u).2.writePos = s.writePos := by
  unfold Scanner.load_data_by_write Scanner.near_load_data_by_write
  split
  · rfl
  · split
    · rfl
    · dsimp only
      have hw : (s.ensure_default_cursor).writePos = s.writePos := by
        unfold Scanner.ensure_default_cursor
        split <;> rfl
      split <;> simp [hw]

end FwdScan

namespace FwdScan

theorem pastW_getSkipLoop (u : Bytes) :
    ∀ (s : Scanner), PastKeyW s u →
      (∀ e, s.wEntry = some e → e.1.user = u) →
      PastKeyW (Scanner.getSkipLoop u s).2.2 u := by
  have H : ∀ m (s : Scanner), s.writeItems.length - s.writePos ≤ m →
      PastKeyW s u → (∀ e, s.wEntry = some e → e.1.user = u) →
      PastKeyW (Scanner.getSkipLoop u s).2.2 u := by
    intro m
    induction m with
    | zero =>
        intro s hm hp hu
        have hnone : s.wEntry = none := (Scanner.wEntry_none_iff s).2 (by omega)
        rw [getSkipLoop_none u s hnone]
        exact hp
    | succ m ih =>
        intro s hm hp hu
        cases he : s.wEntry with
        | none =>
            rw [getSkipLoop_none u s he]
            exact hp
        | some e =>
            have hue : e.1.user = u := hu e he
            have hmeas : (s.incWProcessed.bumpWNext).writeItems.length -
                (s.incWProcessed.bumpWNext).writePos ≤ m := by
              simp only [Scanner.bumpWNext_writeItems, Scanner.bumpWNext_writePos,
                Scanner.incWProcessed_writeItems, Scanner.incWProcessed_writePos]
              omega
            have hpI : PastKeyW s.incWProcessed u := pastKeyW_congr rfl rfl hp
            have heI : (s.incWProcessed).wEntry = some e := he
            have hpB : PastKeyW (s.incWProcessed.bumpWNext) u :=
              pastKeyW_bumpWNext hpI heI hue
            cases hwt : e.2.write_type with
            | put =>
                rw [getSkipLoop_put u s e he hwt]
                rcases hl : s.incWProcessed.load_data_by_write e.2 u with ⟨r, s2⟩
                have hitems2 : s2.writeItems = (s.incWProcessed).writeItems := by
                  have := baseFrame_load s.incWProcessed e.2 u
                  rw [hl] at this
                  exact this.1
                have hpos2 : s2.writePos = (s.incWProcessed).writePos := by
                  have := load_writePos s.incWProcessed e.2 u
                  rw [hl] at this
                  exact this
                have hp2 : PastKeyW s2 u := pastKeyW_congr hitems2 hpos2 hpI
                cases r with
                | ok v => exact hp2
                | error er => exact hp2
            | delete =>
                rw [getSkipLoop_delete u s e he hwt]
                exact hpI
            | lockKind =>
                cases h2 : (s.incWProcessed.bumpWNext).wEntry with
                | none =>
                    rw [getSkipLoop_skip_none u s e he (Or.inl hwt) h2]
                    exact hpB
                | some e2 =>
                    by_cases hne : e2.1.user ≠ u
                    · rw [getSkipLoop_skip_met u s e e2 he (Or.inl hwt) h2 hne]
                      exact hpB
                    · rw [getSkipLoop_skip_rec u s e e2 he (Or.inl hwt) h2 (not_not.1 hne)]
                      refine ih _ hmeas hpB ?_
                      intro e' he'
                      rw [h2] at he'
                      cases Option.some.inj he'
                      exact not_not.1 hne
            | rollback =>
                cases h2 : (s.incWProcessed.bumpWNext).wEntry with
                | none =>
                    rw [getSkipLoop_skip_none u s e he (Or.inr hwt) h2]
                    exact hpB
                | some e2 =>
                    by_cases hne : e2.1.user ≠ u
                    · rw [getSkipLoop_skip_met u s e e2 he (Or.inr hwt) h2 hne]
                      exact hpB
                    · rw [getSkipLoop_skip_rec u s e e2 he (Or.inr hwt) h2 (not_not.1 hne)]
                      refine ih _ hmeas hpB ?_
                      intro e' he'
                      rw [h2] at he'
                      cases Option.some.inj he'
                      exact not_not.1 hne
  intro s hp hu
  exact H _ s le_rfl hp hu

theorem pastW_get (s : Scanner) (u : Bytes) (ts : Nat) (hp : PastKeyW s u) :
    PastKeyW (s.get u ts).2.2 u := by
  unfold Scanner.get
  split
  · exact hp
  · rcases hgl : Scanner.getNextLoop u ts SEEK_BOUND s with ⟨sA, res⟩
    have hpA : PastKeyW sA u := by
      have := pastW_getNextLoop u ts SEEK_BOUND s hp
      rw [hgl] at this
      exact this
    cases res with
    | ended => exact hpA
    | metAnother => exact hpA
    | found =>
        dsimp only
        obtain ⟨eF, heF, huF, -, -⟩ := getNextLoop_found_entry u ts SEEK_BOUND s sA hgl
        refine pastW_getSkipLoop u sA hpA ?_
        intro e' he'
        rw [heF] at he'
        cases Option.some.inj he'
        exact huF
    | exhausted =>
        dsimp only
        have hpS : PastKeyW (sA.wSeek ⟨u, ts⟩) u := pastW_wSeek sA u ts
        cases hwe : (sA.wSeek ⟨u, ts⟩).wEntry with
        | none => exact hpS
        | some e =>
            dsimp only
            by_cases hne : e.1.user ≠ u
            · rw [if_pos hne]
              exact hpS
            · rw [if_neg hne]
              refine pastW_getSkipLoop u _ hpS ?_
              intro e' he'
              rw [hwe] at he'
              cases Option.some.inj he'
              exact not_not.1 hne

theorem pastW_moveWLoop (u : Bytes) :
    ∀ n (s : Scanner), PastKeyW s u → PastKeyW (Scanner.moveWLoop u n s).1 u := by
  intro n
  induction n with
  | zero => intro s h; exact h
  | succ n ih =>
      intro s h
      rw [moveWLoop_succ]
      cases he : s.wEntry with
      | none => exact h
      | some e =>
          simp only
          split
          · exact h
          · split
            · exact h
            · rename_i hne hn
              exact ih s.bumpWNext (pastKeyW_bumpWNext h he (not_not.1 hne))

theorem pastW_moveW (s : Scanner) (u : Bytes) (hp : PastKeyW s u) :
    PastKeyW (s.move_write_cursor_to_next_user_key u) u := by
  unfold Scanner.move_write_cursor_to_next_user_key
  rcases hml : Scanner.moveWLoop u SEEK_BOUND s with ⟨s1, done⟩
  have hp1 : PastKeyW s1 u := by
    have := pastW_moveWLoop u SEEK_BOUND s hp
    rw [hml] at this
    exact this
  cases done with
  | true => exact hp1
  | false =>
      dsimp only
      exact pastW_wInternalSeek s1 u 0

theorem moveW_of_wEntry_none {s : Scanner} {u : Bytes} (h : s.wEntry = none) :
    s.move_write_cursor_to_next_user_key u = s := by
  unfold Scanner.move_write_cursor_to_next_user_key
  have hml : Scanner.moveWLoop u SEEK_BOUND s = (s, true) := by
    rw [show (SEEK_BOUND : Nat) = 7 + 1 from rfl, moveWLoop_succ, h]
  rw [hml]

end FwdScan

namespace FwdScan

theorem getSkipLoop_ok_none_entry (u : Bytes) :
    ∀ (s s1 : Scanner), Scanner.getSkipLoop u s = (Except.ok none, false, s1) →
      (∀ e, s.wEntry = some e → e.1.user = u) →
      s1.wEntry = none ∨ ∃ e, s1.wEntry = some e ∧ e.1.user = u := by
  have H : ∀ m (s : Scanner), s.writeItems.length - s.writePos ≤ m →
      ∀ s1, Scanner.getSkipLoop u s = (Except.ok none, false, s1) →
      (∀ e, s.wEntry = some e → e.1.user = u) →
      s1.wEntry = none ∨ ∃ e, s1.wEntry = some e ∧ e.1.user = u := by
    intro m
    induction m with
    | zero =>
        intro s hm s1 h hu
        have hnone : s.wEntry = none := (Scanner.wEntry_none_iff s).2 (by omega)
        rw [getSkipLoop_none u s hnone] at h
        exact absurd (congrArg (fun p => p.1) h) (by simp)
    | succ m ih =>
        intro s hm s1 h hu
        cases he : s.wEntry with
        | none =>
            rw [getSkipLoop_none u s he] at h
            exact absurd (congrArg (fun p => p.1) h) (by simp)
        | some e =>
            have hue : e.1.user = u := hu e he
            have hmeas : (s.incWProcessed.bumpWNext).writeItems.length -
                (s.incWProcessed.bumpWNext).writePos ≤ m := by
              simp only [Scanner.bumpWNext_writeItems, Scanner.bumpWNext_writePos,
                Scanner.incWProcessed_writeItems, Scanner.incWProcessed_writePos]
              omega
            cases hwt : e.2.write_type with
            | put =>
                rw [getSkipLoop_put u s e he hwt] at h
                rcases hl : s.incWProcessed.load_data_by_write e.2 u with ⟨r, s2⟩
                rw [hl] at h
                cases r with
                | ok v => exact absurd (congrArg (fun p => p.1) h) (by simp)
                | error er => exact absurd (congrArg (fun p => p.1) h) (by simp)
            | delete =>
                rw [getSkipLoop_delete u s e he hwt] at h
                simp only [Prod.mk.injEq] at h
                refine Or.inr ⟨e, ?_, hue⟩
                rw [← h.2.2]
                exact he
            | lockKind =>
                cases h2 : (s.incWProcessed.bumpWNext).wEntry with
                | none =>
                    rw [getSkipLoop_skip_none u s e he (Or.inl hwt) h2] at h
                    simp only [Prod.mk.injEq] at h
                    refine Or.inl ?_
                    rw [← h.2.2]
                    exact h2
                | some e2 =>
                    by_cases hne : e2.1.user ≠ u
                    · rw [getSkipLoop_skip_met u s e e2 he (Or.inl hwt) h2 hne] at h
                      simp only [Prod.mk.injEq] at h
                      exact absurd h.2.1 (by simp)
                    · rw [getSkipLoop_skip_rec u s e e2 he (Or.inl hwt) h2 (not_not.1 hne)] at h
                      refine ih _ hmeas s1 h ?_
                      intro e' he'
                      rw [h2] at he'
                      cases Option.some.inj he'
                      exact not_not.1 hne
            | rollback =>
                cases h2 : (s.incWProcessed.bumpWNext).wEntry with
                | none =>
                    rw [getSkipLoop_skip_none u s e he (Or.inr hwt) h2] at h
                    simp only [Prod.mk.injEq] at h
                    refine Or.inl ?_
                    rw [← h.2.2]
                    exact h2
                | some e2 =>
                    by_cases hne : e2.1.user ≠ u
                    · rw [getSkipLoop_skip_met u s e e2 he (Or.inr hwt) h2 hne] at h
                      simp only [Prod.mk.injEq] at h
                      exact absurd h.2.1 (by simp)
                    · rw [getSkipLoop_skip_rec u s e e2 he (Or.inr hwt) h2 (not_not.1 hne)] at h
                      refine ih _ hmeas s1 h ?_
                      intro e' he'
                      rw [h2] at he'
                      cases Option.some.inj he'
                      exact not_not.1 hne
  intro s s1 h hu
  exact H _ s le_rfl s1 h hu

theorem get_ok_none_notmet_entry (s : Scanner) (u : Bytes) (ts : Nat) (s1 : Scanner)
    (h : s.get u ts = (Except.ok none, false, s1)) :
    s1.wEntry = none ∨ ∃ e, s1.wEntry = some e ∧ e.1.user = u := by
  unfold Scanner.get at h
  by_cases hv : s.wValid = true
  · rw [if_neg (by simp [hv])] at h
    rcases hgl : Scanner.getNextLoop u ts SEEK_BOUND s with ⟨sA, res⟩
    rw [hgl] at h
    cases res with
    | ended =>
        dsimp only at h
        have hnone := getNextLoop_ended_inv u ts SEEK_BOUND s sA hgl
        simp only [Prod.mk.injEq] at h
        exact Or.inl (h.2.2 ▸ hnone)
    | metAnother =>
        dsimp only at h
        simp only [Prod.mk.injEq] at h
        exact absurd h.2.1 (by simp)
    | found =>
        dsimp only at h
        obtain ⟨eF, heF, huF, -, -⟩ := getNextLoop_found_entry u ts SEEK_BOUND s sA hgl
        refine getSkipLoop_ok_none_entry u sA s1 h ?_
        intro e' he'
        rw [heF] at he'
        cases Option.some.inj he'
        exact huF
    | exhausted =>
        dsimp only at h
        cases hwe : (sA.wSeek ⟨u, ts⟩).wEntry with
        | none =>
            rw [hwe] at h
            dsimp only at h
            simp only [Prod.mk.injEq] at h
            exact Or.inl (h.2.2 ▸ hwe)
        | some e =>
            rw [hwe] at h
            dsimp only at h
            by_cases hne : e.1.user ≠ u
            · rw [if_pos hne] at h
              simp only [Prod.mk.injEq] at h
              exact absurd h.2.1 (by simp)
            · rw [if_neg hne] at h
              refine getSkipLoop_ok_none_entry u _ s1 h ?_
              intro e' he'
              rw [hwe] at he'
              cases Option.some.inj he'
              exact not_not.1 hne
  · rw [if_pos hv] at h
    simp at h

end FwdScan

namespace FwdScan

theorem handleLock_ok_state {cl : Bytes → Nat → LockRec → CheckLockResult} {s : Scanner}
    {u : Bytes} {r : Except ScanError (Option Value)} {t : Nat} {s1 : Scanner}
    (h : s.handleLock cl u = Except.ok (r, t, s1)) : s1 = s.bumpLNext := by
  unfold Scanner.handleLock at h
  cases hiso : s.isolation_level with
  | si =>
      rw [hiso] at h
      by_cases hv : s.lValid = true
      · rw [if_pos hv] at h
        cases he : s.lEntry with
        | none =>
            rw [he] at h
            exact absurd h (by simp)
        | some e =>
            rw [he] at h
            dsimp only at h
            simp only [Except.ok.injEq, Prod.mk.injEq] at h
            exact h.2.2.symm
      · rw [if_neg hv] at h
        exact absurd h (by simp)
  | rc =>
      rw [hiso] at h
      simp only [Except.ok.injEq, Prod.mk.injEq] at h
      exact h.2.2.symm

theorem handleLock_ts {cl : Bytes → Nat → LockRec → CheckLockResult} {s : Scanner}
    {u : Bytes} {r : Except ScanError (Option Value)} {t : Nat} {s1 : Scanner}
    (h : s.handleLock cl u = Except.ok (r, t, s1)) :
    t = s.ts ∨ ∃ e, s.lEntry = some e ∧ cl u s.ts e.2 = CheckLockResult.ignored t := by
  unfold Scanner.handleLock at h
  cases hiso : s.isolation_level with
  | si =>
      rw [hiso] at h
      by_cases hv : s.lValid = true
      · rw [if_pos hv] at h
        cases he : s.lEntry with
        | none =>
            rw [he] at h
            exact absurd h (by simp)
        | some e =>
            rw [he] at h
            dsimp only at h
            rcases hc : cl u s.ts e.2 with err | _ | tt
            · simp only [hc] at h
              simp only [Except.ok.injEq, Prod.mk.injEq] at h
              exact Or.inl h.2.1.symm
            · simp only [hc] at h
              simp only [Except.ok.injEq, Prod.mk.injEq] at h
              exact Or.inl h.2.1.symm
            · simp only [hc] at h
              simp only [Except.ok.injEq, Prod.mk.injEq] at h
              exact Or.inr ⟨e, rfl, by rw [hc, h.2.1]⟩
      · rw [if_neg hv] at h
        exact absurd h (by simp)
  | rc =>
      rw [hiso] at h
      simp only [Except.ok.injEq, Prod.mk.injEq] at h
      exact Or.inl h.2.1.symm

theorem handleLock_ok_result {cl : Bytes → Nat → LockRec → CheckLockResult} {s : Scanner}
    {u : Bytes} {r : Except ScanError (Option Value)} {t : Nat} {s1 : Scanner}
    (h : s.handleLock cl u = Except.ok (r, t, s1)) :
    r = Except.ok none ∨ ∃ er, r = Except.error er := by
  unfold Scanner.handleLock at h
  cases hiso : s.isolation_level with
  | si =>
      rw [hiso] at h
      by_cases hv : s.lValid = true
      · rw [if_pos hv] at h
        cases he : s.lEntry with
        | none =>
            rw [he] at h
            exact absurd h (by simp)
        | some e =>
            rw [he] at h
            dsimp only at h
            rcases hc : cl u s.ts e.2 with err | _ | tt
            · simp only [hc] at h
              simp only [Except.ok.injEq, Prod.mk.injEq] at h
              exact Or.inr ⟨_, h.1.symm⟩
            · simp only [hc] at h
              simp only [Except.ok.injEq, Prod.mk.injEq] at h
              exact Or.inl h.1.symm
            · simp only [hc] at h
              simp only [Except.ok.injEq, Prod.mk.injEq] at h
              exact Or.inl h.1.symm
      · rw [if_neg hv] at h
        exact absurd h (by simp)
  | rc =>
      rw [hiso] at h
      simp only [Except.ok.injEq, Prod.mk.injEq] at h
      exact Or.inl h.1.symm

theorem wfStore_of_frame {s t : Scanner} (hf : baseFrame s t) (h : WfStore s) : WfStore t := by
  obtain ⟨hw, hl, -⟩ := hf
  exact ⟨by rw [hw]; exact h.1, by rw [hl]; exact h.2.1, by rw [hw]; exact h.2.2⟩

end FwdScan

namespace FwdScan

theorem step_inv {cl : Bytes → Nat → LockRec → CheckLockResult} {s s2 : Scanner}
    (hwf : WfStore s) (hgs : AtNewestVersion s)
    (h : Scanner.readNextStep cl s = (none, s2)) :
    AtNewestVersion s2 := by
  unfold Scanner.readNextStep at h
  cases hsel : selectCurrent ((s.wEntry).map Prod.fst) ((s.lEntry).map Prod.fst) with
  | none =>
      rw [hsel] at h
      simp at h
  | some c =>
      rcases c with ⟨u, hw, hl⟩
      rw [hsel] at h
      dsimp only at h
      rcases hstep : (if hl = true then s.handleLock cl u
          else Except.ok (Except.ok none, s.ts, s)) with e | trip
      · rw [hstep] at h
        simp at h
      · rcases trip with ⟨result, get_ts, s1⟩
        rw [hstep] at h
        dsimp only at h
        have hs1 : s1 = s ∨ s1 = s.bumpLNext := by
          by_cases hhl : hl = true
          · rw [if_pos hhl] at hstep
            exact Or.inr (handleLock_ok_state hstep)
          · rw [if_neg hhl] at hstep
            simp only [Except.ok.injEq, Prod.mk.injEq] at hstep
            exact Or.inl hstep.2.2.symm
        have hitems1 : s1.writeItems = s.writeItems := by
          rcases hs1 with h1 | h1 <;> rw [h1] <;> simp
        have hpos1 : s1.writePos = s.writePos := by
          rcases hs1 with h1 | h1 <;> rw [h1] <;> simp
        have hgs1 : AtNewestVersion s1 := atNewest_congr hitems1 hpos1 hgs
        have hsort1 : SortedWrites s1.writeItems := by
          rw [hitems1]
          exact hwf.1
        have hposts1 : PosTs s1.writeItems := by
          rw [hitems1]
          exact hwf.2.2
        rcases hhw : (if hw = true then s1.handleWrite u get_ts result else (result, s1))
            with ⟨r2, s3⟩
        rw [hhw] at h
        rcases r2 with er | ov
        · simp at h
        · rcases ov with _ | v
          · simp only [Prod.mk.injEq] at h
            obtain ⟨-, hs23⟩ := h
            rw [← hs23]
            by_cases hb : hw = true
            · rw [if_pos hb] at hhw
              obtain ⟨e0, he0, hu0⟩ : ∃ e0, s.wEntry = some e0 ∧ e0.1.user = u := by
                obtain ⟨hw1, -, -⟩ := selectCurrent_some_inv hsel
                obtain ⟨k, hk, hku⟩ := hw1 hb
                obtain ⟨e0, he0, hfst⟩ := Option.map_eq_some'.1 hk
                exact ⟨e0, he0, by rw [hfst]; exact hku⟩
              have he0' : s1.wEntry = some e0 := by
                rw [Scanner.wEntry, hitems1, hpos1]
                exact he0
              have hp1 : PastKeyW s1 u := pastKeyW_of_atNewest hsort1 hgs1 he0' hu0
              unfold Scanner.handleWrite at hhw
              rcases result with er | ow
              · dsimp only at hhw
                exact absurd (congrArg (fun p => p.1) hhw) (by simp)
              · dsimp only at hhw
                rcases hget : s1.get u get_ts with ⟨r, met, s1x⟩
                rw [hget] at hhw
                dsimp only at hhw
                have hpx : PastKeyW s1x u := by
                  have := pastW_get s1 u get_ts hp1
                  rw [hget] at this
                  exact this
                have hixframe : s1x.writeItems = s1.writeItems := by
                  have := baseFrame_get s1 u get_ts
                  rw [hget] at this
                  exact this.1
                cases met with
                | true =>
                    simp only [if_pos] at hhw
                    simp only [Prod.mk.injEq] at hhw
                    obtain ⟨hr, hs3⟩ := hhw
                    rw [← hs3]
                    obtain ⟨e1, he1, -, hlt1⟩ :=
                      get_met_gt s1 u get_ts r s1x hsort1 e0 he0' hu0 hget
                    refine atNewest_of_past hpx ?_
                    intro e' he'
                    rw [he1] at he'
                    cases Option.some.inj he'
                    exact hlt1
                | false =>
                    rw [if_neg (by simp)] at hhw
                    simp only [Prod.mk.injEq] at hhw
                    obtain ⟨hr, hs3⟩ := hhw
                    rw [hr] at hget
                    rw [← hs3]
                    rcases get_ok_none_notmet_entry s1 u get_ts s1x hget with hnone | ⟨e1, he1, hu1⟩
                    · rw [moveW_of_wEntry_none hnone]
                      intro e' he' j hj ej hg
                      rw [hnone] at he'
                      exact Option.noConfusion he'
                    · have hpm : PastKeyW (s1x.move_write_cursor_to_next_user_key u) u :=
                        pastW_moveW s1x u hpx
                      have hsortx : SortedWrites s1x.writeItems := by
                        rw [hixframe]
                        exact hsort1
                      have hpostsx : PosTs s1x.writeItems := by
                        rw [hixframe]
                        exact hposts1
                      have hgt := moveW_past hsortx hpostsx he1 hu1
                      exact atNewest_of_past hpm hgt
            · rw [if_neg hb] at hhw
              simp only [Prod.mk.injEq] at hhw
              rw [← hhw.2]
              exact hgs1
          · simp at h

end FwdScan

namespace FwdScan

theorem resolveSpec_some_char {items : List (WKey × WriteRec)} {u : Bytes} {limit : Nat}
    {e : WKey × WriteRec} (hsort : SortedWrites items)
    (h : resolveSpec items u limit = some e) :
    e ∈ items ∧ e.1.user = u ∧ e.1.ts ≤ limit ∧ decisive e = true ∧
    ∀ e', e' ∈ items → e'.1.user = u → e'.1.ts ≤ limit → decisive e' = true →
      e'.1.ts ≤ e.1.ts := by
  unfold resolveSpec at h
  have hmem : e ∈ items.filter (visibleB u limit) := List.mem_of_find?_eq_some h
  have hvis : visibleB u limit e = true := (List.mem_filter.1 hmem).2
  have hdec : decisive e = true := List.find?_some h
  have hmemI : e ∈ items := (List.mem_filter.1 hmem).1
  have hue : e.1.user = u ∧ e.1.ts ≤ limit := by
    simpa [visibleB] using hvis
  refine ⟨hmemI, hue.1, hue.2, hdec, ?_⟩
  intro e' hm' hu' ht' hd'
  have hm'f : e' ∈ items.filter (visibleB u limit) :=
    List.mem_filter.2 ⟨hm', by simp [visibleB, hu', ht']⟩
  obtain ⟨i, hgi, -, hbefore⟩ := find?_eq_some_idx h
  obtain ⟨j, hgj⟩ := List.mem_iff_get.1 hm'f
  have hpairf : SortedWrites (items.filter (visibleB u limit)) :=
    List.Pairwise.sublist (List.filter_sublist items) hsort
  have hgj' : (items.filter (visibleB u limit)).get? j.val = some e' := by
    rw [List.get?_eq_get j.isLt, hgj]
  by_cases hij : j.val < i
  · have hfalse := hbefore j.val hij e' hgj'
    rw [hd'] at hfalse
    exact absurd hfalse (by simp)
  · rcases Nat.lt_or_ge i j.val with hlt | hge2
    · have hw := sorted_get?_lt hpairf hlt hgi hgj'
      rcases hw with hlt' | ⟨-, hlt'⟩
      · rw [hue.1, hu'] at hlt'
        exact absurd hlt' (lt_irrefl u)
      · exact le_of_lt hlt'
    · have hieq : i = j.val := by omega
      rw [hieq] at hgi
      rw [hgi] at hgj'
      cases Option.some.inj hgj'
      exact le_rfl

theorem readNextLoop_some_lift (cl : Bytes → Nat → LockRec → CheckLockResult) :
    ∀ n (s s' : Scanner) (k : Bytes) (v : Value),
      WfStore s → AtNewestVersion s →
      Scanner.readNextLoop cl n s = (Except.ok (some (k, v)), s') →
      ∃ sm s2, baseFrame s sm ∧ WfStore sm ∧ AtNewestVersion sm ∧
        Scanner.readNextStep cl sm = (some (Except.ok (some (k, v))), s2) := by
  intro n
  induction n with
  | zero =>
      intro s s' k v hwf hgs h
      unfold Scanner.readNextLoop at h
      simp at h
  | succ n ih =>
      intro s s' k v hwf hgs h
      unfold Scanner.readNextLoop at h
      rcases hstep : Scanner.readNextStep cl s with ⟨o, s2⟩
      rw [hstep] at h
      have hf : baseFrame s s2 := by
        have := baseFrame_readNextStep cl s
        rw [hstep] at this
        exact this
      cases o with
      | none =>
          have hwf2 : WfStore s2 := wfStore_of_frame hf hwf
          have hgs2 : AtNewestVersion s2 := step_inv hwf hgs hstep
          obtain ⟨sm, s3, hfm, hwfm, hgsm, hstepm⟩ := ih s2 s' k v hwf2 hgs2 h
          exact ⟨sm, s3, baseFrame_trans hf hfm, hwfm, hgsm, hstepm⟩
      | some r =>
          simp only [Prod.mk.injEq] at h
          obtain ⟨hr, hs⟩ := h
          rw [hr] at hstep
          exact ⟨s, s2, baseFrame_refl s, hwf, hgs, hstep⟩

end FwdScan

namespace FwdScan

theorem step_sound {cl : Bytes → Nat → LockRec → CheckLockResult} {s s2 : Scanner}
    {k : Bytes} {v : Value}
    (hwf : WfStore s) (hgs : AtNewestVersion s)
    (h : Scanner.readNextStep cl s = (some (Except.ok (some (k, v))), s2)) :
    ∃ effTs e,
      (effTs = s.ts ∨ ∃ lrec, (k, lrec) ∈ s.lockItems ∧
          cl k s.ts lrec = CheckLockResult.ignored effTs) ∧
      e ∈ s.writeItems ∧ e.1.user = k ∧ e.2.write_type = WriteType.put ∧
      e.1.ts ≤ effTs ∧ loadPure s.omit_value s.defaultItems e.2 k = Except.ok v ∧
      ∀ e', e' ∈ s.writeItems → e'.1.user = k → e'.1.ts ≤ effTs →
        (e'.2.write_type = WriteType.put ∨ e'.2.write_type = WriteType.delete) →
        e'.1.ts ≤ e.1.ts := by
  unfold Scanner.readNextStep at h
  cases hsel : selectCurrent ((s.wEntry).map Prod.fst) ((s.lEntry).map Prod.fst) with
  | none =>
      rw [hsel] at h
      simp at h
  | some c =>
      rcases c with ⟨u, hw, hl⟩
      rw [hsel] at h
      dsimp only at h
      rcases hstep : (if hl = true then s.handleLock cl u
          else Except.ok (Except.ok none, s.ts, s)) with e | trip
      · rw [hstep] at h
        simp at h
      · rcases trip with ⟨result, get_ts, s1⟩
        rw [hstep] at h
        dsimp only at h
        rcases hhw : (if hw = true then s1.handleWrite u get_ts result else (result, s1))
            with ⟨r2, s3⟩
        rw [hhw] at h
        rcases r2 with er | ov
        · simp at h
        · rcases ov with _ | v2
          · simp at h
          · simp only [Prod.mk.injEq, Option.some.injEq, Except.ok.injEq] at h
            obtain ⟨⟨huk, hvv⟩, hs32⟩ := h
            subst huk
            subst hvv
            have hresult : result = Except.ok none := by
              by_cases hhl : hl = true
              · rw [if_pos hhl] at hstep
                rcases handleLock_ok_result hstep with h1 | ⟨er, h1⟩
                · exact h1
                · exfalso
                  rw [h1] at hhw
                  by_cases hb : hw = true
                  · rw [if_pos hb] at hhw
                    unfold Scanner.handleWrite at hhw
                    dsimp only at hhw
                    rw [if_neg (by simp)] at hhw
                    simp only [Prod.mk.injEq] at hhw
                    exact Except.noConfusion hhw.1
                  · rw [if_neg hb] at hhw
                    simp only [Prod.mk.injEq] at hhw
                    exact Except.noConfusion hhw.1
              · rw [if_neg hhl] at hstep
                simp only [Except.ok.injEq, Prod.mk.injEq] at hstep
                exact hstep.1.symm
            have hb : hw = true := by
              by_cases hb : hw = true
              · exact hb
              · exfalso
                rw [if_neg hb, hresult] at hhw
                simp only [Prod.mk.injEq] at hhw
                exact Option.noConfusion (Except.ok.inj hhw.1)
            rw [if_pos hb, hresult] at hhw
            obtain ⟨e0, he0, hu0⟩ : ∃ e0, s.wEntry = some e0 ∧ e0.1.user = u := by
              obtain ⟨hw1, -, -⟩ := selectCurrent_some_inv hsel
              obtain ⟨wk, hk, hku⟩ := hw1 hb
              obtain ⟨e0, he0, hfst⟩ := Option.map_eq_some'.1 hk
              exact ⟨e0, he0, by rw [hfst]; exact hku⟩
            have hs1 : s1 = s ∨ s1 = s.bumpLNext := by
              by_cases hhl : hl = true
              · rw [if_pos hhl] at hstep
                exact Or.inr (handleLock_ok_state hstep)
              · rw [if_neg hhl] at hstep
                simp only [Except.ok.injEq, Prod.mk.injEq] at hstep
                exact Or.inl hstep.2.2.symm
            have hitems1 : s1.writeItems = s.writeItems := by
              rcases hs1 with h1 | h1 <;> rw [h1] <;> simp
            have hpos1 : s1.writePos = s.writePos := by
              rcases hs1 with h1 | h1 <;> rw [h1] <;> simp
            have homit1 : s1.omit_value = s.omit_value := by
              rcases hs1 with h1 | h1 <;> rw [h1] <;> simp
            have hdflt1 : s1.defaultItems = s.defaultItems := by
              rcases hs1 with h1 | h1 <;> rw [h1] <;> simp
            have hgs1 : AtNewestVersion s1 := atNewest_congr hitems1 hpos1 hgs
            have hsort1 : SortedWrites s1.writeItems := by
              rw [hitems1]
              exact hwf.1
            have he0' : s1.wEntry = some e0 := by
              rw [Scanner.wEntry, hitems1, hpos1]
              exact he0
            unfold Scanner.handleWrite at hhw
            dsimp only at hhw
            rcases hget : s1.get u get_ts with ⟨r, met, s1x⟩
            rw [hget] at hhw
            dsimp only at hhw
            have hr : r = Except.ok (some v2) := by
              cases met with
              | true =>
                  simp only [if_pos] at hhw
                  simp only [Prod.mk.injEq] at hhw
                  exact hhw.1
              | false =>
                  rw [if_neg (by simp)] at hhw
                  simp only [Prod.mk.injEq] at hhw
                  exact hhw.1
            rw [hr] at hget
            have hgc := get_correct s1 u get_ts hsort1 hgs1 e0 he0' hu0
            rw [hget] at hgc
            dsimp only at hgc
            rcases hres : resolveSpec s1.writeItems u get_ts with _ | e
            · rw [hres] at hgc
              simp at hgc
            · rw [hres] at hgc
              cases hwt : e.2.write_type with
              | put =>
                  simp only [hwt] at hgc
                  have hload : loadPure s1.omit_value s1.defaultItems e.2 u =
                      Except.ok v2 := by
                    rcases hlp : loadPure s1.omit_value s1.defaultItems e.2 u with er | vv
                    · rw [hlp] at hgc
                      simp [Except.map] at hgc
                    · rw [hlp] at hgc
                      simp [Except.map] at hgc
                      rw [hgc]
                  obtain ⟨hmem, hu', hts', hdec, hmax⟩ := resolveSpec_some_char hsort1 hres
                  have hlk : get_ts = s.ts ∨ ∃ lrec, (u, lrec) ∈ s.lockItems ∧
                      cl u s.ts lrec = CheckLockResult.ignored get_ts := by
                    by_cases hhl : hl = true
                    · rw [if_pos hhl] at hstep
                      rcases handleLock_ts hstep with h1 | ⟨le, hle, hcle⟩
                      · exact Or.inl h1
                      · obtain ⟨-, hl2, -⟩ := selectCurrent_some_inv hsel
                        have hlk2 := hl2 hhl
                        obtain ⟨le2, hle2, hfst⟩ := Option.map_eq_some'.1 hlk2
                        rw [hle] at hle2
                        cases Option.some.inj hle2
                        refine Or.inr ⟨le.2, ?_, hcle⟩
                        have hmeml : le ∈ s.lockItems := List.get?_mem hle
                        rw [show ((u, le.2) : Bytes × LockRec) = le from by
                          rw [← hfst]]
                        exact hmeml
                    · rw [if_neg hhl] at hstep
                      simp only [Except.ok.injEq, Prod.mk.injEq] at hstep
                      exact Or.inl hstep.2.1.symm
                  refine ⟨get_ts, e, hlk, by rw [← hitems1]; exact hmem, hu', hwt, hts',
                    by rw [← homit1, ← hdflt1]; exact hload, ?_⟩
                  intro e' hm' hu'' ht'' hd''
                  refine hmax e' (by rw [hitems1]; exact hm') hu'' ht'' ?_
                  rcases hd'' with h1 | h1 <;> simp [decisive, h1]
              | delete =>
                  simp only [hwt] at hgc
                  simp at hgc
              | lockKind =>
                  simp only [hwt] at hgc
                  simp at hgc
              | rollback =>
                  simp only [hwt] at hgc
                  simp at hgc

end FwdScan

namespace FwdScan

theorem atNewest_seekUserKey (s : Scanner) (lb : Bytes) :
    AtNewestVersion { (s.wSeekUserKey lb).lSeekUserKey lb with is_started := true } := by
  intro e he j hj ej hg
  have he' : s.writeItems.get?
      (s.writeItems.findIdx (fun x => decide (¬ x.1.user < lb))) = some e := he
  have hg' : s.writeItems.get? j = some ej := hg
  have hj' : j < s.writeItems.findIdx (fun x => decide (¬ x.1.user < lb)) := hj
  have hlen : s.writeItems.findIdx (fun x => decide (¬ x.1.user < lb)) <
      s.writeItems.length := by
    by_contra hge
    rw [List.get?_eq_none.2 (by omega)] at he'
    exact Option.noConfusion he'
  have hp := @List.findIdx_getElem _ (fun x => decide (¬ x.1.user < lb)) s.writeItems hlen
  rw [List.get?_eq_getElem?, List.getElem?_eq_getElem hlen] at he'
  rw [Option.some.inj he'] at hp
  have hple : lb ≤ e.1.user := le_of_not_lt (by simpa using hp)
  have hjlen : j < s.writeItems.length := by
    by_contra hge
    rw [List.get?_eq_none.2 (by omega)] at hg'
    exact Option.noConfusion hg'
  have hq := @List.not_of_lt_findIdx _ (fun x => decide (¬ x.1.user < lb)) s.writeItems j hj'
  rw [List.get?_eq_getElem?, List.getElem?_eq_getElem hjlen] at hg'
  rw [Option.some.inj hg'] at hq
  have hqlt : ej.1.user < lb := by simpa using hq
  intro hc
  rw [hc] at hqlt
  exact absurd hple (not_le.2 hqlt)

/-- C1: every pair `(k, v)` returned by `read_next` on a well-formed
store comes from a `Put` record of the write stream for user key `k`
committed at or before the effective timestamp used for `k` (the read
timestamp, or the one a lock's `Ignored` answer substitutes), with the
value that record prescribes, and no other `Put` or `Delete` for `k`
within that effective timestamp is newer; during version resolution a
`Delete` terminates with no value, while `Lock` and `Rollback` records
are skipped without terminating. -/
theorem claim_C1 (cl : Bytes → Nat → LockRec → CheckLockResult) (s s' : Scanner)
    (k : Bytes) (v : Value)
    (hwf : WfStore s) (hgs : AtNewestVersion s)
    (h : Scanner.read_next cl s = (Except.ok (some (k, v)), s')) :
    (∃ effTs e,
      (effTs = s.ts ∨ ∃ lrec, (k, lrec) ∈ s.lockItems ∧
          cl k s.ts lrec = CheckLockResult.ignored effTs) ∧
      e ∈ s.writeItems ∧ e.1.user = k ∧ e.2.write_type = WriteType.put ∧
      e.1.ts ≤ effTs ∧ loadPure s.omit_value s.defaultItems e.2 k = Except.ok v ∧
      ∀ e', e' ∈ s.writeItems → e'.1.user = k → e'.1.ts ≤ effTs →
        (e'.2.write_type = WriteType.put ∨ e'.2.write_type = WriteType.delete) →
        e'.1.ts ≤ e.1.ts) ∧
    (∀ (t : Scanner) (u : Bytes) (e : WKey × WriteRec), t.wEntry = some e →
        e.2.write_type = WriteType.delete →
        Scanner.getSkipLoop u t = (Except.ok none, false, t.incWProcessed)) ∧
    (∀ (t : Scanner) (u : Bytes) (e e2 : WKey × WriteRec), t.wEntry = some e →
        (e.2.write_type = WriteType.lockKind ∨ e.2.write_type = WriteType.rollback) →
        (t.incWProcessed.bumpWNext).wEntry = some e2 → e2.1.user = u →
        Scanner.getSkipLoop u t = Scanner.getSkipLoop u (t.incWProcessed.bumpWNext)) := by
  refine ⟨?_, fun t u e het hdt => getSkipLoop_delete u t e het hdt,
    fun t u e e2 het hk2 h2 hu2 => getSkipLoop_skip_rec u t e e2 het hk2 h2 hu2⟩
  by_cases hstart : s.is_started = true
  · rw [read_next_started cl s hstart] at h
    obtain ⟨sm, s3, hf, hwfm, hgsm, hstepm⟩ :=
      readNextLoop_some_lift cl (Scanner.fuelOf s) s s' k v hwf hgs h
    obtain ⟨effTs, e, hlk, hmem, hu, hput, hts, hload, hmax⟩ := step_sound hwfm hgsm hstepm
    obtain ⟨hwI, hlI, hdI, htsI, -, hoI, -⟩ := hf
    refine ⟨effTs, e, ?_, by rw [← hwI]; exact hmem, hu, hput, hts,
      by rw [← hoI, ← hdI]; exact hload, ?_⟩
    · rcases hlk with h1 | ⟨lrec, hm2, hc2⟩
      · exact Or.inl (by rw [← htsI]; exact h1)
      · exact Or.inr ⟨lrec, by rw [← hlI]; exact hm2, by rw [← htsI]; exact hc2⟩
    · intro e' hm' hu' ht' hd'
      exact hmax e' (by rw [hwI]; exact hm') hu' ht' hd'
  · cases hlb : s.lower_bound with
    | none =>
        rw [read_next_unstarted_none cl s hstart hlb] at h
        simp at h
    | some lb =>
        rw [read_next_unstarted_some cl s lb hstart hlb] at h
        have hwfT : WfStore
            { (s.wSeekUserKey lb).lSeekUserKey lb with is_started := true } :=
          ⟨hwf.1, hwf.2.1, hwf.2.2⟩
        have hgsT := atNewest_seekUserKey s lb
        obtain ⟨sm, s3, hf, hwfm, hgsm, hstepm⟩ :=
          readNextLoop_some_lift cl _ _ s' k v hwfT hgsT h
        obtain ⟨effTs, e, hlk, hmem, hu, hput, hts, hload, hmax⟩ := step_sound hwfm hgsm hstepm
        obtain ⟨hwI, hlI, hdI, htsI, -, hoI, -⟩ := hf
        have hwT : ({ (s.wSeekUserKey lb).lSeekUserKey lb with is_started := true } :
            Scanner).writeItems = s.writeItems := rfl
        have hlT : ({ (s.wSeekUserKey lb).lSeekUserKey lb with is_started := true } :
            Scanner).lockItems = s.lockItems := rfl
        have hdT : ({ (s.wSeekUserKey lb).lSeekUserKey lb with is_started := true } :
            Scanner).defaultItems = s.defaultItems := rfl
        have htsT : ({ (s.wSeekUserKey lb).lSeekUserKey lb with is_started := true } :
            Scanner).ts = s.ts := rfl
        have hoT : ({ (s.wSeekUserKey lb).lSeekUserKey lb with is_started := true } :
            Scanner).omit_value = s.omit_value := rfl
        refine ⟨effTs, e, ?_, by rw [← hwT, ← hwI]; exact hmem, hu, hput, hts,
          by rw [← hoT, ← hoI, ← hdT, ← hdI]; exact hload, ?_⟩
        · rcases hlk with h1 | ⟨lrec, hm2, hc2⟩
          · exact Or.inl (by rw [← htsT, ← htsI]; exact h1)
          · exact Or.inr ⟨lrec, by rw [← hlT, ← hlI]; exact hm2,
              by rw [← htsT, ← htsI]; exact hc2⟩
        · intro e' hm' hu' ht' hd'
          exact hmax e' (by rw [hwI, hwT]; exact hm') hu' ht' hd'

end FwdScan

namespace FwdScan

theorem readNextStep_write_only (cl : Bytes → Nat → LockRec → CheckLockResult)
    (s : Scanner) (u : Bytes)
    (hsel : selectCurrent ((s.wEntry).map Prod.fst) ((s.lEntry).map Prod.fst)
      = some (u, true, false)) :
    Scanner.readNextStep cl s =
      (match s.handleWrite u s.ts (Except.ok none) with
       | (Except.error e, t) => (some (Except.error e), t)
       | (Except.ok (some v), t) => (some (Except.ok (some (u, v))), t)
       | (Except.ok none, t) => (none, t)) := by
  unfold Scanner.readNextStep
  rw [hsel]
  simp only [Bool.false_eq_true, eq_self_iff_true, if_true, if_false]
  rcases hw : s.handleWrite u s.ts (Except.ok none) with ⟨r2, t⟩
  rcases r2 with er | ov
  · rfl
  · rcases ov with _ | v <;> rfl

theorem C1fixture_skip :
    Scanner.getSkipLoop [10] C1fixture =
      (Except.ok (some [1]), false, C1fixture.incWProcessed) := by
  rw [getSkipLoop_put [10] C1fixture (⟨[10], 5⟩, ⟨WriteType.put, 4, some [1]⟩) rfl rfl]
  rfl

theorem C1fixture_get :
    C1fixture.get [10] 10 = (Except.ok (some [1]), false, C1fixture.incWProcessed) := by
  have h1 : C1fixture.get [10] 10 = Scanner.getSkipLoop [10] C1fixture := rfl
  rw [h1, C1fixture_skip]

theorem C1fixture_handleWrite :
    C1fixture.handleWrite [10] 10 (Except.ok none) =
      (Except.ok (some [1]),
        (C1fixture.incWProcessed).move_write_cursor_to_next_user_key [10]) := by
  unfold Scanner.handleWrite
  dsimp only
  rw [C1fixture_get]
  rfl

theorem C1fixture_step :
    Scanner.readNextStep noLockCheck C1fixture =
      (some (Except.ok (some ([10], [1]))),
        (C1fixture.incWProcessed).move_write_cursor_to_next_user_key [10]) := by
  rw [readNextStep_write_only noLockCheck C1fixture [10] rfl]
  simp only [show C1fixture.ts = 10 from rfl]
  rw [C1fixture_handleWrite]

theorem C1fixture_read_next :
    Scanner.read_next noLockCheck C1fixture =
      (Except.ok (some ([10], [1])),
        (C1fixture.incWProcessed).move_write_cursor_to_next_user_key [10]) := by
  rw [read_next_started noLockCheck C1fixture rfl]
  show Scanner.readNextLoop noLockCheck 2 C1fixture = _
  unfold Scanner.readNextLoop
  rw [C1fixture_step]

/-- Closed witness for C1: on the single-Put fixture, `read_next`
returns the pair `([10], [1])`, and the claim's conclusions hold. -/
theorem claim_C1_witness :
    WfStore C1fixture ∧ AtNewestVersion C1fixture ∧
    ((∃ effTs e,
        (effTs = C1fixture.ts ∨ ∃ lrec, (([10] : Bytes), lrec) ∈ C1fixture.lockItems ∧
            noLockCheck [10] C1fixture.ts lrec = CheckLockResult.ignored effTs) ∧
        e ∈ C1fixture.writeItems ∧ e.1.user = [10] ∧ e.2.write_type = WriteType.put ∧
        e.1.ts ≤ effTs ∧
        loadPure C1fixture.omit_value C1fixture.defaultItems e.2 [10] = Except.ok [1] ∧
        ∀ e', e' ∈ C1fixture.writeItems → e'.1.user = [10] → e'.1.ts ≤ effTs →
          (e'.2.write_type = WriteType.put ∨ e'.2.write_type = WriteType.delete) →
          e'.1.ts ≤ e.1.ts) ∧
      (∀ (t : Scanner) (u : Bytes) (e : WKey × WriteRec), t.wEntry = some e →
          e.2.write_type = WriteType.delete →
          Scanner.getSkipLoop u t = (Except.ok none, false, t.incWProcessed)) ∧
      (∀ (t : Scanner) (u : Bytes) (e e2 : WKey × WriteRec), t.wEntry = some e →
          (e.2.write_type = WriteType.lockKind ∨ e.2.write_type = WriteType.rollback) →
          (t.incWProcessed.bumpWNext).wEntry = some e2 → e2.1.user = u →
          Scanner.getSkipLoop u t = Scanner.getSkipLoop u (t.incWProcessed.bumpWNext))) :=
  ⟨⟨by unfold SortedWrites; decide, by unfold SortedLocks; decide, by unfold PosTs; decide⟩,
   fun e he j hj ej hg => absurd hj (Nat.not_lt_zero j),
   claim_C1 noLockCheck C1fixture
     ((C1fixture.incWProcessed).move_write_cursor_to_next_user_key [10]) [10] [1]
     ⟨by unfold SortedWrites; decide, by unfold SortedLocks; decide, by unfold PosTs; decide⟩
     (fun e he j hj ej hg => absurd hj (Nat.not_lt_zero j))
     C1fixture_read_next⟩

end FwdScan

/-! ## Claim C2: strict ascent of the produced user keys -/

namespace FwdScan

theorem getNextLoop_lockPos (u : Bytes) (ts : Nat) :
    ∀ n (s : Scanner), (Scanner.getNextLoop u ts n s).1.lockPos = s.lockPos := by
  intro n
  induction n with
  | zero => intro s; rfl
  | succ n ih =>
      intro s
      rw [getNextLoop_succ]
      cases he : s.wEntry with
      | none => rfl
      | some e =>
          simp only
          split
          · rfl
          · split
            · rfl
            · split
              · rfl
              · exact ih s.bumpWNext

theorem load_lockPos (s : Scanner) (w : WriteRec) (u : Bytes) :
    (s.load_data_by_write w u).2.lockPos = s.lockPos := by
  unfold Scanner.load_data_by_write Scanner.near_load_data_by_write
  split
  · rfl
  · split
    · rfl
    · dsimp only
      have hw : (s.ensure_default_cursor).lockPos = s.lockPos := by
        unfold Scanner.ensure_default_cursor
        split <;> rfl
      split <;> simp [hw]

theorem getSkipLoop_lockPos (u : Bytes) :
    ∀ (s : Scanner), (Scanner.getSkipLoop u s).2.2.lockPos = s.lockPos := by
  have H : ∀ (m : Nat) (s : Scanner), s.writeItems.length - s.writePos ≤ m →
      (Scanner.getSkipLoop u s).2.2.lockPos = s.lockPos := by
    intro m
    induction m with
    | zero =>
        intro s hm
        have hnone : s.wEntry = none := (Scanner.wEntry_none_iff s).2 (by omega)
        rw [getSkipLoop_none u s hnone]
    | succ m ih =>
        intro s hm
        cases he : s.wEntry with
        | none => rw [getSkipLoop_none u s he]
        | some e =>
            have hmeas : (s.incWProcessed.bumpWNext).writeItems.length -
                (s.incWProcessed.bumpWNext).writePos ≤ m := by
              simp only [Scanner.bumpWNext_writeItems, Scanner.bumpWNext_writePos,
                Scanner.incWProcessed_writeItems, Scanner.incWProcessed_writePos]
              omega
            cases hwt : e.2.write_type with
            | put =>
                rw [getSkipLoop_put u s e he hwt]
                rcases hl : s.incWProcessed.load_data_by_write e.2 u with ⟨r, s2⟩
                have hws : s2.lockPos = (s.incWProcessed).lockPos := by
                  have := load_lockPos s.incWProcessed e.2 u
                  rw [hl] at this
                  exact this
                cases r with
                | ok v =>
                    show s2.lockPos = s.lockPos
                    rw [hws]
                    rfl
                | error er =>
                    show s2.lockPos = s.lockPos
                    rw [hws]
                    rfl
            | delete =>
                rw [getSkipLoop_delete u s e he hwt]
                rfl
            | lockKind =>
                cases h2 : (s.incWProcessed.bumpWNext).wEntry with
                | none =>
                    rw [getSkipLoop_skip_none u s e he (Or.inl hwt) h2]
                    rfl
                | some e2 =>
                    by_cases hne : e2.1.user ≠ u
                    · rw [getSkipLoop_skip_met u s e e2 he (Or.inl hwt) h2 hne]
                      rfl
                    · rw [getSkipLoop_skip_rec u s e e2 he (Or.inl hwt) h2 (not_not.1 hne)]
                      rw [ih _ hmeas]
                      rfl
            | rollback =>
                cases h2 : (s.incWProcessed.bumpWNext).wEntry with
                | none =>
                    rw [getSkipLoop_skip_none u s e he (Or.inr hwt) h2]
                    rfl
                | some e2 =>
                    by_cases hne : e2.1.user ≠ u
                    · rw [getSkipLoop_skip_met u s e e2 he (Or.inr hwt) h2 hne]
                      rfl
                    · rw [getSkipLoop_skip_rec u s e e2 he (Or.inr hwt) h2 (not_not.1 hne)]
                      rw [ih _ hmeas]
                      rfl
  intro s
  exact H _ s le_rfl

theorem get_lockPos (s : Scanner) (u : Bytes) (ts : Nat) :
    (s.get u ts).2.2.lockPos = s.lockPos := by
  unfold Scanner.get
  split
  · rfl
  · rcases hgl : Scanner.getNextLoop u ts SEEK_BOUND s with ⟨sA, res⟩
    have hA : sA.lockPos = s.lockPos := by
      have := getNextLoop_lockPos u ts SEEK_BOUND s
      rw [hgl] at this
      exact this
    cases res with
    | ended => exact hA
    | metAnother => exact hA
    | found =>
        dsimp only
        rw [getSkipLoop_lockPos]
        exact hA
    | exhausted =>
        dsimp only
        cases hwe : (sA.wSeek ⟨u, ts⟩).wEntry with
        | none => exact hA
        | some e =>
            dsimp only
            by_cases hne : e.1.user ≠ u
            · rw [if_pos hne]
              exact hA
            · rw [if_neg hne]
              rw [getSkipLoop_lockPos]
              exact hA

theorem handleWrite_lockPos (s : Scanner) (u : Bytes) (ts : Nat)
    (result : Except ScanError (Option Value)) :
    (s.handleWrite u ts result).2.lockPos = s.lockPos := by
  unfold Scanner.handleWrite
  dsimp only
  rcases result with er | ow
  · dsimp only
    rw [if_neg (by simp)]
    exact (moveW_lockState s u).1
  · dsimp only
    rcases hget : s.get u ts with ⟨r, met, s1⟩
    have hg : s1.lockPos = s.lockPos := by
      have := get_lockPos s u ts
      rw [hget] at this
      exact this
    cases met with
    | true =>
        simp only [if_pos]
        exact hg
    | false =>
        rw [if_neg (by simp)]
        show (s1.move_write_cursor_to_next_user_key u).lockPos = s.lockPos
        rw [(moveW_lockState s1 u).1]
        exact hg

end FwdScan

namespace FwdScan

theorem selectCurrent_lock_gt {w_key : Option WKey} {l_key : Option Bytes}
    {u : Bytes} {hw : Bool}
    (h : selectCurrent w_key l_key = some (u, hw, false)) :
    ∀ lk, l_key = some lk → u < lk := by
  intro lk hlk
  subst hlk
  cases w_key with
  | none => simp [selectCurrent] at h
  | some wk =>
      simp only [selectCurrent] at h
      by_cases hlt : wk.user < lk
      · rw [if_pos hlt] at h
        simp only [Option.some.injEq, Prod.mk.injEq] at h
        rw [← h.1]
        exact hlt
      · rw [if_neg hlt] at h
        by_cases hgt : lk < wk.user
        · rw [if_pos hgt] at h
          simp only [Option.some.injEq, Prod.mk.injEq] at h
          exact absurd h.2.2 (by simp)
        · rw [if_neg hgt] at h
          simp only [Option.some.injEq, Prod.mk.injEq] at h
          exact absurd h.2.2 (by simp)

theorem selectCurrent_write_gt {w_key : Option WKey} {l_key : Option Bytes}
    {u : Bytes} {hl : Bool}
    (h : selectCurrent w_key l_key = some (u, false, hl)) :
    ∀ wk, w_key = some wk → u < wk.user := by
  intro wk hwk
  subst hwk
  cases l_key with
  | none => simp [selectCurrent] at h
  | some lk =>
      simp only [selectCurrent] at h
      by_cases hlt : wk.user < lk
      · rw [if_pos hlt] at h
        simp only [Option.some.injEq, Prod.mk.injEq] at h
        exact absurd h.2.1 (by simp)
      · rw [if_neg hlt] at h
        by_cases hgt : lk < wk.user
        · rw [if_pos hgt] at h
          simp only [Option.some.injEq, Prod.mk.injEq] at h
          rw [← h.1]
          exact hgt
        · rw [if_neg hgt] at h
          simp only [Option.some.injEq, Prod.mk.injEq] at h
          exact absurd h.2.1 (by simp)

theorem getSkipLoop_notmet_entry (u : Bytes) :
    ∀ (s s1 : Scanner) (r : Except ScanError (Option Value)),
      Scanner.getSkipLoop u s = (r, false, s1) →
      (∀ e, s.wEntry = some e → e.1.user = u) →
      s1.wEntry = none ∨ ∃ e, s1.wEntry = some e ∧ e.1.user = u := by
  have H : ∀ m (s : Scanner), s.writeItems.length - s.writePos ≤ m →
      ∀ s1 r, Scanner.getSkipLoop u s = (r, false, s1) →
      (∀ e, s.wEntry = some e → e.1.user = u) →
      s1.wEntry = none ∨ ∃ e, s1.wEntry = some e ∧ e.1.user = u := by
    intro m
    induction m with
    | zero =>
        intro s hm s1 r h hu
        have hnone : s.wEntry = none := (Scanner.wEntry_none_iff s).2 (by omega)
        rw [getSkipLoop_none u s hnone] at h
        simp only [Prod.mk.injEq] at h
        exact Or.inl (h.2.2 ▸ hnone)
    | succ m ih =>
        intro s hm s1 r h hu
        cases he : s.wEntry with
        | none =>
            rw [getSkipLoop_none u s he] at h
            simp only [Prod.mk.injEq] at h
            exact Or.inl (h.2.2 ▸ he)
        | some e =>
            have hue : e.1.user = u := hu e he
            have hmeas : (s.incWProcessed.bumpWNext).writeItems.length -
                (s.incWProcessed.bumpWNext).writePos ≤ m := by
              simp only [Scanner.bumpWNext_writeItems, Scanner.bumpWNext_writePos,
                Scanner.incWProcessed_writeItems, Scanner.incWProcessed_writePos]
              omega
            cases hwt : e.2.write_type with
            | put =>
                rw [getSkipLoop_put u s e he hwt] at h
                rcases hl : s.incWProcessed.load_data_by_write e.2 u with ⟨rr, s2⟩
                rw [hl] at h
                have hitems2 : s2.writeItems = (s.incWProcessed).writeItems := by
                  have := baseFrame_load s.incWProcessed e.2 u
                  rw [hl] at this
                  exact this.1
                have hpos2 : s2.writePos = (s.incWProcessed).writePos := by
                  have := load_writePos s.incWProcessed e.2 u
                  rw [hl] at this
                  exact this
                have he2 : s2.wEntry = some e := by
                  rw [Scanner.wEntry, hitems2, hpos2]
                  exact he
                cases rr with
                | ok v =>
                    simp only [Prod.mk.injEq] at h
                    exact Or.inr ⟨e, h.2.2 ▸ he2, hue⟩
                | error er =>
                    simp only [Prod.mk.injEq] at h
                    exact Or.inr ⟨e, h.2.2 ▸ he2, hue⟩
            | delete =>
                rw [getSkipLoop_delete u s e he hwt] at h
                simp only [Prod.mk.injEq] at h
                exact Or.inr ⟨e, h.2.2 ▸ he, hue⟩
            | lockKind =>
                cases h2 : (s.incWProcessed.bumpWNext).wEntry with
                | none =>
                    rw [getSkipLoop_skip_none u s e he (Or.inl hwt) h2] at h
                    simp only [Prod.mk.injEq] at h
                    exact Or.inl (h.2.2 ▸ h2)
                | some e2 =>
                    by_cases hne : e2.1.user ≠ u
                    · rw [getSkipLoop_skip_met u s e e2 he (Or.inl hwt) h2 hne] at h
                      simp only [Prod.mk.injEq] at h
                      exact absurd h.2.1 (by simp)
                    · rw [getSkipLoop_skip_rec u s e e2 he (Or.inl hwt) h2 (not_not.1 hne)] at h
                      refine ih _ hmeas s1 r h ?_
                      intro e' he'
                      rw [h2] at he'
                      cases Option.some.inj he'
                      exact not_not.1 hne
            | rollback =>
                cases h2 : (s.incWProcessed.bumpWNext).wEntry with
                | none =>
                    rw [getSkipLoop_skip_none u s e he (Or.inr hwt) h2] at h
                    simp only [Prod.mk.injEq] at h
                    exact Or.inl (h.2.2 ▸ h2)
                | some e2 =>
                    by_cases hne : e2.1.user ≠ u
                    · rw [getSkipLoop_skip_met u s e e2 he (Or.inr hwt) h2 hne] at h
                      simp only [Prod.mk.injEq] at h
                      exact absurd h.2.1 (by simp)
                    · rw [getSkipLoop_skip_rec u s e e2 he (Or.inr hwt) h2 (not_not.1 hne)] at h
                      refine ih _ hmeas s1 r h ?_
                      intro e' he'
                      rw [h2] at he'
                      cases Option.some.inj he'
                      exact not_not.1 hne
  intro s s1 r h hu
  exact H _ s le_rfl s1 r h hu

theorem get_notmet_entry (s : Scanner) (u : Bytes) (ts : Nat) (s1 : Scanner)
    (r : Except ScanError (Option Value))
    (h : s.get u ts = (r, false, s1)) :
    s1.wEntry = none ∨ ∃ e, s1.wEntry = some e ∧ e.1.user = u := by
  unfold Scanner.get at h
  by_cases hv : s.wValid = true
  · rw [if_neg (by simp [hv])] at h
    rcases hgl : Scanner.getNextLoop u ts SEEK_BOUND s with ⟨sA, res⟩
    rw [hgl] at h
    cases res with
    | ended =>
        dsimp only at h
        have hnone := getNextLoop_ended_inv u ts SEEK_BOUND s sA hgl
        simp only [Prod.mk.injEq] at h
        exact Or.inl (h.2.2 ▸ hnone)
    | metAnother =>
        dsimp only at h
        simp only [Prod.mk.injEq] at h
        exact absurd h.2.1 (by simp)
    | found =>
        dsimp only at h
        obtain ⟨eF, heF, huF, -, -⟩ := getNextLoop_found_entry u ts SEEK_BOUND s sA hgl
        refine getSkipLoop_notmet_entry u sA s1 r h ?_
        intro e' he'
        rw [heF] at he'
        cases Option.some.inj he'
        exact huF
    | exhausted =>
        dsimp only at h
        cases hwe : (sA.wSeek ⟨u, ts⟩).wEntry with
        | none =>
            rw [hwe] at h
            dsimp only at h
            simp only [Prod.mk.injEq] at h
            exact Or.inl (h.2.2 ▸ hwe)
        | some e =>
            rw [hwe] at h
            dsimp only at h
            by_cases hne : e.1.user ≠ u
            · rw [if_pos hne] at h
              simp only [Prod.mk.injEq] at h
              exact absurd h.2.1 (by simp)
            · rw [if_neg hne] at h
              refine getSkipLoop_notmet_entry u _ s1 r h ?_
              intro e' he'
              rw [hwe] at he'
              cases Option.some.inj he'
              exact not_not.1 hne
  · rw [if_pos hv] at h
    simp only [Prod.mk.injEq] at h
    refine Or.inl (h.2.2 ▸ (Scanner.wEntry_none_iff s).2 ?_)
    simp only [Scanner.wValid, decide_eq_true_eq] at hv
    omega

end FwdScan


namespace FwdScan

theorem step_master {cl : Bytes → Nat → LockRec → CheckLockResult} {s : Scanner}
    {o : Option (Except ScanError (Option (Bytes × Value)))} {s2 : Scanner}
    (hwf : WfStore s) (hgs : AtNewestVersion s)
    (h : Scanner.readNextStep cl s = (o, s2)) :
    AtNewestVersion s2 ∧
    (∀ k, PastAll s k → PastAll s2 k ∧
      ∀ u' v, o = some (Except.ok (some (u', v))) → k < u') ∧
    (∀ u' v, o = some (Except.ok (some (u', v))) → PastAll s2 u') := by
  unfold Scanner.readNextStep at h
  cases hsel : selectCurrent ((s.wEntry).map Prod.fst) ((s.lEntry).map Prod.fst) with
  | none =>
      rw [hsel] at h
      simp only [Prod.mk.injEq] at h
      obtain ⟨ho, hs⟩ := h
      rw [← hs]
      refine ⟨hgs, fun k hp => ⟨hp, ?_⟩, ?_⟩
      · intro u' v hov
        rw [← ho] at hov
        simp at hov
      · intro u' v hov
        rw [← ho] at hov
        simp at hov
  | some c =>
      rcases c with ⟨u, hwb, hlb⟩
      rw [hsel] at h
      dsimp only at h
      obtain ⟨hselw, hsell, hwl⟩ := selectCurrent_some_inv hsel
      have hkgt : ∀ k, PastAll s k → k < u := by
        intro k hp
        rcases hwl with hb | hb
        · obtain ⟨wk, hwk, hwku⟩ := hselw hb
          obtain ⟨e0, he0, hfst⟩ := Option.map_eq_some'.1 hwk
          have hlt := hp.1 e0 he0
          rw [hfst, hwku] at hlt
          exact hlt
        · have hlk := hsell hb
          obtain ⟨le, hle, hfst⟩ := Option.map_eq_some'.1 hlk
          have hlt := hp.2 le hle
          rw [hfst] at hlt
          exact hlt
      rcases hstep : (if hlb = true then s.handleLock cl u
          else Except.ok (Except.ok none, s.ts, s)) with e | trip
      · rw [hstep] at h
        simp only [Prod.mk.injEq] at h
        obtain ⟨ho, hs⟩ := h
        rw [← hs]
        refine ⟨hgs, fun k hp => ⟨hp, ?_⟩, ?_⟩
        · intro u' v hov
          rw [← ho] at hov
          simp at hov
        · intro u' v hov
          rw [← ho] at hov
          simp at hov
      · rcases trip with ⟨result, get_ts, s1⟩
        rw [hstep] at h
        dsimp only at h
        have hs1' : (s1 = s.bumpLNext ∧ ∃ le0, s.lEntry = some le0 ∧ le0.1 = u)
            ∨ (hlb = false ∧ s1 = s) := by
          by_cases hhl : hlb = true
          · rw [if_pos hhl] at hstep
            refine Or.inl ⟨handleLock_ok_state hstep, ?_⟩
            have hlk := hsell hhl
            obtain ⟨le, hle, hfst⟩ := Option.map_eq_some'.1 hlk
            exact ⟨le, hle, hfst⟩
          · rw [if_neg hhl] at hstep
            simp only [Except.ok.injEq, Prod.mk.injEq] at hstep
            refine Or.inr ⟨?_, hstep.2.2.symm⟩
            revert hhl
            cases hlb <;> simp
        have hs1 : s1 = s ∨ s1 = s.bumpLNext := by
          rcases hs1' with ⟨h1, -⟩ | ⟨-, h1⟩
          · exact Or.inr h1
          · exact Or.inl h1
        have hitems1 : s1.writeItems = s.writeItems := by
          rcases hs1 with h1 | h1 <;> rw [h1] <;> simp
        have hpos1 : s1.writePos = s.writePos := by
          rcases hs1 with h1 | h1 <;> rw [h1] <;> simp
        have hgs1 : AtNewestVersion s1 := atNewest_congr hitems1 hpos1 hgs
        have hsort1 : SortedWrites s1.writeItems := by
          rw [hitems1]
          exact hwf.1
        have hposts1 : PosTs s1.writeItems := by
          rw [hitems1]
          exact hwf.2.2
        have hsortL : SortedLocks s.lockItems := hwf.2.1
        have hLu : ∀ le, s1.lEntry = some le → u < le.1 := by
          rcases hs1' with ⟨hbump, le0, hle0, hle0u⟩ | ⟨hhlf, hid⟩
          · intro le hle
            rw [hbump] at hle
            have hle' : s.lockItems.get? (s.lockPos + 1) = some le := hle
            have hle0' : s.lockItems.get? s.lockPos = some le0 := hle0
            have hlt := sorted_locks_get?_lt hsortL (Nat.lt_succ_self _) hle0' hle'
            rw [hle0u] at hlt
            exact hlt
          · intro le hle
            rw [hid] at hle
            rw [hhlf] at hsel
            exact selectCurrent_lock_gt hsel le.1 (by rw [hle]; rfl)
        rcases hhw : (if hwb = true then s1.handleWrite u get_ts result else (result, s1))
            with ⟨r2, s3⟩
        rw [hhw] at h
        have hWmain : AtNewestVersion s3 ∧ (∀ e, s3.wEntry = some e → u < e.1.user) ∧
            s3.lEntry = s1.lEntry := by
          by_cases hb : hwb = true
          · rw [if_pos hb] at hhw
            obtain ⟨e0, he0, hu0⟩ : ∃ e0, s.wEntry = some e0 ∧ e0.1.user = u := by
              obtain ⟨wk, hwk, hwku⟩ := hselw hb
              obtain ⟨e0, he0, hfst⟩ := Option.map_eq_some'.1 hwk
              exact ⟨e0, he0, by rw [hfst]; exact hwku⟩
            have he0' : s1.wEntry = some e0 := by
              rw [Scanner.wEntry, hitems1, hpos1]
              exact he0
            have hp1 : PastKeyW s1 u := pastKeyW_of_atNewest hsort1 hgs1 he0' hu0
            have hlE : s3.lEntry = s1.lEntry := by
              have h1 := handleWrite_lockPos s1 u get_ts result
              rw [hhw] at h1
              have h2 := baseFrame_handleWrite s1 u get_ts result
              rw [hhw] at h2
              rw [Scanner.lEntry, h2.2.1, h1]
              rfl
            have hmain : AtNewestVersion s3 ∧ (∀ e, s3.wEntry = some e → u < e.1.user) := by
              rcases result with er | ow
              · unfold Scanner.handleWrite at hhw
                dsimp only at hhw
                rw [if_neg (by simp)] at hhw
                simp only [Prod.mk.injEq] at hhw
                rw [← hhw.2]
                have hgt := moveW_past hsort1 hposts1 he0' hu0
                exact ⟨atNewest_of_past (pastW_moveW s1 u hp1) hgt, hgt⟩
              · unfold Scanner.handleWrite at hhw
                dsimp only at hhw
                rcases hget : s1.get u get_ts with ⟨r, met, s1x⟩
                rw [hget] at hhw
                dsimp only at hhw
                have hpx : PastKeyW s1x u := by
                  have := pastW_get s1 u get_ts hp1
                  rw [hget] at this
                  exact this
                have hixframe : s1x.writeItems = s1.writeItems := by
                  have := baseFrame_get s1 u get_ts
                  rw [hget] at this
                  exact this.1
                cases met with
                | true =>
                    simp only [if_pos] at hhw
                    simp only [Prod.mk.injEq] at hhw
                    rw [← hhw.2]
                    obtain ⟨e1, he1, -, hlt1⟩ :=
                      get_met_gt s1 u get_ts r s1x hsort1 e0 he0' hu0 hget
                    have hgt : ∀ e, s1x.wEntry = some e → u < e.1.user := by
                      intro e' he'
                      rw [he1] at he'
                      cases Option.some.inj he'
                      exact hlt1
                    exact ⟨atNewest_of_past hpx hgt, hgt⟩
                | false =>
                    rw [if_neg (by simp)] at hhw
                    simp only [Prod.mk.injEq] at hhw
                    rw [← hhw.2]
                    rcases get_notmet_entry s1 u get_ts s1x r hget with hnone | ⟨e1, he1, hu1⟩
                    · rw [moveW_of_wEntry_none hnone]
                      have hgt : ∀ e, s1x.wEntry = some e → u < e.1.user := by
                        intro e' he'
                        rw [hnone] at he'
                        exact Option.noConfusion he'
                      exact ⟨atNewest_of_past hpx hgt, hgt⟩
                    · have hsortx : SortedWrites s1x.writeItems := by
                        rw [hixframe]
                        exact hsort1
                      have hpostsx : PosTs s1x.writeItems := by
                        rw [hixframe]
                        exact hposts1
                      have hgt := moveW_past hsortx hpostsx he1 hu1
                      exact ⟨atNewest_of_past (pastW_moveW s1x u hpx) hgt, hgt⟩
            exact ⟨hmain.1, hmain.2, hlE⟩
          · rw [if_neg hb] at hhw
            simp only [Prod.mk.injEq] at hhw
            rw [← hhw.2]
            refine ⟨hgs1, ?_, rfl⟩
            intro e he
            have hb' : hwb = false := by
              revert hb
              cases hwb <;> simp
            rw [hb'] at hsel
            rw [Scanner.wEntry, hitems1, hpos1] at he
            exact selectCurrent_write_gt hsel e.1 (by
              rw [show s.wEntry = some e from he]
              rfl)
        have hPk : ∀ k, PastAll s k → PastAll s3 k := by
          intro k hp
          refine ⟨fun e he => lt_trans (hkgt k hp) (hWmain.2.1 e he), ?_⟩
          intro le hle
          refine lt_trans (hkgt k hp) (hLu le ?_)
          rw [← hWmain.2.2]
          exact hle
        have hPu : PastAll s3 u := by
          refine ⟨hWmain.2.1, ?_⟩
          intro le hle
          refine hLu le ?_
          rw [← hWmain.2.2]
          exact hle
        rcases r2 with er | ov
        · simp only [Prod.mk.injEq] at h
          obtain ⟨ho, hs⟩ := h
          rw [← hs]
          refine ⟨hWmain.1, fun k hp => ⟨hPk k hp, ?_⟩, ?_⟩
          · intro u' v hov
            rw [← ho] at hov
            simp at hov
          · intro u' v hov
            rw [← ho] at hov
            simp at hov
        · rcases ov with _ | v2
          · simp only [Prod.mk.injEq] at h
            obtain ⟨ho, hs⟩ := h
            rw [← hs]
            refine ⟨hWmain.1, fun k hp => ⟨hPk k hp, ?_⟩, ?_⟩
            · intro u' v hov
              rw [← ho] at hov
              simp at hov
            · intro u' v hov
              rw [← ho] at hov
              simp at hov
          · simp only [Prod.mk.injEq] at h
            obtain ⟨ho, hs⟩ := h
            rw [← hs]
            refine ⟨hWmain.1, fun k hp => ⟨hPk k hp, ?_⟩, ?_⟩
            · intro u' v hov
              rw [← ho] at hov
              simp only [Option.some.injEq, Except.ok.injEq, Prod.mk.injEq] at hov
              rw [← hov.1]
              exact hkgt k hp
            · intro u' v hov
              rw [← ho] at hov
              simp only [Option.some.injEq, Except.ok.injEq, Prod.mk.injEq] at hov
              rw [← hov.1]
              exact hPu

end FwdScan

namespace FwdScan

theorem loop_master (cl : Bytes → Nat → LockRec → CheckLockResult) :
    ∀ n (s : Scanner) (r : Except ScanError (Option (Bytes × Value))) (s2 : Scanner),
      WfStore s → AtNewestVersion s →
      Scanner.readNextLoop cl n s = (r, s2) →
      AtNewestVersion s2 ∧
      (∀ k, PastAll s k → PastAll s2 k ∧
        ∀ u v, r = Except.ok (some (u, v)) → k < u) ∧
      (∀ u v, r = Except.ok (some (u, v)) → PastAll s2 u) := by
  intro n
  induction n with
  | zero =>
      intro s r s2 hwf hgs h
      unfold Scanner.readNextLoop at h
      simp only [Prod.mk.injEq] at h
      obtain ⟨hr, hs⟩ := h
      rw [← hs]
      refine ⟨hgs, fun k hp => ⟨hp, ?_⟩, ?_⟩
      · intro u v hru
        rw [← hr] at hru
        simp at hru
      · intro u v hru
        rw [← hr] at hru
        simp at hru
  | succ n ih =>
      intro s r s2 hwf hgs h
      unfold Scanner.readNextLoop at h
      rcases hstep : Scanner.readNextStep cl s with ⟨o, s1⟩
      rw [hstep] at h
      have hm := step_master hwf hgs hstep
      have hf : baseFrame s s1 := by
        have := baseFrame_readNextStep cl s
        rw [hstep] at this
        exact this
      cases o with
      | none =>
          have hwf1 : WfStore s1 := wfStore_of_frame hf hwf
          have hrec := ih s1 r s2 hwf1 hm.1 h
          refine ⟨hrec.1, fun k hp => ?_, hrec.2.2⟩
          exact hrec.2.1 k (hm.2.1 k hp).1
      | some r0 =>
          simp only [Prod.mk.injEq] at h
          obtain ⟨hr, hs⟩ := h
          rw [← hs]
          refine ⟨hm.1, fun k hp => ⟨(hm.2.1 k hp).1, ?_⟩, ?_⟩
          · intro u v hru
            exact (hm.2.1 k hp).2 u v (by rw [hr, hru])
          · intro u v hru
            exact hm.2.2 u v (by rw [hr, hru])

theorem read_next_master {cl : Bytes → Nat → LockRec → CheckLockResult} {s : Scanner}
    {r : Except ScanError (Option (Bytes × Value))} {s2 : Scanner}
    (hwf : WfStore s) (hgs : AtNewestVersion s)
    (h : Scanner.read_next cl s = (r, s2)) :
    WfStore s2 ∧ AtNewestVersion s2 ∧
    (s.is_started = true → s2.is_started = true) ∧
    (∀ k, s.is_started = true → PastAll s k →
      PastAll s2 k ∧ ∀ u v, r = Except.ok (some (u, v)) → k < u) ∧
    (∀ u v, r = Except.ok (some (u, v)) → PastAll s2 u ∧ s2.is_started = true) := by
  by_cases hstart : s.is_started = true
  · rw [read_next_started cl s hstart] at h
    have hM := loop_master cl (Scanner.fuelOf s) s r s2 hwf hgs h
    have hf : baseFrame s s2 := by
      have := baseFrame_readNextLoop cl (Scanner.fuelOf s) s
      rw [h] at this
      exact this
    refine ⟨wfStore_of_frame hf hwf, hM.1, ?_, fun k _ hp => hM.2.1 k hp,
      fun u v hr => ⟨hM.2.2 u v hr, ?_⟩⟩
    · intro hst
      rw [hf.2.2.2.2.2.2]
      exact hst
    · rw [hf.2.2.2.2.2.2]
      exact hstart
  · cases hlb : s.lower_bound with
    | none =>
        rw [read_next_unstarted_none cl s hstart hlb] at h
        simp only [Prod.mk.injEq] at h
        obtain ⟨hr, hs⟩ := h
        rw [← hs]
        refine ⟨hwf, hgs, fun hst => hst, fun k _ hp => ⟨hp, ?_⟩, ?_⟩
        · intro u v hru
          rw [← hr] at hru
          simp at hru
        · intro u v hru
          rw [← hr] at hru
          simp at hru
    | some lb =>
        rw [read_next_unstarted_some cl s lb hstart hlb] at h
        have hwfT : WfStore
            { (s.wSeekUserKey lb).lSeekUserKey lb with is_started := true } :=
          ⟨hwf.1, hwf.2.1, hwf.2.2⟩
        have hM := loop_master cl _ _ r s2 hwfT (atNewest_seekUserKey s lb) h
        have hf : baseFrame
            { (s.wSeekUserKey lb).lSeekUserKey lb with is_started := true } s2 := by
          have := baseFrame_readNextLoop cl
            (Scanner.fuelOf { (s.wSeekUserKey lb).lSeekUserKey lb with is_started := true })
            { (s.wSeekUserKey lb).lSeekUserKey lb with is_started := true }
          rw [h] at this
          exact this
        refine ⟨wfStore_of_frame hf hwfT, hM.1, fun hst => absurd hst hstart,
          fun k hst hp => absurd hst hstart, fun u v hr => ⟨hM.2.2 u v hr, ?_⟩⟩
        rw [hf.2.2.2.2.2.2]

theorem scanKeys_master (cl : Bytes → Nat → LockRec → CheckLockResult) :
    ∀ n (s : Scanner), WfStore s → AtNewestVersion s →
      (scanKeys cl n s).Pairwise (fun a b => a < b) ∧
      (∀ k, s.is_started = true → PastAll s k →
        ∀ k', k' ∈ scanKeys cl n s → k < k') := by
  intro n
  induction n with
  | zero =>
      intro s hwf hgs
      exact ⟨List.Pairwise.nil, fun k hst hp k' hk' => absurd hk' (by simp [scanKeys])⟩
  | succ n ih =>
      intro s hwf hgs
      rcases hrn : Scanner.read_next cl s with ⟨r, s1⟩
      have hm := read_next_master hwf hgs hrn
      have hrec := ih s1 hm.1 hm.2.1
      rcases r with er | ov
      · have hsk : scanKeys cl (n + 1) s = scanKeys cl n s1 := by
          rw [scanKeys, hrn]
        rw [hsk]
        refine ⟨hrec.1, ?_⟩
        intro k hst hp k' hk'
        exact hrec.2 k (hm.2.2.1 hst) (hm.2.2.2.1 k hst hp).1 k' hk'
      · rcases ov with _ | kv
        · have hsk : scanKeys cl (n + 1) s = [] := by
            rw [scanKeys, hrn]
          rw [hsk]
          exact ⟨List.Pairwise.nil, fun k hst hp k' hk' => absurd hk' (by simp)⟩
        · have hsk : scanKeys cl (n + 1) s = kv.1 :: scanKeys cl n s1 := by
            rw [scanKeys, hrn]
          rw [hsk]
          obtain ⟨hPu, hst1⟩ := hm.2.2.2.2 kv.1 kv.2 rfl
          have htail := hrec.2 kv.1 hst1 hPu
          constructor
          · exact List.Pairwise.cons (fun b hb => htail b hb) hrec.1
          · intro k hst hp k' hk'
            rcases List.mem_cons.1 hk' with hk1 | hk1
            · rw [hk1]
              exact (hm.2.2.2.1 k hst hp).2 kv.1 kv.2 rfl
            · exact lt_trans ((hm.2.2.2.1 k hst hp).2 kv.1 kv.2 rfl) (htail k' hk1)

/-- C2: for one scanner over a well-formed store, the user keys produced
by successive successful `read_next` calls are pairwise strictly
ascending in the lexicographic byte order — in particular no user key is
ever produced twice. -/
theorem claim_C2 (cl : Bytes → Nat → LockRec → CheckLockResult) (n : Nat) (s : Scanner)
    (hwf : WfStore s) (hgs : AtNewestVersion s) :
    (scanKeys cl n s).Pairwise (fun a b => a < b) :=
  (scanKeys_master cl n s hwf hgs).1

/-- Closed witness for C2 on the single-Put fixture. -/
theorem claim_C2_witness :
    WfStore C1fixture ∧ AtNewestVersion C1fixture ∧
    (scanKeys noLockCheck 2 C1fixture).Pairwise (fun a b => a < b) :=
  ⟨⟨by unfold SortedWrites; decide, by unfold SortedLocks; decide, by unfold PosTs; decide⟩,
   fun e he j hj ej hg => absurd hj (Nat.not_lt_zero j),
   claim_C2 noLockCheck 2 C1fixture
     ⟨by unfold SortedWrites; decide, by unfold SortedLocks; decide, by unfold PosTs; decide⟩
     (fun e he j hj ej hg => absurd hj (Nat.not_lt_zero j))⟩

end FwdScan
